import Mathlib

/-!
# Fixed arena memory resource and allocator-aware doubly linked list

A shallow embedding of `include/pool_resource.hpp` (`FixedListMemoryResource`) and
`include/pmr_list.hpp` (`pmr_list<T>`).

* Addresses (`void*`, `char*`, `Node*`) are natural numbers; `nullptr` is `0`.
* The two `std::list<Block>` ledgers are Lean lists; `push_back` is `++ [_]`, and the host
  heap that stores the ledgers themselves is taken not to run out.
* A member function that may throw returns its outcome together with the state it
  leaves behind, so that "nothing changed when it threw" is a statement to be proved.
* `std::size_t` is 64 bits wide: the counter `sz_` wraps modulo `2 ^ 64`. The difference
  `limit_ - cursor_` is taken in `Nat`; it is exact because `cursor_ ≤ limit_` in every
  state the class can be in (`FixedListMemoryResource.Reachable.valid`).
* Node memory is indexed by node address: live nodes sit in blocks handed out by the
  memory resource, which have distinct addresses.
* Loops that follow pointers (`clear`, a traversal) take a bound on their iterations and
  return `none` when it is exceeded; termination is then a statement to be proved.
-/

namespace Laba5

/-! ## `pool_resource.hpp` -/

/-- The exceptions that can leave a call: `std::bad_alloc`, the only one the code itself
throws, and `element`, standing for whatever the constructor of the element type throws
inside `Traits::construct`. -/
inductive Exn where
  | bad_alloc
  | element
  deriving DecidableEq

/-- Outcomes of a call can be compared. -/
instance instDecidableEqExcept {ε α : Type} [DecidableEq ε] [DecidableEq α] :
    DecidableEq (Except ε α)
  | .ok a, .ok b =>
    if h : a = b then isTrue (by rw [h]) else isFalse (fun e => h (Except.ok.inj e))
  | .error a, .error b =>
    if h : a = b then isTrue (by rw [h]) else isFalse (fun e => h (Except.error.inj e))
  | .ok _, .error _ => isFalse (fun e => by cases e)
  | .error _, .ok _ => isFalse (fun e => by cases e)

/-- The ledger entry `struct Block { void* ptr; std::size_t size; }`. -/
structure Block where
  ptr : Nat
  size : Nat
  deriving DecidableEq

/-- The data members of `FixedListMemoryResource`. -/
structure FixedListMemoryResource where
  buffer_ : Nat
  capacity_ : Nat
  cursor_ : Nat
  limit_ : Nat
  allocated_ : List Block
  freed_ : List Block
  deriving DecidableEq

/-- The constructor `FixedListMemoryResource(total_bytes)`; `base` is the address that
`::operator new(total_bytes)` returned (never null, and the buffer ends inside the 64-bit
address space). -/
def FixedListMemoryResource.construct (base total_bytes : Nat) : FixedListMemoryResource :=
  { buffer_ := base, capacity_ := total_bytes, cursor_ := base,
    limit_ := base + total_bytes, allocated_ := [], freed_ := [] }

/-- The accessor `used()`: `cursor_ - buffer_`. -/
def FixedListMemoryResource.used (m : FixedListMemoryResource) : Nat :=
  m.cursor_ - m.buffer_

/-- The accessor `capacity()`. -/
def FixedListMemoryResource.capacity (m : FixedListMemoryResource) : Nat :=
  m.capacity_

/-- The shape shared by the two ledger loops
`for (it = l.begin(); it != l.end(); ++it) if (cond(*it)) { ...; l.erase(it); return; }`:
the first entry satisfying `cond`, paired with the ledger after `erase(it)`; `none` when
the loop runs off the end. -/
def takeFirst (cond : Block → Bool) : List Block → Option (Block × List Block)
  | [] => none
  | b :: rest =>
    if cond b then some (b, rest)
    else
      match takeFirst cond rest with
      | none => none
      | some (hit, rest') => some (hit, b :: rest')

/-- The test of the reuse loop in `do_allocate`:
`(uintptr_t)(it->ptr) % alignment == 0 && it->size >= bytes`. -/
def fits (bytes alignment : Nat) (b : Block) : Bool :=
  b.ptr % alignment == 0 && decide (bytes ≤ b.size)

/-- Number of bytes between `p` and the first multiple of `alignment` at or after `p`. -/
def padding (alignment p : Nat) : Nat :=
  (alignment - p % alignment) % alignment

/-- Modelled from the spec: `std::align(alignment, size, ptr, space)` is a standard-library
function whose body is not part of the repository. By its contract (and the spec's "if
alignment padding plus size fits before the buffer's end") it returns the first address at
or after `ptr` that is a multiple of `alignment`, provided `size` bytes fit into the `space`
bytes starting at `ptr` once the padding is skipped, and a null pointer otherwise. -/
def std_align (alignment size ptr space : Nat) : Option Nat :=
  if size ≤ space ∧ padding alignment ptr ≤ space - size then
    some (ptr + padding alignment ptr)
  else none

/-- The first statement of `do_allocate`: `if (bytes == 0) bytes = 1;`. -/
def coerce (bytes : Nat) : Nat :=
  if bytes = 0 then 1 else bytes

/-- The member function `do_allocate(bytes, alignment)`: the returned address or the
exception thrown, and the resource afterwards. -/
def FixedListMemoryResource.do_allocate (m : FixedListMemoryResource)
    (bytes alignment : Nat) : Except Exn Nat × FixedListMemoryResource :=
  let bytes := coerce bytes
  match takeFirst (fits bytes alignment) m.freed_ with
  | some (hit, rest) =>
    (.ok hit.ptr,
      { m with allocated_ := m.allocated_ ++ [⟨hit.ptr, bytes⟩], freed_ := rest })
  | none =>
    let space := m.limit_ - m.cursor_
    match std_align alignment bytes m.cursor_ space with
    | some p =>
      (.ok p, { m with cursor_ := p + bytes, allocated_ := m.allocated_ ++ [⟨p, bytes⟩] })
    | none => (.error .bad_alloc, m)

/-- The member function `do_deallocate(p, bytes, alignment)`; the last two arguments are
not read by the code. -/
def FixedListMemoryResource.do_deallocate (m : FixedListMemoryResource)
    (p : Nat) (_bytes _alignment : Nat) : FixedListMemoryResource :=
  if p = 0 then m
  else
    match takeFirst (fun b => b.ptr == p) m.allocated_ with
    | some (hit, rest) => { m with freed_ := m.freed_ ++ [hit], allocated_ := rest }
    | none => m

/-- A power of two, the alignments a `memory_resource` may be asked for. -/
def IsPow2 (a : Nat) : Prop := ∃ k, a = 2 ^ k

/-- The states a `FixedListMemoryResource` object can be in: what the constructor builds,
closed under `do_allocate` (with a power-of-two alignment) and `do_deallocate`. -/
inductive FixedListMemoryResource.Reachable : FixedListMemoryResource → Prop where
  | construct (base total_bytes : Nat) (hbase : 0 < base)
      (hfit : base + total_bytes < 2 ^ 64) :
      Reachable (FixedListMemoryResource.construct base total_bytes)
  | allocate {m : FixedListMemoryResource} (bytes alignment : Nat) (ha : IsPow2 alignment) :
      Reachable m → Reachable (m.do_allocate bytes alignment).2
  | deallocate {m : FixedListMemoryResource} (p bytes alignment : Nat) :
      Reachable m → Reachable (m.do_deallocate p bytes alignment)

/-! ## `pmr_list.hpp` -/

/-- The list's `struct Node { T value; Node* prev; Node* next; }`. -/
structure Node (α : Type) where
  value : α
  prev : Nat
  next : Nat

/-- The two constants of the element type that reach the memory resource:
`sizeof(Node)` and `alignof(Node)`. -/
structure NodeLayout where
  size : Nat
  align : Nat
  deriving DecidableEq

/-- Arithmetic of `std::size_t` (64 bits): the value of the counter after `++`/`--`. -/
def wrap (n : Nat) : Nat := n % 2 ^ 64

/-- The state a `pmr_list<T>` object lives in: the memory resource its `alloc_` points
to, the memory holding `Node` objects (indexed by address), and the members `head_`,
`tail_`, `sz_`. -/
structure pmr_list (α : Type) where
  alloc_ : FixedListMemoryResource
  heap : Nat → Node α
  head_ : Nat
  tail_ : Nat
  sz_ : Nat

/-- Overwrite the node stored at address `a`. -/
def store {α : Type} (h : Nat → Node α) (a : Nat) (n : Node α) : Nat → Node α :=
  fun x => if x = a then n else h x

/-- The assignment `a->prev = p`. -/
def setPrev {α : Type} (h : Nat → Node α) (a p : Nat) : Nat → Node α :=
  store h a { h a with prev := p }

/-- The assignment `a->next = p`. -/
def setNext {α : Type} (h : Nat → Node α) (a p : Nat) : Nat → Node α :=
  store h a { h a with next := p }

namespace pmr_list

variable {α : Type}

/-- The constructor `pmr_list(mr)`: `head_(nullptr), tail_(nullptr), sz_(0)`. -/
def construct (mr : FixedListMemoryResource) (heap : Nat → Node α) : pmr_list α :=
  { alloc_ := mr, heap := heap, head_ := 0, tail_ := 0, sz_ := 0 }

/-- The member `empty()`: `sz_ == 0`. -/
def empty (l : pmr_list α) : Bool := l.sz_ == 0

/-- The member `size()`. -/
def size (l : pmr_list α) : Nat := l.sz_

/-- The member `begin()`: an iterator is its `cur_` pointer. -/
def begin (l : pmr_list α) : Nat := l.head_

/-- The member `end()`: `iterator(nullptr)`. Named `end_` since `end` is reserved. -/
def end_ (_l : pmr_list α) : Nat := 0

/-- The member `emplace_back(args...)`; `alloc_.allocate(1)` asks the resource for
`sizeof(Node)` bytes aligned to `alignof(Node)` and lets its exception escape. The argument
`c` is what running the element's constructor on `args...` gives: the value `.ok v`, or the
exception `.error e` it throws. `Traits::construct` runs after the allocation, and when it
throws the function is left at once: nothing is linked and nothing is released. -/
def emplace_back (L : NodeLayout) (l : pmr_list α) (c : Except Exn α) :
    Except Exn Unit × pmr_list α :=
  match l.alloc_.do_allocate L.size L.align with
  | (.error e, a) => (.error e, { l with alloc_ := a })
  | (.ok n, a) =>
    match c with
    | .error e => (.error e, { l with alloc_ := a })
    | .ok v =>
    let h := store l.heap n ⟨v, 0, 0⟩
    let h := setPrev h n l.tail_
    let h := setNext h n 0
    let h := if l.tail_ ≠ 0 then setNext h l.tail_ n else h
    (.ok (), { alloc_ := a, heap := h, head_ := if l.head_ = 0 then n else l.head_,
               tail_ := n, sz_ := wrap (l.sz_ + 1) })

/-- The member `push_back(v)`: `emplace_back(v)`; `c` is the outcome of copying or moving
`v` into the node. -/
def push_back (L : NodeLayout) (l : pmr_list α) (c : Except Exn α) :
    Except Exn Unit × pmr_list α :=
  l.emplace_back L c

/-- The member `pop_back()`. -/
def pop_back (L : NodeLayout) (l : pmr_list α) : pmr_list α :=
  if l.tail_ = 0 then l
  else
    let rem := l.tail_
    let tail := (l.heap rem).prev
    { alloc_ := l.alloc_.do_deallocate rem L.size L.align,
      heap := if tail ≠ 0 then setNext l.heap tail 0 else l.heap,
      head_ := if tail ≠ 0 then l.head_ else 0,
      tail_ := tail,
      sz_ := wrap (l.sz_ + 2 ^ 64 - 1) }

/-- The member `emplace_front(args...)`; `c` is the outcome of the element's constructor,
as for `emplace_back`. -/
def emplace_front (L : NodeLayout) (l : pmr_list α) (c : Except Exn α) :
    Except Exn Unit × pmr_list α :=
  match l.alloc_.do_allocate L.size L.align with
  | (.error e, a) => (.error e, { l with alloc_ := a })
  | (.ok n, a) =>
    match c with
    | .error e => (.error e, { l with alloc_ := a })
    | .ok v =>
    let h := store l.heap n ⟨v, 0, 0⟩
    let h := setPrev h n 0
    let h := setNext h n l.head_
    let h := if l.head_ ≠ 0 then setPrev h l.head_ n else h
    (.ok (), { alloc_ := a, heap := h, head_ := n,
               tail_ := if l.tail_ = 0 then n else l.tail_, sz_ := wrap (l.sz_ + 1) })

/-- The member `push_front(v)`: `emplace_front(v)`; `c` is the outcome of copying or moving
`v` into the node. -/
def push_front (L : NodeLayout) (l : pmr_list α) (c : Except Exn α) :
    Except Exn Unit × pmr_list α :=
  l.emplace_front L c

/-- The member `pop_front()`. -/
def pop_front (L : NodeLayout) (l : pmr_list α) : pmr_list α :=
  if l.head_ = 0 then l
  else
    let rem := l.head_
    let head := (l.heap rem).next
    { alloc_ := l.alloc_.do_deallocate rem L.size L.align,
      heap := if head ≠ 0 then setPrev l.heap head 0 else l.heap,
      head_ := head,
      tail_ := if head ≠ 0 then l.tail_ else 0,
      sz_ := wrap (l.sz_ + 2 ^ 64 - 1) }

/-- The loop of `clear()`: `while (cur) { nx = cur->next; deallocate(cur); cur = nx; }`,
run for at most `fuel` iterations; `none` when the loop has not finished by then. -/
def clearLoop (L : NodeLayout) (h : Nat → Node α) :
    Nat → Nat → FixedListMemoryResource → Option FixedListMemoryResource
  | 0, cur, m => if cur = 0 then some m else none
  | fuel + 1, cur, m =>
    if cur = 0 then some m
    else clearLoop L h fuel (h cur).next (m.do_deallocate cur L.size L.align)

/-- The member `clear()`, its loop bounded by `fuel` iterations. -/
def clear (L : NodeLayout) (l : pmr_list α) (fuel : Nat) : Option (pmr_list α) :=
  match clearLoop L l.heap fuel l.head_ l.alloc_ with
  | none => none
  | some m => some { alloc_ := m, heap := l.heap, head_ := 0, tail_ := 0, sz_ := 0 }

/-- The member `erase(it)`: the returned iterator and the list afterwards. -/
def erase (L : NodeLayout) (l : pmr_list α) (it : Nat) : Nat × pmr_list α :=
  let n := it
  if n = 0 then (l.end_, l)
  else
    let nx := (l.heap n).next
    let pv := (l.heap n).prev
    let h1 := if pv ≠ 0 then setNext l.heap pv nx else l.heap
    let head := if pv ≠ 0 then l.head_ else nx
    let h2 := if nx ≠ 0 then setPrev h1 nx pv else h1
    let tail := if nx ≠ 0 then l.tail_ else pv
    (nx, { alloc_ := l.alloc_.do_deallocate n L.size L.align,
           heap := h2, head_ := head, tail_ := tail, sz_ := wrap (l.sz_ + 2 ^ 64 - 1) })

end pmr_list

/-- The iteration `for (it = begin(); it != end(); ++it)` started at `cur`: the node
addresses visited, allowing at most `fuel` increments; `none` when the end has not been
reached by then. -/
def iterate {α : Type} (h : Nat → Node α) : Nat → Nat → Option (List Nat)
  | 0, cur => if cur = 0 then some [] else none
  | fuel + 1, cur =>
    if cur = 0 then some []
    else
      match iterate h fuel (h cur).next with
      | none => none
      | some rest => some (cur :: rest)

/-- The mirror image of `iterate`, following `prev` links (the code has no such loop; the
data-model invariant speaks of it). -/
def iterateBack {α : Type} (h : Nat → Node α) : Nat → Nat → Option (List Nat)
  | 0, cur => if cur = 0 then some [] else none
  | fuel + 1, cur =>
    if cur = 0 then some []
    else
      match iterateBack h fuel (h cur).prev with
      | none => none
      | some rest => some (cur :: rest)

namespace pmr_list

variable {α : Type}

/-- The node addresses a forward traversal from `begin()` to `end()` visits. -/
def nodes (l : pmr_list α) (fuel : Nat) : Option (List Nat) :=
  iterate l.heap fuel l.begin

/-- The values a forward traversal from `begin()` to `end()` yields (`*it` at each step). -/
def traverse (l : pmr_list α) (fuel : Nat) : Option (List α) :=
  match l.nodes fuel with
  | none => none
  | some ns => some (ns.map fun a => (l.heap a).value)

end pmr_list

/-! ## Invariants used in the proofs -/

/-- Representation invariant of a `FixedListMemoryResource`: the constructor's layout of
`buffer_`, `cursor_`, `limit_` inside a 64-bit address space, every ledger entry a
non-empty block below the cursor, and no address recorded twice. -/
structure FixedListMemoryResource.Valid (m : FixedListMemoryResource) : Prop where
  buffer_pos : 0 < m.buffer_
  buffer_le : m.buffer_ ≤ m.cursor_
  cursor_le : m.cursor_ ≤ m.limit_
  limit_eq : m.limit_ = m.buffer_ + m.capacity_
  limit_lt : m.limit_ < 2 ^ 64
  blocks : ∀ b ∈ m.allocated_ ++ m.freed_,
    1 ≤ b.size ∧ m.buffer_ ≤ b.ptr ∧ b.ptr + b.size ≤ m.cursor_
  nodup : ((m.allocated_ ++ m.freed_).map Block.ptr).Nodup

/-- The first address of a list of nodes, `d` when there is none. -/
def firstD : List Nat → Nat → Nat
  | [], d => d
  | a :: _, _ => a

/-- The last address of a list of nodes, `d` when there is none. -/
def lastD : List Nat → Nat → Nat
  | [], d => d
  | a :: rest, _ => lastD rest a

/-- The node memory with the roles of `prev` and `next` exchanged. -/
def mirror {α : Type} (h : Nat → Node α) : Nat → Node α :=
  fun a => ⟨(h a).value, (h a).next, (h a).prev⟩

/-- A doubly linked segment: the nodes `ns` in chain order, the first one's `prev` being
`p` and the last one's `next` being `q`. -/
def Seg {α : Type} (h : Nat → Node α) : Nat → List Nat → Nat → Prop
  | _, [], _ => True
  | p, a :: rest, q => (h a).prev = p ∧ (h a).next = firstD rest q ∧ Seg h a rest q

namespace pmr_list

variable {α : Type}

/-- The list `l` consists of exactly the nodes `ns`, in this order: a null-terminated
doubly linked chain of distinct non-null nodes from `head_` to `tail_`, counted by `sz_`
(a `size_t`, so below `2 ^ 64`). -/
structure IsList (l : pmr_list α) (ns : List Nat) : Prop where
  seg : Seg l.heap 0 ns 0
  nodup : ns.Nodup
  nonnull : 0 ∉ ns
  head_eq : l.head_ = firstD ns 0
  tail_eq : l.tail_ = lastD ns 0
  sz_eq : l.sz_ = ns.length
  sz_lt : ns.length < 2 ^ 64

/-- The data-model invariant of the list, in the spec's words: `head_` is null iff `tail_`
is null iff `sz_` is zero; following `next` from `head_` visits `sz_` nodes, the last of
which is `tail_` and has a null `next`; following `prev` from `tail_` visits the same nodes
in reverse, ending at `head_` which has a null `prev`; and the links of every node agree
with those of its neighbours. The counter is a `size_t`. -/
def WellFormed (l : pmr_list α) : Prop :=
  l.sz_ < 2 ^ 64 ∧ (l.head_ = 0 ↔ l.tail_ = 0) ∧ (l.tail_ = 0 ↔ l.sz_ = 0) ∧
  ∃ ns : List Nat,
    iterate l.heap l.sz_ l.head_ = some ns ∧ ns.length = l.sz_ ∧
    lastD ns 0 = l.tail_ ∧ (l.tail_ ≠ 0 → (l.heap l.tail_).next = 0) ∧
    iterateBack l.heap l.sz_ l.tail_ = some ns.reverse ∧
    (l.head_ ≠ 0 → (l.heap l.head_).prev = 0) ∧
    ∀ n ∈ ns,
      ((l.heap n).next ≠ 0 → (l.heap (l.heap n).next).prev = n) ∧
      ((l.heap n).prev ≠ 0 → (l.heap (l.heap n).prev).next = n)

/-- The nodes of the list are live blocks of its memory resource: the resource satisfies
its representation invariant and every node a traversal visits is recorded in the
allocated ledger. -/
def Backed (l : pmr_list α) : Prop :=
  l.alloc_.Valid ∧
  ∀ fuel ns, l.nodes fuel = some ns → ∀ a ∈ ns, a ∈ l.alloc_.allocated_.map Block.ptr

/-- The invariant carried through the proofs: `l` is the chain `ns`, its resource is
valid, and every node of the chain is recorded in the allocated ledger. -/
structure Inv (l : pmr_list α) (ns : List Nat) : Prop where
  isList : l.IsList ns
  valid : l.alloc_.Valid
  owned : ∀ a ∈ ns, a ∈ l.alloc_.allocated_.map Block.ptr

/-- The list `l` is the chain `ns` and the allocated ledger of its resource records
exactly the addresses of `ns`. -/
structure Exact (l : pmr_list α) (ns : List Nat) : Prop where
  inv : l.Inv ns
  perm : (l.alloc_.allocated_.map Block.ptr).Perm ns

/-- One call of a public mutating member, relating the list before to the list after.
`erase` takes the end iterator or an iterator to a node of the list; a `push` that throws,
in the allocation or in the element's constructor, leaves the state the exception left. -/
inductive Step (L : NodeLayout) : pmr_list α → pmr_list α → Prop where
  | push_back (l : pmr_list α) (c : Except Exn α) : Step L l (l.push_back L c).2
  | push_front (l : pmr_list α) (c : Except Exn α) : Step L l (l.push_front L c).2
  | pop_back (l : pmr_list α) : Step L l (l.pop_back L)
  | pop_front (l : pmr_list α) : Step L l (l.pop_front L)
  | erase (l : pmr_list α) (it : Nat)
      (hit : it = l.end_ ∨ ∃ fuel ns, l.nodes fuel = some ns ∧ it ∈ ns) :
      Step L l (l.erase L it).2
  | clear (l l' : pmr_list α) (fuel : Nat) (h : l.clear L fuel = some l') : Step L l l'

/-- The list states reachable from a freshly constructed (empty) list over a reachable
memory resource by any finite sequence of public mutating members. -/
inductive Reachable (L : NodeLayout) : pmr_list α → Prop where
  | construct (mr : FixedListMemoryResource) (heap : Nat → Node α) (hmr : mr.Reachable) :
      Reachable L (construct mr heap)
  | step {l l' : pmr_list α} : Reachable L l → Step L l l' → Reachable L l'

/-- A call that inserts the value `v`: `push_back v` or `push_front v`, the constructor of
the element returning normally. -/
inductive Push (α : Type) where
  | back (v : α)
  | front (v : α)

/-- Run one insertion. -/
def push (L : NodeLayout) (l : pmr_list α) : Push α → Except Exn Unit × pmr_list α
  | .back v => l.push_back L (.ok v)
  | .front v => l.push_front L (.ok v)

/-- Run a sequence of insertions in order; an exception ends the run where it was thrown. -/
def pushAll (L : NodeLayout) : List (Push α) → pmr_list α → Except Exn Unit × pmr_list α
  | [], l => (.ok (), l)
  | op :: ops, l =>
    match push L l op with
    | (.ok _, l') => pushAll L ops l'
    | (.error e, l') => (.error e, l')

/-- The sequence an insertion denotes: `push_back v` appends, `push_front v` prepends. -/
def Push.denote : List α → Push α → List α
  | xs, .back v => xs ++ [v]
  | xs, .front v => v :: xs

end pmr_list

/-! ## Histories of calls -/

/-- Two blocks that share no byte: one ends at or before the start of the other. -/
def Apart (b c : Block) : Prop :=
  b.ptr + b.size ≤ c.ptr ∨ c.ptr + c.size ≤ b.ptr

namespace FixedListMemoryResource

/-- A finite sequence of `do_allocate` (power-of-two alignment) and `do_deallocate` calls
leads from the resource `m` to the resource `m'`; `H` lists, in call order, the addresses
the successful `do_allocate` calls returned on the way. -/
inductive Trace : FixedListMemoryResource → List Nat → FixedListMemoryResource → Prop where
  | refl (m : FixedListMemoryResource) : Trace m [] m
  | allocate_ok {m m' m'' : FixedListMemoryResource} {H : List Nat}
      (bytes alignment p : Nat) (ha : IsPow2 alignment) (ht : Trace m H m')
      (hal : m'.do_allocate bytes alignment = (.ok p, m'')) : Trace m (H ++ [p]) m''
  | allocate_error {m m' m'' : FixedListMemoryResource} {H : List Nat}
      (bytes alignment : Nat) (e : Exn) (ha : IsPow2 alignment) (ht : Trace m H m')
      (hal : m'.do_allocate bytes alignment = (.error e, m'')) : Trace m H m''
  | deallocate {m m' : FixedListMemoryResource} {H : List Nat}
      (p bytes alignment : Nat) (ht : Trace m H m') :
      Trace m H (m'.do_deallocate p bytes alignment)

/-- Every recorded block qualifies for a request of `bytes` bytes aligned to `alignment`,
as in a resource that has only ever served requests of that one shape. -/
def Uniform (bytes alignment : Nat) (m : FixedListMemoryResource) : Prop :=
  ∀ b ∈ m.allocated_ ++ m.freed_, fits (coerce bytes) alignment b = true

/-- Calling `do_allocate(bytes, alignment)` `n` times in a row: the addresses returned, in
call order, or the exception of the first call that throws. -/
def allocateN (m : FixedListMemoryResource) (bytes alignment : Nat) :
    Nat → Except Exn (List Nat) × FixedListMemoryResource
  | 0 => (.ok [], m)
  | n + 1 =>
    match m.do_allocate bytes alignment with
    | (.error e, m') => (.error e, m')
    | (.ok p, m') =>
      match allocateN m' bytes alignment n with
      | (.error e, m'') => (.error e, m'')
      | (.ok ps, m'') => (.ok (p :: ps), m'')

/-- Calling `do_deallocate(p, bytes, alignment)` for each address `p` of `ps`, in list
order. -/
def deallocateAll (m : FixedListMemoryResource) (ps : List Nat) (bytes alignment : Nat) :
    FixedListMemoryResource :=
  ps.foldl (fun m p => m.do_deallocate p bytes alignment) m

end FixedListMemoryResource

namespace pmr_list

variable {α : Type}

/-- A call that removes at an end: `pop_front()` or `pop_back()`. -/
inductive Pop where
  | front
  | back
  deriving DecidableEq

/-- Run one removal at an end. -/
def pop (L : NodeLayout) (l : pmr_list α) : Pop → pmr_list α
  | .front => l.pop_front L
  | .back => l.pop_back L

/-- Run a sequence of removals at the ends, in order. -/
def popAll (L : NodeLayout) : List Pop → pmr_list α → pmr_list α
  | [], l => l
  | c :: cs, l => popAll L cs (pop L l c)

/-- A finite sequence of public mutating members, in none of which the constructor of an
element throws, leads from `l` to `l'`. -/
inductive Steps (L : NodeLayout) : pmr_list α → pmr_list α → Prop where
  | refl (l : pmr_list α) : Steps L l l
  | push_back {l l' : pmr_list α} (v : α) :
      Steps L l l' → Steps L l (l'.push_back L (.ok v)).2
  | push_front {l l' : pmr_list α} (v : α) :
      Steps L l l' → Steps L l (l'.push_front L (.ok v)).2
  | pop_back {l l' : pmr_list α} : Steps L l l' → Steps L l (l'.pop_back L)
  | pop_front {l l' : pmr_list α} : Steps L l l' → Steps L l (l'.pop_front L)
  | erase {l l' : pmr_list α} (it : Nat)
      (hit : it = l'.end_ ∨ ∃ fuel ns, l'.nodes fuel = some ns ∧ it ∈ ns) :
      Steps L l l' → Steps L l (l'.erase L it).2
  | clear {l l' l'' : pmr_list α} (fuel : Nat) (h : l'.clear L fuel = some l'') :
      Steps L l l' → Steps L l l''

end pmr_list

/-! ## Sample states -/

/-- The node layout of `pmr_list<int>` on a 64-bit platform: 24 bytes aligned to 8. -/
def intLayout : NodeLayout := ⟨24, 8⟩

/-- A freshly constructed arena of 1024 bytes whose buffer starts at address 4096. -/
def arena : FixedListMemoryResource := FixedListMemoryResource.construct 4096 1024

/-- An arena at address 64 from which blocks of 100 and of 16 bytes were allocated and
then released in that order. -/
def twoFreed : FixedListMemoryResource :=
  ((((FixedListMemoryResource.construct 64 1024).do_allocate 100 8).2.do_allocate
    16 8).2.do_deallocate 64 100 8).do_deallocate 168 16 8

/-- The fresh arena after one request of 24 bytes aligned to 8. -/
def oneBlock : FixedListMemoryResource := (arena.do_allocate 24 8).2

/-- The fresh arena after two requests of 24 bytes aligned to 8. -/
def twoBlocks : FixedListMemoryResource := (oneBlock.do_allocate 24 8).2

/-- The fresh arena after three requests of 24 bytes aligned to 8. -/
def threeBlocks : FixedListMemoryResource := (arena.allocateN 24 8 3).2

/-- A freshly constructed arena of 40 bytes: room for one 24-byte node, not for two. -/
def tiny : FixedListMemoryResource := FixedListMemoryResource.construct 4096 40

/-- The fresh arena after a 64-byte block was carved at 4096 and released. -/
def carved : FixedListMemoryResource := (arena.do_allocate 64 8).2.do_deallocate 4096 64 8

/-- The resource `carved` after its block was reused for an 8-byte request and released
again. -/
def shrunk : FixedListMemoryResource := (carved.do_allocate 8 8).2.do_deallocate 4096 8 8

/-- Node memory in which no node has been constructed yet. -/
def blank : Nat → Node Int := fun _ => ⟨0, 0, 0⟩

/-- The list `[1, 2, 3]` built by three `push_back` calls on the fresh arena. -/
def abc : pmr_list Int :=
  (pmr_list.pushAll intLayout [.back 1, .back 2, .back 3] (pmr_list.construct arena blank)).2

/-- The list `[1, ..., 10]` built by ten `push_back` calls on the fresh arena. -/
def ten : pmr_list Int :=
  (pmr_list.pushAll intLayout
    [.back 1, .back 2, .back 3, .back 4, .back 5, .back 6, .back 7, .back 8, .back 9, .back 10]
    (pmr_list.construct arena blank)).2

/-- The list `ten` after two `pop_back` calls: `[1, ..., 8]`. -/
def eight : pmr_list Int := (ten.pop_back intLayout).pop_back intLayout

/-- The list `[7]` built by one `push_front` call on the fresh arena. -/
def single : pmr_list Int :=
  ((pmr_list.construct arena blank).push_front intLayout (.ok 7)).2

/-- The list `[1]` on the 40-byte arena, which has no room for a second node. -/
def full : pmr_list Int :=
  ((pmr_list.construct tiny blank).push_back intLayout (.ok 1)).2

/-- The empty list on the fresh arena after an `emplace_back` whose element constructor
threw. -/
def leaked : pmr_list Int :=
  ((pmr_list.construct arena blank).emplace_back intLayout (.error .element)).2

/-- The empty list on the fresh arena. -/
def none0 : pmr_list Int := pmr_list.construct arena blank

/-! ## The memory resource: ledger loops -/

theorem takeFirst_none_iff (c : Block → Bool) (l : List Block) :
    takeFirst c l = none ↔ ∀ b ∈ l, c b = false := by
  induction l with
  | nil => simp [takeFirst]
  | cons b rest ih =>
    by_cases hb : c b = true
    · simp [takeFirst, hb]
    · have hb' : c b = false := by simpa using hb
      cases hr : takeFirst c rest with
      | none => simpa [takeFirst, hb', hr] using ih.mp hr
      | some v =>
        have : ¬ ∀ x ∈ rest, c x = false := fun hall => by
          rw [ih.mpr hall] at hr; cases hr
        simpa [takeFirst, hb', hr] using this

theorem takeFirst_some_split {c : Block → Bool} {l : List Block} {hit : Block}
    {rest : List Block} (h : takeFirst c l = some (hit, rest)) :
    ∃ pre post, l = pre ++ hit :: post ∧ (∀ b ∈ pre, c b = false) ∧ c hit = true ∧
      rest = pre ++ post := by
  induction l generalizing rest with
  | nil => simp [takeFirst] at h
  | cons b tl ih =>
    by_cases hb : c b = true
    · simp only [takeFirst, hb, if_true, Option.some.injEq, Prod.mk.injEq] at h
      obtain ⟨rfl, rfl⟩ := h
      exact ⟨[], tl, rfl, by simp, hb, rfl⟩
    · have hb' : c b = false := by simpa using hb
      cases hr : takeFirst c tl with
      | none => simp [takeFirst, hb', hr] at h
      | some v =>
        obtain ⟨hit', rest'⟩ := v
        simp only [takeFirst, hb', hr, Option.some.injEq, Prod.mk.injEq] at h
        obtain ⟨rfl, rfl⟩ := h
        obtain ⟨pre, post, h1, h2, h3, h4⟩ := ih hr
        refine ⟨b :: pre, post, by simp [h1], ?_, h3, by simp [h4]⟩
        intro x hx
        rcases List.mem_cons.mp hx with rfl | hx
        · exact hb'
        · exact h2 x hx

theorem takeFirst_of_split {c : Block → Bool} {pre post : List Block} {hit : Block}
    (hpre : ∀ b ∈ pre, c b = false) (hhit : c hit = true) :
    takeFirst c (pre ++ hit :: post) = some (hit, pre ++ post) := by
  induction pre with
  | nil => simp [takeFirst, hhit]
  | cons b tl ih =>
    have hb : c b = false := hpre b (List.mem_cons_self _ _)
    have := ih (fun x hx => hpre x (List.mem_cons_of_mem _ hx))
    simp [takeFirst, hb, this]

/-- Every list with an entry satisfying `c` splits at its first such entry. -/
theorem exists_first_split (c : Block → Bool) (l : List Block) (h : ∃ b ∈ l, c b = true) :
    ∃ pre hit post, l = pre ++ hit :: post ∧ (∀ b ∈ pre, c b = false) ∧ c hit = true := by
  cases hr : takeFirst c l with
  | none =>
    obtain ⟨b, hb, hc⟩ := h
    have := (takeFirst_none_iff c l).mp hr b hb
    rw [this] at hc; cases hc
  | some v =>
    obtain ⟨hit, rest⟩ := v
    obtain ⟨pre, post, h1, h2, h3, _⟩ := takeFirst_some_split hr
    exact ⟨pre, hit, post, h1, h2, h3⟩

theorem fits_iff (bytes alignment : Nat) (b : Block) :
    fits bytes alignment b = true ↔ b.ptr % alignment = 0 ∧ bytes ≤ b.size := by
  simp [fits]

theorem coerce_pos (bytes : Nat) : 1 ≤ coerce bytes := by
  unfold coerce; split <;> omega

/-! ## The memory resource: alignment arithmetic -/

theorem padding_dvd {a : Nat} (ha : 0 < a) (p : Nat) : a ∣ p + padding a p := by
  unfold padding
  have hr : p % a < a := Nat.mod_lt _ ha
  have hp : a * (p / a) + p % a = p := Nat.div_add_mod p a
  by_cases h0 : p % a = 0
  · rw [h0, Nat.sub_zero, Nat.mod_self, Nat.add_zero]
    exact Nat.dvd_of_mod_eq_zero h0
  · have hlt : a - p % a < a := by omega
    rw [Nat.mod_eq_of_lt hlt]
    refine ⟨p / a + 1, ?_⟩
    rw [Nat.mul_add, Nat.mul_one]
    omega

theorem padding_least {a : Nat} (ha : 0 < a) (p q : Nat) (hq : a ∣ q) (hpq : p ≤ q) :
    p + padding a p ≤ q := by
  unfold padding
  have hr : p % a < a := Nat.mod_lt _ ha
  have hp : a * (p / a) + p % a = p := Nat.div_add_mod p a
  by_cases h0 : p % a = 0
  · rw [h0, Nat.sub_zero, Nat.mod_self, Nat.add_zero]
    exact hpq
  · have hlt : a - p % a < a := by omega
    rw [Nat.mod_eq_of_lt hlt]
    obtain ⟨k, rfl⟩ := hq
    have hk : p / a < k := by
      by_contra hcon
      have hle : k ≤ p / a := by omega
      have : a * k ≤ a * (p / a) := Nat.mul_le_mul_left a hle
      omega
    have : a * (p / a + 1) ≤ a * k := Nat.mul_le_mul_left a hk
    rw [Nat.mul_add, Nat.mul_one] at this
    omega

theorem IsPow2.pos {a : Nat} (h : IsPow2 a) : 0 < a := by
  obtain ⟨k, rfl⟩ := h
  exact Nat.pos_pow_of_pos k (by decide)

theorem std_align_eq_some_iff (alignment size ptr space p : Nat) :
    std_align alignment size ptr space = some p ↔
      padding alignment ptr + size ≤ space ∧ p = ptr + padding alignment ptr := by
  unfold std_align
  split
  · rename_i h
    constructor
    · intro hp
      simp only [Option.some.injEq] at hp
      exact ⟨by omega, hp.symm⟩
    · rintro ⟨_, rfl⟩; rfl
  · rename_i h
    constructor
    · intro hp; cases hp
    · rintro ⟨h1, _⟩
      exact absurd ⟨by omega, by omega⟩ h

theorem std_align_eq_none_iff (alignment size ptr space : Nat) :
    std_align alignment size ptr space = none ↔ space < padding alignment ptr + size := by
  unfold std_align
  split
  · rename_i h
    constructor
    · intro hp; cases hp
    · intro hlt; omega
  · rename_i h
    constructor
    · intro _
      by_contra hcon
      exact h ⟨by omega, by omega⟩
    · intro _; rfl

/-! ## The memory resource: what the two member functions do -/

namespace FixedListMemoryResource

theorem do_allocate_reuse {m : FixedListMemoryResource} {bytes alignment : Nat}
    {pre post : List Block} {hit : Block} (hsplit : m.freed_ = pre ++ hit :: post)
    (hpre : ∀ b ∈ pre, fits (coerce bytes) alignment b = false)
    (hhit : fits (coerce bytes) alignment hit = true) :
    m.do_allocate bytes alignment =
      (.ok hit.ptr, { m with allocated_ := m.allocated_ ++ [⟨hit.ptr, coerce bytes⟩],
                             freed_ := pre ++ post }) := by
  unfold do_allocate
  simp only [hsplit, takeFirst_of_split hpre hhit]

theorem do_allocate_no_reuse {m : FixedListMemoryResource} {bytes alignment : Nat}
    (hnone : ∀ b ∈ m.freed_, fits (coerce bytes) alignment b = false) :
    m.do_allocate bytes alignment =
      match std_align alignment (coerce bytes) m.cursor_ (m.limit_ - m.cursor_) with
      | some p => (.ok p, { m with cursor_ := p + coerce bytes,
                                   allocated_ := m.allocated_ ++ [⟨p, coerce bytes⟩] })
      | none => (.error .bad_alloc, m) := by
  unfold do_allocate
  simp only [(takeFirst_none_iff _ _).mpr hnone]

theorem do_deallocate_found {m : FixedListMemoryResource} {p : Nat} (bytes alignment : Nat)
    {pre post : List Block} {hit : Block} (hp : p ≠ 0)
    (hsplit : m.allocated_ = pre ++ hit :: post)
    (hpre : ∀ b ∈ pre, b.ptr ≠ p) (hhit : hit.ptr = p) :
    m.do_deallocate p bytes alignment =
      { m with freed_ := m.freed_ ++ [hit], allocated_ := pre ++ post } := by
  unfold do_deallocate
  have h1 : ∀ b ∈ pre, (fun b : Block => b.ptr == p) b = false := by
    intro b hb; simpa using hpre b hb
  have h2 : (fun b : Block => b.ptr == p) hit = true := by simpa using hhit
  simp only [hp, if_false, hsplit, takeFirst_of_split h1 h2]

theorem do_deallocate_absent {m : FixedListMemoryResource} {p : Nat} (bytes alignment : Nat)
    (habs : p ∉ m.allocated_.map Block.ptr) : m.do_deallocate p bytes alignment = m := by
  unfold do_deallocate
  split
  · rfl
  · have : takeFirst (fun b : Block => b.ptr == p) m.allocated_ = none := by
      rw [takeFirst_none_iff]
      intro b hb
      have : b.ptr ≠ p := fun h => habs (List.mem_map.mpr ⟨b, hb, h⟩)
      simpa using this
    simp only [this]

end FixedListMemoryResource

/-! ## The memory resource: the representation invariant is kept -/

namespace FixedListMemoryResource

theorem Valid.of_construct {base total_bytes : Nat} (hbase : 0 < base)
    (hfit : base + total_bytes < 2 ^ 64) : (construct base total_bytes).Valid where
  buffer_pos := hbase
  buffer_le := Nat.le_refl _
  cursor_le := Nat.le_add_right _ _
  limit_eq := rfl
  limit_lt := hfit
  blocks := by intro b hb; simp [construct] at hb
  nodup := by simp [construct]

/-- What one successful or failed `do_allocate` does to the ledgers and the cursor. -/
theorem do_allocate_cases (m : FixedListMemoryResource) (bytes alignment : Nat) :
    (∃ pre hit post, m.freed_ = pre ++ hit :: post ∧
        (∀ b ∈ pre, fits (coerce bytes) alignment b = false) ∧
        fits (coerce bytes) alignment hit = true ∧
        m.do_allocate bytes alignment =
          (.ok hit.ptr, { m with allocated_ := m.allocated_ ++ [⟨hit.ptr, coerce bytes⟩],
                                 freed_ := pre ++ post })) ∨
    ((∀ b ∈ m.freed_, fits (coerce bytes) alignment b = false) ∧
        padding alignment m.cursor_ + coerce bytes ≤ m.limit_ - m.cursor_ ∧
        m.do_allocate bytes alignment =
          (.ok (m.cursor_ + padding alignment m.cursor_),
            { m with cursor_ := m.cursor_ + padding alignment m.cursor_ + coerce bytes,
                     allocated_ := m.allocated_ ++
                       [⟨m.cursor_ + padding alignment m.cursor_, coerce bytes⟩] })) ∨
    ((∀ b ∈ m.freed_, fits (coerce bytes) alignment b = false) ∧
        m.limit_ - m.cursor_ < padding alignment m.cursor_ + coerce bytes ∧
        m.do_allocate bytes alignment = (.error .bad_alloc, m)) := by
  by_cases hex : ∃ b ∈ m.freed_, fits (coerce bytes) alignment b = true
  · obtain ⟨pre, hit, post, h1, h2, h3⟩ := exists_first_split _ _ hex
    exact Or.inl ⟨pre, hit, post, h1, h2, h3, do_allocate_reuse h1 h2 h3⟩
  · have hnone : ∀ b ∈ m.freed_, fits (coerce bytes) alignment b = false := by
      intro b hb
      by_contra hcon
      exact hex ⟨b, hb, by simpa using hcon⟩
    right
    cases hal : std_align alignment (coerce bytes) m.cursor_ (m.limit_ - m.cursor_) with
    | none =>
      right
      refine ⟨hnone, (std_align_eq_none_iff _ _ _ _).mp hal, ?_⟩
      rw [do_allocate_no_reuse hnone, hal]
    | some p =>
      left
      obtain ⟨h1, rfl⟩ := (std_align_eq_some_iff _ _ _ _ _).mp hal
      refine ⟨hnone, h1, ?_⟩
      rw [do_allocate_no_reuse hnone, hal]

/-- What `do_deallocate` does: nothing, or it moves the first entry with that address. -/
theorem do_deallocate_cases (m : FixedListMemoryResource) (p bytes alignment : Nat) :
    ((p = 0 ∨ p ∉ m.allocated_.map Block.ptr) ∧ m.do_deallocate p bytes alignment = m) ∨
    (∃ pre hit post, p ≠ 0 ∧ m.allocated_ = pre ++ hit :: post ∧ (∀ b ∈ pre, b.ptr ≠ p) ∧
        hit.ptr = p ∧
        m.do_deallocate p bytes alignment =
          { m with freed_ := m.freed_ ++ [hit], allocated_ := pre ++ post }) := by
  by_cases hp : p = 0
  · left; exact ⟨Or.inl hp, by simp [do_deallocate, hp]⟩
  by_cases hmem : p ∈ m.allocated_.map Block.ptr
  · right
    have hex : ∃ b ∈ m.allocated_, (fun b : Block => b.ptr == p) b = true := by
      obtain ⟨b, hb, hbp⟩ := List.mem_map.mp hmem
      exact ⟨b, hb, by simpa using hbp⟩
    obtain ⟨pre, hit, post, h1, h2, h3⟩ := exists_first_split _ _ hex
    have h2' : ∀ b ∈ pre, b.ptr ≠ p := by
      intro b hb; simpa using h2 b hb
    have h3' : hit.ptr = p := by simpa using h3
    exact ⟨pre, hit, post, hp, h1, h2', h3', do_deallocate_found bytes alignment hp h1 h2' h3'⟩
  · left; exact ⟨Or.inr hmem, do_deallocate_absent bytes alignment hmem⟩

theorem Valid.do_allocate {m : FixedListMemoryResource} (hv : m.Valid)
    (bytes alignment : Nat) : (m.do_allocate bytes alignment).2.Valid := by
  have hc := coerce_pos bytes
  rcases do_allocate_cases m bytes alignment with
    ⟨pre, hit, post, hsplit, _, hhit, heq⟩ | ⟨_, hfit, heq⟩ | ⟨_, _, heq⟩
  · rw [heq]
    have hfit := (fits_iff _ _ _).mp hhit
    have hhitv := hv.blocks hit (by simp [hsplit])
    refine ⟨hv.buffer_pos, hv.buffer_le, hv.cursor_le, hv.limit_eq, hv.limit_lt, ?_, ?_⟩
    · intro b hb
      simp only [List.mem_append, List.mem_singleton] at hb
      rcases hb with (hb | rfl) | hb | hb
      · exact hv.blocks b (by simp [hb])
      · exact ⟨hc, hhitv.2.1, by have := hfit.2; have := hhitv.2.2; simp only; omega⟩
      · exact hv.blocks b (by simp [hsplit, hb])
      · exact hv.blocks b (by simp [hsplit, hb])
    · have hnd := hv.nodup
      rw [hsplit] at hnd
      refine (List.Perm.nodup_iff ?_).mp hnd
      simp only [List.map_append, List.map_cons, List.map_nil, List.append_assoc,
        List.singleton_append]
      refine List.Perm.append_left _ ?_
      exact List.perm_middle
  · rw [heq]
    have h1 := hv.buffer_le
    have h2 := hv.cursor_le
    refine ⟨hv.buffer_pos, by simp only; omega, by simp only; omega, hv.limit_eq,
      hv.limit_lt, ?_, ?_⟩
    · intro b hb
      simp only [List.mem_append, List.mem_singleton] at hb
      rcases hb with (hb | rfl) | hb
      · have := hv.blocks b (by simp [hb]); simp only; omega
      · simp only; omega
      · have := hv.blocks b (by simp [hb]); simp only; omega
    · have hnd := hv.nodup
      simp only [List.map_append, List.map_cons, List.map_nil, List.append_assoc,
        List.singleton_append]
      refine (List.Perm.nodup_iff List.perm_middle).mpr ?_
      rw [List.nodup_cons]
      refine ⟨?_, by simpa using hnd⟩
      intro hmem
      rw [← List.map_append] at hmem
      obtain ⟨b, hb, hbp⟩ := List.mem_map.mp hmem
      have := hv.blocks b hb
      omega
  · rw [heq]; exact hv

theorem Valid.do_deallocate {m : FixedListMemoryResource} (hv : m.Valid)
    (p bytes alignment : Nat) : (m.do_deallocate p bytes alignment).Valid := by
  rcases do_deallocate_cases m p bytes alignment with ⟨_, heq⟩ |
    ⟨pre, hit, post, _, hsplit, _, _, heq⟩
  · rw [heq]; exact hv
  · rw [heq]
    refine ⟨hv.buffer_pos, hv.buffer_le, hv.cursor_le, hv.limit_eq, hv.limit_lt, ?_, ?_⟩
    · intro b hb
      simp only [List.mem_append, List.mem_singleton] at hb
      rcases hb with (hb | hb) | hb | rfl
      · exact hv.blocks b (by simp [hsplit, hb])
      · exact hv.blocks b (by simp [hsplit, hb])
      · exact hv.blocks b (by simp [hb])
      · exact hv.blocks b (by simp [hsplit])
    · have hnd := hv.nodup
      rw [hsplit] at hnd
      refine (List.Perm.nodup_iff ?_).mp hnd
      simp only [List.map_append, List.map_cons, List.map_nil, List.append_assoc]
      refine List.Perm.append_left _ ?_
      rw [← List.append_assoc]
      exact (List.perm_append_singleton _ _).symm

theorem Reachable.valid {m : FixedListMemoryResource} (h : m.Reachable) : m.Valid := by
  induction h with
  | construct base total_bytes hbase hfit => exact Valid.of_construct hbase hfit
  | allocate bytes alignment _ _ ih => exact ih.do_allocate bytes alignment
  | deallocate p bytes alignment _ ih => exact ih.do_deallocate p bytes alignment

end FixedListMemoryResource

/-! ## Claims about the memory resource -/

namespace FixedListMemoryResource

/-- C7: when the freed ledger holds an entry whose address is a multiple of the alignment
and whose recorded size is at least the (zero-coerced) request, `do_allocate` succeeds with
the address of the first such entry in ledger order, removes exactly that entry from the
freed ledger (the others keep their order) and leaves the bump cursor where it was. -/
theorem do_allocate_first_fit (m : FixedListMemoryResource) (bytes alignment : Nat)
    (h : ∃ b ∈ m.freed_, b.ptr % alignment = 0 ∧ coerce bytes ≤ b.size) :
    ∃ pre hit post, m.freed_ = pre ++ hit :: post ∧
      (∀ b ∈ pre, ¬ (b.ptr % alignment = 0 ∧ coerce bytes ≤ b.size)) ∧
      (hit.ptr % alignment = 0 ∧ coerce bytes ≤ hit.size) ∧
      (m.do_allocate bytes alignment).1 = .ok hit.ptr ∧
      (m.do_allocate bytes alignment).2.freed_ = pre ++ post ∧
      (m.do_allocate bytes alignment).2.cursor_ = m.cursor_ := by
  have hex : ∃ b ∈ m.freed_, fits (coerce bytes) alignment b = true := by
    obtain ⟨b, hb, hf⟩ := h
    exact ⟨b, hb, (fits_iff _ _ _).mpr hf⟩
  obtain ⟨pre, hit, post, h1, h2, h3⟩ := exists_first_split _ _ hex
  refine ⟨pre, hit, post, h1, ?_, (fits_iff _ _ _).mp h3, ?_, ?_, ?_⟩
  · intro b hb hf
    have := h2 b hb
    rw [(fits_iff _ _ _).mpr hf] at this
    cases this
  all_goals rw [do_allocate_reuse h1 h2 h3]

/-- A first fit that is not a best fit: the 100-byte block at 64 precedes the exact 16-byte
block at 168 in the freed ledger and is the one handed out. -/
theorem do_allocate_first_fit_witness :
    twoFreed.freed_ = [⟨64, 100⟩, ⟨168, 16⟩] ∧
    (∃ b ∈ twoFreed.freed_, b.ptr % 8 = 0 ∧ coerce 16 ≤ b.size) ∧
    (twoFreed.do_allocate 16 8).1 = .ok 64 ∧
    ∃ pre hit post, twoFreed.freed_ = pre ++ hit :: post ∧
      (∀ b ∈ pre, ¬ (b.ptr % 8 = 0 ∧ coerce 16 ≤ b.size)) ∧
      (hit.ptr % 8 = 0 ∧ coerce 16 ≤ hit.size) ∧
      (twoFreed.do_allocate 16 8).1 = .ok hit.ptr ∧
      (twoFreed.do_allocate 16 8).2.freed_ = pre ++ post ∧
      (twoFreed.do_allocate 16 8).2.cursor_ = twoFreed.cursor_ :=
  ⟨by decide, ⟨⟨64, 100⟩, by decide, by decide⟩, by decide,
    do_allocate_first_fit twoFreed 16 8 ⟨⟨64, 100⟩, by decide, by decide⟩⟩

/-- C8: when no freed entry qualifies, the alignment is a power of two and padding plus
(zero-coerced) size fit into the bytes left before `limit_`, `do_allocate` returns the
smallest multiple of the alignment at or after the cursor, moves the cursor to that address
plus the size, appends the block to the allocated ledger and leaves the freed ledger alone;
in a resource laid out as the constructor does, the block lies inside the buffer. -/
theorem do_allocate_bump (m : FixedListMemoryResource) (bytes alignment : Nat)
    (ha : IsPow2 alignment)
    (hnone : ∀ b ∈ m.freed_, ¬ (b.ptr % alignment = 0 ∧ coerce bytes ≤ b.size))
    (hfit : padding alignment m.cursor_ + coerce bytes ≤ m.limit_ - m.cursor_) :
    ∃ p, (m.do_allocate bytes alignment).1 = .ok p ∧
      alignment ∣ p ∧ m.cursor_ ≤ p ∧ (∀ q, alignment ∣ q → m.cursor_ ≤ q → p ≤ q) ∧
      p = m.cursor_ + padding alignment m.cursor_ ∧
      (m.do_allocate bytes alignment).2.cursor_ = p + coerce bytes ∧
      (m.do_allocate bytes alignment).2.allocated_ = m.allocated_ ++ [⟨p, coerce bytes⟩] ∧
      (m.do_allocate bytes alignment).2.freed_ = m.freed_ ∧
      (m.Valid → m.buffer_ ≤ p ∧ p + coerce bytes ≤ m.buffer_ + m.capacity_) := by
  have hnone' : ∀ b ∈ m.freed_, fits (coerce bytes) alignment b = false := by
    intro b hb
    by_contra hcon
    exact hnone b hb ((fits_iff _ _ _).mp (by simpa using hcon))
  have hal : std_align alignment (coerce bytes) m.cursor_ (m.limit_ - m.cursor_) =
      some (m.cursor_ + padding alignment m.cursor_) :=
    (std_align_eq_some_iff _ _ _ _ _).mpr ⟨hfit, rfl⟩
  have heq := do_allocate_no_reuse hnone'
  rw [hal] at heq
  refine ⟨m.cursor_ + padding alignment m.cursor_, by rw [heq], padding_dvd ha.pos _,
    Nat.le_add_right _ _, fun q hq hle => padding_least ha.pos _ q hq hle, rfl,
    by rw [heq], by rw [heq], by rw [heq], ?_⟩
  intro hv
  have h1 := hv.buffer_le
  have h2 := hv.cursor_le
  have h3 := hv.limit_eq
  constructor <;> omega

/-- A fresh 1024-byte arena at address 4100 asked for 24 bytes aligned to 8: the block
starts at 4104. -/
theorem do_allocate_bump_witness :
    IsPow2 8 ∧
    (∀ b ∈ (construct 4100 1024).freed_, ¬ (b.ptr % 8 = 0 ∧ coerce 24 ≤ b.size)) ∧
    padding 8 (construct 4100 1024).cursor_ + coerce 24 ≤
      (construct 4100 1024).limit_ - (construct 4100 1024).cursor_ ∧
    (construct 4100 1024).Valid ∧
    ∃ p, ((construct 4100 1024).do_allocate 24 8).1 = .ok p ∧
      8 ∣ p ∧ (construct 4100 1024).cursor_ ≤ p ∧
      (∀ q, 8 ∣ q → (construct 4100 1024).cursor_ ≤ q → p ≤ q) ∧
      p = (construct 4100 1024).cursor_ + padding 8 (construct 4100 1024).cursor_ ∧
      ((construct 4100 1024).do_allocate 24 8).2.cursor_ = p + coerce 24 ∧
      ((construct 4100 1024).do_allocate 24 8).2.allocated_ =
        (construct 4100 1024).allocated_ ++ [⟨p, coerce 24⟩] ∧
      ((construct 4100 1024).do_allocate 24 8).2.freed_ = (construct 4100 1024).freed_ ∧
      ((construct 4100 1024).Valid → (construct 4100 1024).buffer_ ≤ p ∧
        p + coerce 24 ≤ (construct 4100 1024).buffer_ + (construct 4100 1024).capacity_) :=
  ⟨⟨3, rfl⟩, by decide, by decide, Valid.of_construct (by decide) (by decide),
    do_allocate_bump (construct 4100 1024) 24 8 ⟨3, rfl⟩ (by decide) (by decide)⟩

/-- C9: `do_allocate` throws `bad_alloc` exactly when no freed entry has a compatible
address and a sufficient recorded size and, at the cursor, padding plus (zero-coerced) size
exceed the bytes left before `limit_`; when it throws, the resource is what it was. -/
theorem do_allocate_bad_alloc_iff (m : FixedListMemoryResource) (bytes alignment : Nat) :
    ((m.do_allocate bytes alignment).1 = .error .bad_alloc ↔
      (∀ b ∈ m.freed_, ¬ (b.ptr % alignment = 0 ∧ coerce bytes ≤ b.size)) ∧
        m.limit_ - m.cursor_ < padding alignment m.cursor_ + coerce bytes) ∧
    (∀ e, (m.do_allocate bytes alignment).1 = .error e →
      (m.do_allocate bytes alignment).2 = m) := by
  have key : ∀ b : Block, fits (coerce bytes) alignment b = false ↔
      ¬ (b.ptr % alignment = 0 ∧ coerce bytes ≤ b.size) := by
    intro b
    rw [← fits_iff]
    simp
  rcases do_allocate_cases m bytes alignment with
    ⟨pre, hit, post, hsplit, _, hhit, heq⟩ | ⟨_, hfit, heq⟩ | ⟨hnone, hlt, heq⟩
  · rw [heq]
    refine ⟨⟨(fun h => by cases h), ?_⟩, (fun e h => by cases h)⟩
    rintro ⟨hnone, _⟩
    have := (key hit).mpr (hnone hit (by simp [hsplit]))
    rw [hhit] at this
    cases this
  · rw [heq]
    refine ⟨⟨(fun h => by cases h), ?_⟩, (fun e h => by cases h)⟩
    rintro ⟨_, hlt⟩
    omega
  · rw [heq]
    exact ⟨⟨fun _ => ⟨fun b hb => (key b).mp (hnone b hb), hlt⟩, fun _ => rfl⟩, fun _ _ => rfl⟩

/-- An arena of 16 bytes cannot serve 32: the call throws and the resource is unchanged. -/
theorem do_allocate_bad_alloc_iff_witness :
    ((construct 4096 16).do_allocate 32 8).1 = .error .bad_alloc ∧
    ((construct 4096 16).do_allocate 32 8).2 = construct 4096 16 :=
  ⟨(do_allocate_bad_alloc_iff (construct 4096 16) 32 8).1.mpr ⟨by decide, by decide⟩,
    (do_allocate_bad_alloc_iff (construct 4096 16) 32 8).2 .bad_alloc
      ((do_allocate_bad_alloc_iff (construct 4096 16) 32 8).1.mpr ⟨by decide, by decide⟩)⟩

/-- C10: `do_deallocate` with an address that is not recorded in the allocated ledger
(null, foreign, already released) returns the resource unchanged, and in a reachable state
a second `do_deallocate` of the same address changes nothing more than the first. -/
theorem do_deallocate_unknown_noop (m : FixedListMemoryResource)
    (p bytes alignment bytes' alignment' : Nat) :
    (p ∉ m.allocated_.map Block.ptr → m.do_deallocate p bytes alignment = m) ∧
    (m.Reachable →
      (m.do_deallocate p bytes alignment).do_deallocate p bytes' alignment' =
        m.do_deallocate p bytes alignment) := by
  refine ⟨fun h => do_deallocate_absent bytes alignment h, fun hr => ?_⟩
  have hv := hr.valid
  rcases do_deallocate_cases m p bytes alignment with ⟨hno, heq⟩ |
    ⟨pre, hit, post, _, hsplit, _, hhit, heq⟩
  · have hsame : m.do_deallocate p bytes' alignment' = m.do_deallocate p bytes alignment := rfl
    rw [heq, hsame, heq]
  · rw [heq]
    apply do_deallocate_absent
    have hnd := hv.nodup
    rw [hsplit, List.map_append, List.nodup_append] at hnd
    have hnd1 := hnd.1
    rw [List.map_append, List.map_cons] at hnd1
    have hnd2 := (List.Perm.nodup_iff List.perm_middle).mp hnd1
    rw [List.nodup_cons, ← List.map_append] at hnd2
    simpa [hhit] using hnd2.1

/-- A block allocated from a fresh arena and released once: its address is no longer in the
allocated ledger, and releasing it again is a no-op. -/
theorem do_deallocate_unknown_noop_witness :
    4096 ∉ ((((construct 4096 1024).do_allocate 24 8).2.do_deallocate 4096 24 8).allocated_.map
      Block.ptr) ∧
    (((construct 4096 1024).do_allocate 24 8).2.do_deallocate 4096 24 8).Reachable ∧
    (((construct 4096 1024).do_allocate 24 8).2.do_deallocate 4096 24 8).do_deallocate
        4096 24 8 = ((construct 4096 1024).do_allocate 24 8).2.do_deallocate 4096 24 8 :=
  ⟨by decide,
    Reachable.deallocate 4096 24 8
      (Reachable.allocate 24 8 ⟨3, rfl⟩ (Reachable.construct 4096 1024 (by decide) (by decide))),
    (do_deallocate_unknown_noop
      (((construct 4096 1024).do_allocate 24 8).2.do_deallocate 4096 24 8) 4096 24 8 24 8).1
      (by decide)⟩

end FixedListMemoryResource

/-! ## The list: node memory and linked segments -/

section Heap

variable {α : Type}

theorem store_same (h : Nat → Node α) (a : Nat) (n : Node α) : store h a n a = n := by
  simp [store]

theorem store_other (h : Nat → Node α) {a x : Nat} (n : Node α) (hx : x ≠ a) :
    store h a n x = h x := by
  simp [store, hx]

theorem setNext_same (h : Nat → Node α) (a p : Nat) :
    setNext h a p a = { h a with next := p } := store_same _ _ _

theorem setNext_other (h : Nat → Node α) {a x : Nat} (p : Nat) (hx : x ≠ a) :
    setNext h a p x = h x := store_other _ _ hx

theorem setPrev_same (h : Nat → Node α) (a p : Nat) :
    setPrev h a p a = { h a with prev := p } := store_same _ _ _

theorem setPrev_other (h : Nat → Node α) {a x : Nat} (p : Nat) (hx : x ≠ a) :
    setPrev h a p x = h x := store_other _ _ hx

theorem setNext_value (h : Nat → Node α) (a p x : Nat) :
    (setNext h a p x).value = (h x).value := by
  by_cases hx : x = a
  · subst hx; rw [setNext_same]
  · rw [setNext_other _ _ hx]

theorem setPrev_value (h : Nat → Node α) (a p x : Nat) :
    (setPrev h a p x).value = (h x).value := by
  by_cases hx : x = a
  · subst hx; rw [setPrev_same]
  · rw [setPrev_other _ _ hx]

theorem setNext_prev (h : Nat → Node α) (a p x : Nat) :
    (setNext h a p x).prev = (h x).prev := by
  by_cases hx : x = a
  · subst hx; rw [setNext_same]
  · rw [setNext_other _ _ hx]

theorem setPrev_next (h : Nat → Node α) (a p x : Nat) :
    (setPrev h a p x).next = (h x).next := by
  by_cases hx : x = a
  · subst hx; rw [setPrev_same]
  · rw [setPrev_other _ _ hx]

theorem firstD_append (xs ys : List Nat) (d : Nat) :
    firstD (xs ++ ys) d = firstD xs (firstD ys d) := by
  cases xs <;> rfl

theorem lastD_append (xs ys : List Nat) (d : Nat) :
    lastD (xs ++ ys) d = lastD ys (lastD xs d) := by
  induction xs generalizing d with
  | nil => rfl
  | cons a rest ih => exact ih a

theorem firstD_mem {xs : List Nat} (hne : xs ≠ []) (d : Nat) : firstD xs d ∈ xs := by
  cases xs with
  | nil => exact absurd rfl hne
  | cons a rest => exact List.mem_cons_self _ _

theorem lastD_mem {xs : List Nat} (hne : xs ≠ []) (d : Nat) : lastD xs d ∈ xs := by
  induction xs generalizing d with
  | nil => exact absurd rfl hne
  | cons a rest ih =>
    cases rest with
    | nil => exact List.mem_cons_self _ _
    | cons b r => exact List.mem_cons_of_mem _ (ih (by simp) a)

theorem firstD_eq_zero_iff {xs : List Nat} (h0 : 0 ∉ xs) : firstD xs 0 = 0 ↔ xs = [] := by
  constructor
  · intro h
    by_contra hne
    exact h0 (h ▸ firstD_mem hne 0)
  · rintro rfl; rfl

theorem lastD_eq_zero_iff {xs : List Nat} (h0 : 0 ∉ xs) : lastD xs 0 = 0 ↔ xs = [] := by
  constructor
  · intro h
    by_contra hne
    exact h0 (h ▸ lastD_mem hne 0)
  · rintro rfl; rfl

/-- A segment only reads the nodes it consists of. -/
theorem Seg.frame {h h' : Nat → Node α} {ns : List Nat} {p q : Nat}
    (hs : Seg h p ns q) (heq : ∀ a ∈ ns, h' a = h a) : Seg h' p ns q := by
  induction ns generalizing p with
  | nil => trivial
  | cons a rest ih =>
    obtain ⟨h1, h2, h3⟩ := hs
    have ha := heq a (List.mem_cons_self _ _)
    refine ⟨by rw [ha]; exact h1, by rw [ha]; exact h2, ?_⟩
    exact ih h3 (fun b hb => heq b (List.mem_cons_of_mem _ hb))

theorem Seg.append_iff (h : Nat → Node α) (xs ys : List Nat) (p q : Nat) :
    Seg h p (xs ++ ys) q ↔ Seg h p xs (firstD ys q) ∧ Seg h (lastD xs p) ys q := by
  induction xs generalizing p with
  | nil => simp [Seg, lastD]
  | cons a rest ih =>
    show ((h a).prev = p ∧ (h a).next = firstD (rest ++ ys) q ∧ Seg h a (rest ++ ys) q) ↔ _
    rw [firstD_append, ih a]
    simp only [Seg, lastD, and_assoc]

/-- Redirecting the `next` link of the last node of a segment. -/
theorem Seg.set_last_next {h : Nat → Node α} {ns : List Nat} {p q : Nat} (z q' : Nat)
    (hs : Seg h p ns q) (hnd : ns.Nodup) : Seg (setNext h (lastD ns z) q') p ns q' := by
  induction ns generalizing p z with
  | nil => trivial
  | cons a rest ih =>
    obtain ⟨h1, h2, h3⟩ := hs
    rw [List.nodup_cons] at hnd
    cases rest with
    | nil =>
      exact ⟨by rw [setNext_prev]; exact h1, by simp [lastD, firstD, setNext_same], trivial⟩
    | cons b r =>
      have hne : lastD (a :: b :: r) z ≠ a := by
        intro heq
        have hm : lastD (b :: r) a ∈ b :: r := lastD_mem (by simp) a
        have : lastD (a :: b :: r) z = lastD (b :: r) a := rfl
        rw [this] at heq
        exact hnd.1 (heq ▸ hm)
      refine ⟨?_, ?_, ih a h3 hnd.2⟩
      · rw [setNext_prev]; exact h1
      · rw [setNext_other _ _ (Ne.symm hne)]; exact h2

/-- Redirecting the `prev` link of the first node of a segment. -/
theorem Seg.set_first_prev {h : Nat → Node α} {ns : List Nat} {p q : Nat} (z p' : Nat)
    (hs : Seg h p ns q) (hnd : ns.Nodup) : Seg (setPrev h (firstD ns z) p') p' ns q := by
  cases ns with
  | nil => trivial
  | cons a rest =>
    obtain ⟨_, h2, h3⟩ := hs
    rw [List.nodup_cons] at hnd
    refine ⟨by simp [firstD, setPrev_same], by rw [setPrev_next]; exact h2, ?_⟩
    refine h3.frame (fun b hb => setPrev_other _ _ ?_)
    rintro rfl
    exact hnd.1 hb

end Heap

/-! ## The list: traversal -/

section Traversal

variable {α : Type}

theorem iterate_null (h : Nat → Node α) (fuel : Nat) : iterate h fuel 0 = some [] := by
  cases fuel <;> simp [iterate]

theorem iterate_succ (h : Nat → Node α) (fuel : Nat) {cur : Nat} (hc : cur ≠ 0) :
    iterate h (fuel + 1) cur =
      (match iterate h fuel (h cur).next with
       | none => none
       | some rest => some (cur :: rest)) := by
  simp [iterate, hc]

theorem iterate_inv {h : Nat → Node α} {fuel cur : Nat} {ns : List Nat}
    (hit : iterate h fuel cur = some ns) :
    (cur = 0 ∧ ns = []) ∨
    (cur ≠ 0 ∧ ∃ f rest, fuel = f + 1 ∧ ns = cur :: rest ∧
      iterate h f (h cur).next = some rest) := by
  by_cases hc : cur = 0
  · subst hc
    rw [iterate_null] at hit
    exact Or.inl ⟨rfl, by cases hit; rfl⟩
  · right
    refine ⟨hc, ?_⟩
    cases fuel with
    | zero => simp [iterate, hc] at hit
    | succ f =>
      rw [iterate_succ h f hc] at hit
      cases hr : iterate h f (h cur).next with
      | none => rw [hr] at hit; cases hit
      | some rest =>
        rw [hr] at hit
        cases hit
        exact ⟨f, rest, rfl, rfl, hr⟩

theorem iterate_mono {h : Nat → Node α} {fuel fuel' cur : Nat} {ns : List Nat}
    (hit : iterate h fuel cur = some ns) (hle : fuel ≤ fuel') :
    iterate h fuel' cur = some ns := by
  induction fuel generalizing fuel' cur ns with
  | zero =>
    rcases iterate_inv hit with ⟨rfl, rfl⟩ | ⟨_, f, _, hf, _⟩
    · exact iterate_null h fuel'
    · cases hf
  | succ f ih =>
    rcases iterate_inv hit with ⟨rfl, rfl⟩ | ⟨hc, f0, rest, hf, rfl, hrest⟩
    · exact iterate_null h fuel'
    · obtain rfl : f0 = f := by omega
      obtain ⟨g, rfl⟩ : ∃ g, fuel' = g + 1 := ⟨fuel' - 1, by omega⟩
      rw [iterate_succ h g hc, ih hrest (by omega)]

theorem iterate_det {h : Nat → Node α} {f1 f2 cur : Nat} {xs ys : List Nat}
    (h1 : iterate h f1 cur = some xs) (h2 : iterate h f2 cur = some ys) : xs = ys := by
  have a := iterate_mono h1 (Nat.le_max_left f1 f2)
  have b := iterate_mono h2 (Nat.le_max_right f1 f2)
  rw [a] at b
  exact Option.some.inj b

theorem iterate_length_le {h : Nat → Node α} {fuel cur : Nat} {ns : List Nat}
    (hit : iterate h fuel cur = some ns) : ns.length ≤ fuel := by
  induction fuel generalizing cur ns with
  | zero =>
    rcases iterate_inv hit with ⟨_, rfl⟩ | ⟨_, f, _, hf, _⟩
    · simp
    · cases hf
  | succ f ih =>
    rcases iterate_inv hit with ⟨_, rfl⟩ | ⟨_, f0, rest, hf, rfl, hrest⟩
    · simp
    · obtain rfl : f0 = f := by omega
      have := ih hrest
      simp only [List.length_cons]
      omega

/-- A traversal that passes through `x` continues from `x` as a traversal of its own. -/
theorem iterate_suffix {h : Nat → Node α} {fuel cur : Nat} {pre post : List Nat} {x : Nat}
    (hit : iterate h fuel cur = some (pre ++ x :: post)) :
    ∃ f, iterate h f x = some (x :: post) := by
  induction pre generalizing fuel cur with
  | nil =>
    rcases iterate_inv hit with ⟨_, hnil⟩ | ⟨_, f, rest, _, hcons, _⟩
    · cases hnil
    · simp only [List.nil_append, List.cons.injEq] at hcons
      obtain ⟨rfl, rfl⟩ := hcons
      exact ⟨fuel, hit⟩
  | cons a pre' ih =>
    rcases iterate_inv hit with ⟨_, hnil⟩ | ⟨_, f, rest, _, hcons, hrest⟩
    · cases hnil
    · simp only [List.cons_append, List.cons.injEq] at hcons
      obtain ⟨_, rfl⟩ := hcons
      exact ih hrest

theorem iterate_nodup {h : Nat → Node α} {fuel cur : Nat} {ns : List Nat}
    (hit : iterate h fuel cur = some ns) : ns.Nodup := by
  induction fuel generalizing cur ns with
  | zero =>
    rcases iterate_inv hit with ⟨_, rfl⟩ | ⟨_, f, _, hf, _⟩
    · exact List.nodup_nil
    · cases hf
  | succ f ih =>
    rcases iterate_inv hit with ⟨_, rfl⟩ | ⟨hc, f0, rest, hf, rfl, hrest⟩
    · exact List.nodup_nil
    · obtain rfl : f0 = f := by omega
      rw [List.nodup_cons]
      refine ⟨fun hmem => ?_, ih hrest⟩
      obtain ⟨pre, post, rfl⟩ := List.append_of_mem hmem
      obtain ⟨g, hg⟩ := iterate_suffix hrest
      have := congrArg List.length (iterate_det hit hg)
      simp only [List.length_cons, List.length_append] at this
      omega

theorem iterate_nonnull {h : Nat → Node α} {fuel cur : Nat} {ns : List Nat}
    (hit : iterate h fuel cur = some ns) : 0 ∉ ns := by
  induction fuel generalizing cur ns with
  | zero =>
    rcases iterate_inv hit with ⟨_, rfl⟩ | ⟨_, f, _, hf, _⟩
    · simp
    · cases hf
  | succ f ih =>
    rcases iterate_inv hit with ⟨_, rfl⟩ | ⟨hc, f0, rest, hf, rfl, hrest⟩
    · simp
    · obtain rfl : f0 = f := by omega
      intro hmem
      rcases List.mem_cons.mp hmem with h0 | h0
      · exact hc h0.symm
      · exact ih hrest h0

theorem iterate_firstD {h : Nat → Node α} {fuel cur : Nat} {ns : List Nat}
    (hit : iterate h fuel cur = some ns) : firstD ns 0 = cur := by
  rcases iterate_inv hit with ⟨rfl, rfl⟩ | ⟨_, _, _, _, rfl, _⟩ <;> rfl

/-- The traversal of a null-terminated segment visits exactly its nodes. -/
theorem iterate_of_seg {h : Nat → Node α} {ns : List Nat} {p fuel : Nat}
    (hs : Seg h p ns 0) (h0 : 0 ∉ ns) (hlen : ns.length ≤ fuel) :
    iterate h fuel (firstD ns 0) = some ns := by
  induction ns generalizing p fuel with
  | nil => exact iterate_null h fuel
  | cons a rest ih =>
    obtain ⟨_, h2, h3⟩ := hs
    obtain ⟨f, rfl⟩ : ∃ f, fuel = f + 1 := ⟨fuel - 1, by simp at hlen; omega⟩
    have ha : a ≠ 0 := fun e => h0 (e ▸ List.mem_cons_self _ _)
    have h0' : 0 ∉ rest := fun hm => h0 (List.mem_cons_of_mem _ hm)
    show iterate h (f + 1) a = _
    rw [iterate_succ h f ha, h2, ih h3 h0' (by simp at hlen; omega)]

/-- A traversal whose nodes agree with their successors on the back link is a segment. -/
theorem seg_of_iterate {h : Nat → Node α} {fuel cur p : Nat} {ns : List Nat}
    (hit : iterate h fuel cur = some ns)
    (hagree : ∀ n ∈ ns, (h n).next ≠ 0 → (h (h n).next).prev = n)
    (hp : cur ≠ 0 → (h cur).prev = p) : Seg h p ns 0 := by
  induction fuel generalizing cur p ns with
  | zero =>
    rcases iterate_inv hit with ⟨_, rfl⟩ | ⟨_, f, _, hf, _⟩
    · trivial
    · cases hf
  | succ f ih =>
    rcases iterate_inv hit with ⟨_, rfl⟩ | ⟨hc, f0, rest, hf, rfl, hrest⟩
    · trivial
    · obtain rfl : f0 = f := by omega
      refine ⟨hp hc, (iterate_firstD hrest).symm, ?_⟩
      refine ih hrest (fun n hn => hagree n (List.mem_cons_of_mem _ hn)) ?_
      exact hagree cur (List.mem_cons_self _ _)

theorem iterateBack_eq (h : Nat → Node α) (fuel cur : Nat) :
    iterateBack h fuel cur = iterate (mirror h) fuel cur := by
  induction fuel generalizing cur with
  | zero => rfl
  | succ f ih =>
    by_cases hc : cur = 0
    · simp [iterate, iterateBack, hc]
    · simp only [iterate, iterateBack, hc, if_false, ih]
      rfl

theorem lastD_reverse (xs : List Nat) (d : Nat) : lastD xs.reverse d = firstD xs d := by
  cases xs with
  | nil => rfl
  | cons a rest => rw [List.reverse_cons, lastD_append]; rfl

theorem firstD_reverse (xs : List Nat) (d : Nat) : firstD xs.reverse d = lastD xs d := by
  have := lastD_reverse xs.reverse d
  rw [List.reverse_reverse] at this
  exact this.symm

theorem Seg.mirror_iff (h : Nat → Node α) (ns : List Nat) (p q : Nat) :
    Seg (mirror h) q ns.reverse p ↔ Seg h p ns q := by
  induction ns generalizing p with
  | nil => simp [Seg]
  | cons a rest ih =>
    rw [List.reverse_cons, Seg.append_iff, lastD_reverse]
    simp only [Seg, firstD, mirror, and_true]
    rw [ih a]
    constructor
    · rintro ⟨h1, h2, h3⟩; exact ⟨h3, h2, h1⟩
    · rintro ⟨h1, h2, h3⟩; exact ⟨h3, h2, h1⟩

/-- In a null-terminated chain the links of neighbours agree. -/
theorem Seg.agree {h : Nat → Node α} {ns : List Nat} {p q : Nat} (hs : Seg h p ns q)
    (hq : q = 0) : ∀ n ∈ ns, (h n).next ≠ 0 → (h (h n).next).prev = n := by
  induction ns generalizing p with
  | nil => intro n hn; cases hn
  | cons a rest ih =>
    obtain ⟨_, h2, h3⟩ := hs
    intro n hn hne
    rcases List.mem_cons.mp hn with rfl | hn
    · cases rest with
      | nil => rw [h2] at hne; exact absurd hq hne
      | cons b r => rw [h2]; exact h3.1
    · exact ih h3 n hn hne

end Traversal

/-! ## The list: what the member functions do to the chain -/

namespace pmr_list

variable {α : Type}

theorem firstD_congr {xs : List Nat} (hne : xs ≠ []) (d d' : Nat) :
    firstD xs d = firstD xs d' := by
  cases xs with
  | nil => exact absurd rfl hne
  | cons a rest => rfl

theorem lastD_congr {xs : List Nat} (hne : xs ≠ []) (d d' : Nat) :
    lastD xs d = lastD xs d' := by
  cases xs with
  | nil => exact absurd rfl hne
  | cons a rest => rfl

theorem IsList.nodes {l : pmr_list α} {ns : List Nat} (hl : l.IsList ns) {fuel : Nat}
    (hlen : ns.length ≤ fuel) : l.nodes fuel = some ns := by
  unfold pmr_list.nodes pmr_list.begin
  rw [hl.head_eq]
  exact iterate_of_seg hl.seg hl.nonnull hlen

theorem IsList.nodes_eq {l : pmr_list α} {ns ns' : List Nat} (hl : l.IsList ns) {fuel : Nat}
    (hn : l.nodes fuel = some ns') : ns' = ns :=
  iterate_det hn (hl.nodes (Nat.le_refl _))

theorem IsList.traverse {l : pmr_list α} {ns : List Nat} (hl : l.IsList ns) {fuel : Nat}
    (hlen : ns.length ≤ fuel) :
    l.traverse fuel = some (ns.map fun a => (l.heap a).value) := by
  unfold pmr_list.traverse
  rw [hl.nodes hlen]

theorem traverse_eq_some {l : pmr_list α} {fuel : Nat} {xs : List α}
    (h : l.traverse fuel = some xs) :
    ∃ ns, l.nodes fuel = some ns ∧ xs = ns.map fun a => (l.heap a).value := by
  unfold pmr_list.traverse at h
  cases hn : l.nodes fuel with
  | none => rw [hn] at h; cases h
  | some ns => rw [hn] at h; cases h; exact ⟨ns, rfl, rfl⟩

/-- Unlinking the node `a` of the chain `pre ++ a :: post` with `erase`. -/
theorem IsList.unlink {l : pmr_list α} {pre post : List Nat} {a : Nat}
    (hl : l.IsList (pre ++ a :: post)) (L : NodeLayout) :
    (l.erase L a).2.IsList (pre ++ post) ∧
    (l.erase L a).1 = firstD post 0 ∧
    (∀ x, ((l.erase L a).2.heap x).value = (l.heap x).value) ∧
    (l.erase L a).2.alloc_ = l.alloc_.do_deallocate a L.size L.align ∧
    (l.erase L a).2.sz_ + 1 = l.sz_ := by
  have ha : a ≠ 0 := fun e => hl.nonnull (by simp [e])
  have h0pre : 0 ∉ pre := fun hm => hl.nonnull (by simp [hm])
  have h0post : 0 ∉ post := fun hm => hl.nonnull (by simp [hm])
  have hnd := hl.nodup
  rw [List.nodup_append] at hnd
  obtain ⟨hndpre, hnd2, hdisj⟩ := hnd
  rw [List.nodup_cons] at hnd2
  obtain ⟨hapost, hndpost⟩ := hnd2
  have hdis : ∀ x ∈ pre, x ∉ post := fun x hx hx' =>
    hdisj hx (List.mem_cons_of_mem _ hx')
  have hseg := (Seg.append_iff _ _ _ _ _).mp hl.seg
  obtain ⟨hsegpre, hprev, hnext, hsegpost⟩ := hseg
  change Seg l.heap 0 pre a at hsegpre
  have hpv : lastD pre 0 ≠ 0 ↔ pre ≠ [] := not_congr (lastD_eq_zero_iff h0pre)
  have hnx : firstD post 0 ≠ 0 ↔ post ≠ [] := not_congr (firstD_eq_zero_iff h0post)
  -- the two link updates
  have hE : l.erase L a = (firstD post 0,
      { alloc_ := l.alloc_.do_deallocate a L.size L.align,
        heap :=
          if firstD post 0 ≠ 0 then
            setPrev (if lastD pre 0 ≠ 0 then setNext l.heap (lastD pre 0) (firstD post 0)
              else l.heap) (firstD post 0) (lastD pre 0)
          else (if lastD pre 0 ≠ 0 then setNext l.heap (lastD pre 0) (firstD post 0)
              else l.heap),
        head_ := if lastD pre 0 ≠ 0 then l.head_ else firstD post 0,
        tail_ := if firstD post 0 ≠ 0 then l.tail_ else lastD pre 0,
        sz_ := wrap (l.sz_ + 2 ^ 64 - 1) }) := by
    simp only [pmr_list.erase, ha, if_false, hprev, hnext]
  rw [hE]
  have hsz := hl.sz_eq
  have hlt := hl.sz_lt
  simp only [List.length_append, List.length_cons] at hsz hlt
  refine ⟨?_, rfl, ?_, rfl, ?_⟩
  · -- the chain
    have s1 : Seg (if lastD pre 0 ≠ 0 then setNext l.heap (lastD pre 0) (firstD post 0)
        else l.heap) 0 pre (firstD post 0) := by
      by_cases hp : pre = []
      · subst hp; trivial
      · rw [if_pos (hpv.mpr hp)]
        exact hsegpre.set_last_next 0 _ hndpre
    have s2 : Seg (if lastD pre 0 ≠ 0 then setNext l.heap (lastD pre 0) (firstD post 0)
        else l.heap) a post 0 := by
      by_cases hp : pre = []
      · subst hp; simpa [lastD] using hsegpost
      · rw [if_pos (hpv.mpr hp)]
        refine hsegpost.frame (fun b hb => setNext_other _ _ ?_)
        intro e
        exact hdis _ (lastD_mem hp 0) (e ▸ hb)
    refine ⟨?_, ?_, ?_, ?_, ?_, ?_, ?_⟩
    · rw [Seg.append_iff]
      by_cases hq : post = []
      · subst hq
        simpa [firstD, Seg] using s1
      · simp only [if_pos (hnx.mpr hq)]
        constructor
        · refine s1.frame (fun b hb => setPrev_other _ _ ?_)
          intro e
          exact hdis b hb (e ▸ firstD_mem hq 0)
        · exact s2.set_first_prev 0 _ hndpost
    · rw [List.nodup_append]
      exact ⟨hndpre, hndpost, fun x hx hx' => hdis x hx hx'⟩
    · intro hm
      rcases List.mem_append.mp hm with hm | hm
      · exact h0pre hm
      · exact h0post hm
    · show (if lastD pre 0 ≠ 0 then l.head_ else firstD post 0) = firstD (pre ++ post) 0
      rw [firstD_append, hl.head_eq, firstD_append]
      by_cases hp : pre = []
      · subst hp; simp [lastD, firstD]
      · rw [if_pos (hpv.mpr hp)]; exact firstD_congr hp _ _
    · show (if firstD post 0 ≠ 0 then l.tail_ else lastD pre 0) = lastD (pre ++ post) 0
      rw [lastD_append, hl.tail_eq, lastD_append]
      by_cases hq : post = []
      · subst hq; simp [lastD, firstD]
      · rw [if_pos (hnx.mpr hq)]; exact lastD_congr hq _ _
    · show wrap (l.sz_ + 2 ^ 64 - 1) = (pre ++ post).length
      rw [List.length_append, hsz]
      unfold wrap
      omega
    · rw [List.length_append]; omega
  · intro x
    show (Node.value ((if firstD post 0 ≠ 0 then _ else _ : Nat → Node α) x)) = _
    split <;> split <;> simp [setPrev_value, setNext_value]
  · show wrap (l.sz_ + 2 ^ 64 - 1) + 1 = l.sz_
    rw [hsz]
    unfold wrap
    omega

/-- The links of the two end nodes of a chain. -/
theorem IsList.ends {l : pmr_list α} {ns : List Nat} (hl : l.IsList ns) (hne : ns ≠ []) :
    l.head_ ≠ 0 ∧ l.tail_ ≠ 0 ∧ (l.heap l.head_).prev = 0 ∧ (l.heap l.tail_).next = 0 := by
  have hh : l.head_ ≠ 0 := by
    rw [hl.head_eq]; exact fun e => hne ((firstD_eq_zero_iff hl.nonnull).mp e)
  have ht : l.tail_ ≠ 0 := by
    rw [hl.tail_eq]; exact fun e => hne ((lastD_eq_zero_iff hl.nonnull).mp e)
  refine ⟨hh, ht, ?_, ?_⟩
  · cases ns with
    | nil => exact absurd rfl hne
    | cons a rest =>
      rw [hl.head_eq]
      exact hl.seg.1
  · obtain ⟨pre, a, rfl⟩ : ∃ pre a, ns = pre ++ [a] := by
      rcases List.eq_nil_or_concat ns with h | ⟨pre, a, h⟩
      · exact absurd h hne
      · exact ⟨pre, a, by simpa using h⟩
    have hs := (Seg.append_iff _ _ _ _ _).mp hl.seg
    rw [hl.tail_eq, lastD_append]
    exact hs.2.2.1

/-- On a non-empty chain `pop_back` is `erase` at the tail. -/
theorem IsList.pop_back_eq {l : pmr_list α} {ns : List Nat} (hl : l.IsList ns)
    (hne : ns ≠ []) (L : NodeLayout) : l.pop_back L = (l.erase L l.tail_).2 := by
  obtain ⟨_, ht, _, hnext⟩ := hl.ends hne
  simp only [pmr_list.pop_back, pmr_list.erase, ht, if_false, hnext, ne_eq, not_true_eq_false]

/-- On a non-empty chain `pop_front` is `erase` at the head. -/
theorem IsList.pop_front_eq {l : pmr_list α} {ns : List Nat} (hl : l.IsList ns)
    (hne : ns ≠ []) (L : NodeLayout) : l.pop_front L = (l.erase L l.head_).2 := by
  obtain ⟨hh, _, hprev, _⟩ := hl.ends hne
  simp only [pmr_list.pop_front, pmr_list.erase, hh, if_false, hprev, ne_eq,
    not_true_eq_false]

theorem IsList.pop_back_nil {l : pmr_list α} (hl : l.IsList []) (L : NodeLayout) :
    l.pop_back L = l := by
  have : l.tail_ = 0 := hl.tail_eq
  simp [pmr_list.pop_back, this]

theorem IsList.pop_front_nil {l : pmr_list α} (hl : l.IsList []) (L : NodeLayout) :
    l.pop_front L = l := by
  have : l.head_ = 0 := hl.head_eq
  simp [pmr_list.pop_front, this]

/-- Linking a fresh node `n` after the tail with `emplace_back`. -/
theorem IsList.link_back {l : pmr_list α} {ns : List Nat} (hl : l.IsList ns)
    (L : NodeLayout) (v : α) {n : Nat} {m' : FixedListMemoryResource}
    (hal : l.alloc_.do_allocate L.size L.align = (.ok n, m'))
    (hn0 : n ≠ 0) (hfresh : n ∉ ns) (hlen : ns.length + 1 < 2 ^ 64) :
    (l.emplace_back L (.ok v)).1 = .ok () ∧
    (l.emplace_back L (.ok v)).2.IsList (ns ++ [n]) ∧
    (l.emplace_back L (.ok v)).2.alloc_ = m' ∧
    ((l.emplace_back L (.ok v)).2.heap n).value = v ∧
    (∀ x, x ≠ n → ((l.emplace_back L (.ok v)).2.heap x).value = (l.heap x).value) := by
  have hE : l.emplace_back L (.ok v) = (.ok (),
      { alloc_ := m',
        heap := if l.tail_ ≠ 0 then
            setNext (setNext (setPrev (store l.heap n ⟨v, 0, 0⟩) n l.tail_) n 0) l.tail_ n
          else setNext (setPrev (store l.heap n ⟨v, 0, 0⟩) n l.tail_) n 0,
        head_ := if l.head_ = 0 then n else l.head_,
        tail_ := n,
        sz_ := wrap (l.sz_ + 1) }) := by
    simp only [pmr_list.emplace_back, hal]
  rw [hE]
  have hB : ∀ x, x ≠ n →
      setNext (setPrev (store l.heap n ⟨v, 0, 0⟩) n l.tail_) n 0 x = l.heap x := by
    intro x hx
    rw [setNext_other _ _ hx, setPrev_other _ _ hx, store_other _ _ hx]
  have hBn : setNext (setPrev (store l.heap n ⟨v, 0, 0⟩) n l.tail_) n 0 n =
      ⟨v, l.tail_, 0⟩ := by
    rw [setNext_same, setPrev_same, store_same]
  have hsegB : Seg (setNext (setPrev (store l.heap n ⟨v, 0, 0⟩) n l.tail_) n 0) 0 ns 0 :=
    hl.seg.frame (fun b hb => hB b (fun e => hfresh (e ▸ hb)))
  have htl : l.tail_ ≠ 0 ↔ ns ≠ [] := by
    rw [hl.tail_eq]; exact not_congr (lastD_eq_zero_iff hl.nonnull)
  refine ⟨rfl, ⟨?_, ?_, ?_, ?_, ?_, ?_, ?_⟩, rfl, ?_, ?_⟩
  · rw [Seg.append_iff]
    by_cases hne : ns = []
    · subst hne
      have ht : l.tail_ = 0 := hl.tail_eq
      simp only [ht, ne_eq, not_true_eq_false, if_false]
      refine ⟨trivial, ?_, ?_, trivial⟩
      · rw [setNext_prev, setPrev_same]; rfl
      · rw [setNext_same]; rfl
    · have ht := htl.mpr hne
      simp only [if_pos ht]
      have htn : n ≠ l.tail_ := by
        intro e
        exact hfresh (by rw [e, hl.tail_eq]; exact lastD_mem hne 0)
      constructor
      · have := hsegB.set_last_next 0 n hl.nodup
        rw [← hl.tail_eq] at this
        exact this
      · refine ⟨?_, ?_, trivial⟩
        · rw [setNext_other _ _ htn, hBn]; exact hl.tail_eq
        · rw [setNext_other _ _ htn, hBn]; rfl
  · rw [List.nodup_append]
    refine ⟨hl.nodup, List.nodup_singleton n, ?_⟩
    intro x hx hx'
    rw [List.mem_singleton] at hx'
    exact hfresh (hx' ▸ hx)
  · intro hm
    rcases List.mem_append.mp hm with hm | hm
    · exact hl.nonnull hm
    · exact hn0 (List.mem_singleton.mp hm).symm
  · show (if l.head_ = 0 then n else l.head_) = firstD (ns ++ [n]) 0
    rw [firstD_append, hl.head_eq]
    by_cases hne : ns = []
    · subst hne; simp [firstD]
    · rw [if_neg (fun e => hne ((firstD_eq_zero_iff hl.nonnull).mp e))]
      exact firstD_congr hne _ _
  · show n = lastD (ns ++ [n]) 0
    rw [lastD_append]; rfl
  · show wrap (l.sz_ + 1) = (ns ++ [n]).length
    rw [hl.sz_eq, List.length_append]
    unfold wrap
    simp only [List.length_singleton]
    omega
  · rw [List.length_append]; simpa using hlen
  · show (Node.value ((if l.tail_ ≠ 0 then _ else _ : Nat → Node α) n)) = v
    split
    · rw [setNext_value, hBn]
    · rw [hBn]
  · intro x hx
    show (Node.value ((if l.tail_ ≠ 0 then _ else _ : Nat → Node α) x)) = _
    split
    · rw [setNext_value, hB x hx]
    · rw [hB x hx]

/-- Linking a fresh node `n` before the head with `emplace_front`. -/
theorem IsList.link_front {l : pmr_list α} {ns : List Nat} (hl : l.IsList ns)
    (L : NodeLayout) (v : α) {n : Nat} {m' : FixedListMemoryResource}
    (hal : l.alloc_.do_allocate L.size L.align = (.ok n, m'))
    (hn0 : n ≠ 0) (hfresh : n ∉ ns) (hlen : ns.length + 1 < 2 ^ 64) :
    (l.emplace_front L (.ok v)).1 = .ok () ∧
    (l.emplace_front L (.ok v)).2.IsList (n :: ns) ∧
    (l.emplace_front L (.ok v)).2.alloc_ = m' ∧
    ((l.emplace_front L (.ok v)).2.heap n).value = v ∧
    (∀ x, x ≠ n → ((l.emplace_front L (.ok v)).2.heap x).value = (l.heap x).value) := by
  have hE : l.emplace_front L (.ok v) = (.ok (),
      { alloc_ := m',
        heap := if l.head_ ≠ 0 then
            setPrev (setNext (setPrev (store l.heap n ⟨v, 0, 0⟩) n 0) n l.head_) l.head_ n
          else setNext (setPrev (store l.heap n ⟨v, 0, 0⟩) n 0) n l.head_,
        head_ := n,
        tail_ := if l.tail_ = 0 then n else l.tail_,
        sz_ := wrap (l.sz_ + 1) }) := by
    simp only [pmr_list.emplace_front, hal]
  rw [hE]
  have hB : ∀ x, x ≠ n →
      setNext (setPrev (store l.heap n ⟨v, 0, 0⟩) n 0) n l.head_ x = l.heap x := by
    intro x hx
    rw [setNext_other _ _ hx, setPrev_other _ _ hx, store_other _ _ hx]
  have hBn : setNext (setPrev (store l.heap n ⟨v, 0, 0⟩) n 0) n l.head_ n =
      ⟨v, 0, l.head_⟩ := by
    rw [setNext_same, setPrev_same, store_same]
  have hsegB : Seg (setNext (setPrev (store l.heap n ⟨v, 0, 0⟩) n 0) n l.head_) 0 ns 0 :=
    hl.seg.frame (fun b hb => hB b (fun e => hfresh (e ▸ hb)))
  refine ⟨rfl, ⟨?_, ?_, ?_, rfl, ?_, ?_, ?_⟩, rfl, ?_, ?_⟩
  · by_cases hne : ns = []
    · subst hne
      have hh : l.head_ = 0 := hl.head_eq
      simp only [hh, ne_eq, not_true_eq_false, if_false]
      refine ⟨?_, ?_, trivial⟩
      · rw [setNext_prev, setPrev_same]
      · rw [setNext_same]; rfl
    · have hh : l.head_ ≠ 0 := by
        rw [hl.head_eq]; exact fun e => hne ((firstD_eq_zero_iff hl.nonnull).mp e)
      simp only [if_pos hh]
      have hhn : n ≠ l.head_ := by
        intro e
        exact hfresh (by rw [e, hl.head_eq]; exact firstD_mem hne 0)
      refine ⟨?_, ?_, ?_⟩
      · rw [setPrev_other _ _ hhn, hBn]
      · rw [setPrev_other _ _ hhn, hBn]; exact hl.head_eq
      · have := hsegB.set_first_prev 0 n hl.nodup
        rw [← hl.head_eq] at this
        exact this
  · rw [List.nodup_cons]; exact ⟨hfresh, hl.nodup⟩
  · intro hm
    rcases List.mem_cons.mp hm with hm | hm
    · exact hn0 hm.symm
    · exact hl.nonnull hm
  · show (if l.tail_ = 0 then n else l.tail_) = lastD (n :: ns) 0
    show _ = lastD ns n
    rw [hl.tail_eq]
    by_cases hne : ns = []
    · subst hne; simp [lastD]
    · rw [if_neg (fun e => hne ((lastD_eq_zero_iff hl.nonnull).mp e))]
      exact lastD_congr hne _ _
  · show wrap (l.sz_ + 1) = (n :: ns).length
    rw [hl.sz_eq, List.length_cons]
    unfold wrap
    omega
  · rw [List.length_cons]; exact hlen
  · show (Node.value ((if l.head_ ≠ 0 then _ else _ : Nat → Node α) n)) = v
    split
    · rw [setPrev_value, hBn]
    · rw [hBn]
  · intro x hx
    show (Node.value ((if l.head_ ≠ 0 then _ else _ : Nat → Node α) x)) = _
    split
    · rw [setPrev_value, hB x hx]
    · rw [hB x hx]

end pmr_list

/-! ## The list: the invariant in the spec's words -/

namespace pmr_list

variable {α : Type}

theorem IsList.toWellFormed {l : pmr_list α} {ns : List Nat} (hl : l.IsList ns) :
    l.WellFormed := by
  have hh : l.head_ = 0 ↔ ns = [] := by
    rw [hl.head_eq]; exact firstD_eq_zero_iff hl.nonnull
  have ht : l.tail_ = 0 ↔ ns = [] := by
    rw [hl.tail_eq]; exact lastD_eq_zero_iff hl.nonnull
  have hs : l.sz_ = 0 ↔ ns = [] := by
    rw [hl.sz_eq]; exact List.length_eq_zero
  refine ⟨by rw [hl.sz_eq]; exact hl.sz_lt, hh.trans ht.symm, ht.trans hs.symm, ns, ?_,
    hl.sz_eq.symm, hl.tail_eq.symm, ?_, ?_, ?_, ?_⟩
  · have := hl.nodes (Nat.le_of_eq hl.sz_eq.symm)
    exact this
  · intro hne
    exact (hl.ends (fun e => hne (ht.mpr e))).2.2.2
  · rw [iterateBack_eq, hl.tail_eq, ← firstD_reverse]
    refine iterate_of_seg ((Seg.mirror_iff _ _ _ _).mpr hl.seg) ?_ ?_
    · simpa using hl.nonnull
    · simp [hl.sz_eq]
  · intro hne
    exact (hl.ends (fun e => hne (hh.mpr e))).2.2.1
  · intro n hn
    refine ⟨Seg.agree hl.seg rfl n hn, ?_⟩
    have := Seg.agree ((Seg.mirror_iff _ _ _ _).mpr hl.seg) rfl n (by simpa using hn)
    exact this

theorem WellFormed.isList {l : pmr_list α} (hw : l.WellFormed) : ∃ ns, l.IsList ns := by
  obtain ⟨hlt, _, _, ns, hit, hlen, hlast, _, _, hhp, hagree⟩ := hw
  refine ⟨ns, ?_, iterate_nodup hit, iterate_nonnull hit, (iterate_firstD hit).symm,
    hlast.symm, hlen.symm, by rw [hlen]; exact hlt⟩
  exact seg_of_iterate hit (fun n hn => (hagree n hn).1) hhp

theorem wellFormed_iff (l : pmr_list α) : l.WellFormed ↔ ∃ ns, l.IsList ns :=
  ⟨WellFormed.isList, fun ⟨_, h⟩ => h.toWellFormed⟩

theorem IsList.backed_iff {l : pmr_list α} {ns : List Nat} (hl : l.IsList ns) :
    l.Backed ↔ l.alloc_.Valid ∧ ∀ a ∈ ns, a ∈ l.alloc_.allocated_.map Block.ptr := by
  constructor
  · rintro ⟨hv, ho⟩
    exact ⟨hv, ho _ ns (hl.nodes (Nat.le_refl _))⟩
  · rintro ⟨hv, ho⟩
    refine ⟨hv, fun fuel ns' hn => ?_⟩
    rw [hl.nodes_eq hn]
    exact ho

theorem Inv.toBacked {l : pmr_list α} {ns : List Nat} (h : l.Inv ns) : l.Backed :=
  h.isList.backed_iff.mpr ⟨h.valid, h.owned⟩

theorem Inv.of_wellFormed {l : pmr_list α} (hw : l.WellFormed) (hb : l.Backed) :
    ∃ ns, l.Inv ns := by
  obtain ⟨ns, hl⟩ := hw.isList
  obtain ⟨hv, ho⟩ := hl.backed_iff.mp hb
  exact ⟨ns, hl, hv, ho⟩

theorem Inv.construct {mr : FixedListMemoryResource} (hv : mr.Valid) (heap : Nat → Node α) :
    (construct mr heap).Inv [] where
  isList := ⟨trivial, List.nodup_nil, by simp, rfl, rfl, rfl, by simp⟩
  valid := hv
  owned := by intro a ha; cases ha

end pmr_list

/-! ## The list and its memory resource -/

namespace FixedListMemoryResource

/-- A successful `do_allocate` on a valid resource hands out a non-null address that was
not in the allocated ledger and records it there. -/
theorem Valid.do_allocate_ok {m m' : FixedListMemoryResource} (hv : m.Valid)
    {bytes alignment n : Nat} (hal : m.do_allocate bytes alignment = (.ok n, m')) :
    n ≠ 0 ∧ n ∉ m.allocated_.map Block.ptr ∧ m'.Valid ∧
      m'.allocated_ = m.allocated_ ++ [⟨n, coerce bytes⟩] := by
  have hv' : m'.Valid := by
    have := hv.do_allocate bytes alignment
    rw [hal] at this
    exact this
  rcases do_allocate_cases m bytes alignment with
    ⟨pre, hit, post, hsplit, _, _, heq⟩ | ⟨_, _, heq⟩ | ⟨_, _, heq⟩
  · rw [heq] at hal
    simp only [Prod.mk.injEq, Except.ok.injEq] at hal
    obtain ⟨rfl, rfl⟩ := hal
    have hb := hv.blocks hit (by simp [hsplit])
    have hpos := hv.buffer_pos
    refine ⟨by omega, ?_, hv', rfl⟩
    have hnd := hv.nodup
    rw [List.map_append, List.nodup_append] at hnd
    intro hmem
    exact hnd.2.2 hmem (List.mem_map.mpr ⟨hit, by simp [hsplit], rfl⟩)
  · rw [heq] at hal
    simp only [Prod.mk.injEq, Except.ok.injEq] at hal
    obtain ⟨rfl, rfl⟩ := hal
    have hpos := hv.buffer_pos
    have hle := hv.buffer_le
    refine ⟨by omega, ?_, hv', rfl⟩
    intro hmem
    obtain ⟨b, hb, hbp⟩ := List.mem_map.mp hmem
    have := hv.blocks b (by simp [hb])
    omega
  · rw [heq] at hal
    simp only [Prod.mk.injEq] at hal
    exact absurd hal.1 (by simp)

theorem do_allocate_error {m : FixedListMemoryResource} {bytes alignment : Nat} {e : Exn}
    (h : (m.do_allocate bytes alignment).1 = .error e) :
    m.do_allocate bytes alignment = (.error .bad_alloc, m) := by
  rcases do_allocate_cases m bytes alignment with
    ⟨pre, hit, post, _, _, _, heq⟩ | ⟨_, _, heq⟩ | ⟨_, _, heq⟩
  · rw [heq] at h; cases h
  · rw [heq] at h; cases h
  · exact heq

theorem do_deallocate_mem_of_ne {m : FixedListMemoryResource} {p x : Nat}
    (bytes alignment : Nat) (hx : x ≠ p) (hm : x ∈ m.allocated_.map Block.ptr) :
    x ∈ (m.do_deallocate p bytes alignment).allocated_.map Block.ptr := by
  rcases do_deallocate_cases m p bytes alignment with ⟨_, heq⟩ |
    ⟨pre, hit, post, _, hsplit, _, hhit, heq⟩
  · rw [heq]; exact hm
  · rw [heq]
    rw [hsplit] at hm
    simp only [List.map_append, List.map_cons, List.mem_append, List.mem_cons] at hm ⊢
    rcases hm with hm | hm | hm
    · exact Or.inl hm
    · exact absurd (hm.trans hhit) hx
    · exact Or.inr hm

/-- In a valid resource every recorded address lies below `limit_`, so a list of distinct
recorded addresses is shorter than the address space. -/
theorem Valid.length_lt {m : FixedListMemoryResource} (hv : m.Valid) {ns : List Nat}
    (hnd : ns.Nodup) (ho : ∀ a ∈ ns, a ∈ m.allocated_.map Block.ptr) :
    ns.length < 2 ^ 64 := by
  have hsub : ns.toFinset ⊆ Finset.range m.limit_ := by
    intro a ha
    rw [List.mem_toFinset] at ha
    obtain ⟨b, hb, rfl⟩ := List.mem_map.mp (ho a ha)
    have := hv.blocks b (by simp [hb])
    have := hv.cursor_le
    rw [Finset.mem_range]
    omega
  have hcard := Finset.card_le_card hsub
  rw [List.toFinset_card_of_nodup hnd, Finset.card_range] at hcard
  have := hv.limit_lt
  omega

end FixedListMemoryResource

/-! ## The list: every member function keeps the invariant -/

namespace pmr_list

variable {α : Type}

/-- The member `emplace_back` either links a node at an address that was not in use, or throws and
changes nothing. -/
theorem Inv.emplace_back_cases {l : pmr_list α} {ns : List Nat} (h : l.Inv ns) (L : NodeLayout)
    (v : α) :
    (∃ n, n ∉ ns ∧ (l.emplace_back L (.ok v)).1 = .ok () ∧
        (l.emplace_back L (.ok v)).2.Inv (ns ++ [n]) ∧
        ((l.emplace_back L (.ok v)).2.heap n).value = v ∧
        (∀ x, x ≠ n → ((l.emplace_back L (.ok v)).2.heap x).value = (l.heap x).value) ∧
        l.alloc_.do_allocate L.size L.align = (.ok n, (l.emplace_back L (.ok v)).2.alloc_)) ∨
    ((l.emplace_back L (.ok v)).1 = .error .bad_alloc ∧ (l.emplace_back L (.ok v)).2 = l ∧
        l.alloc_.do_allocate L.size L.align = (.error .bad_alloc, l.alloc_)) := by
  cases hres : l.alloc_.do_allocate L.size L.align with
  | mk r m' =>
    cases r with
    | error e =>
      right
      have := FixedListMemoryResource.do_allocate_error (by rw [hres] : (l.alloc_.do_allocate
        L.size L.align).1 = .error e)
      rw [hres] at this
      simp only [Prod.mk.injEq, Except.error.injEq] at this
      obtain ⟨rfl, rfl⟩ := this
      refine ⟨by simp [pmr_list.emplace_back, hres], by simp [pmr_list.emplace_back, hres], rfl⟩
    | ok n =>
      left
      obtain ⟨hn0, hfresh, hv', hall⟩ := h.valid.do_allocate_ok hres
      have hnns : n ∉ ns := fun hm => hfresh (h.owned n hm)
      have howned : ∀ a ∈ ns ++ [n], a ∈ m'.allocated_.map Block.ptr := by
        intro a ha
        rw [hall, List.map_append]
        rcases List.mem_append.mp ha with ha | ha
        · exact List.mem_append_left _ (h.owned a ha)
        · rw [List.mem_singleton] at ha
          subst ha
          simp
      have hnd : (ns ++ [n]).Nodup := by
        rw [List.nodup_append]
        refine ⟨h.isList.nodup, List.nodup_singleton n, ?_⟩
        intro x hx hx'
        rw [List.mem_singleton] at hx'
        exact hnns (hx' ▸ hx)
      have hlen := hv'.length_lt hnd howned
      rw [List.length_append, List.length_singleton] at hlen
      obtain ⟨h1, h2, h3, h4, h5⟩ := h.isList.link_back L v hres hn0 hnns hlen
      refine ⟨n, hnns, h1, ⟨h2, by rw [h3]; exact hv', by rw [h3]; exact howned⟩, h4, h5, ?_⟩
      rw [h3]

/-- The member `emplace_front` either links a node at an address that was not in use, or throws and
changes nothing. -/
theorem Inv.emplace_front_cases {l : pmr_list α} {ns : List Nat} (h : l.Inv ns) (L : NodeLayout)
    (v : α) :
    (∃ n, n ∉ ns ∧ (l.emplace_front L (.ok v)).1 = .ok () ∧
        (l.emplace_front L (.ok v)).2.Inv (n :: ns) ∧
        ((l.emplace_front L (.ok v)).2.heap n).value = v ∧
        (∀ x, x ≠ n → ((l.emplace_front L (.ok v)).2.heap x).value = (l.heap x).value) ∧
        l.alloc_.do_allocate L.size L.align = (.ok n, (l.emplace_front L (.ok v)).2.alloc_)) ∨
    ((l.emplace_front L (.ok v)).1 = .error .bad_alloc ∧ (l.emplace_front L (.ok v)).2 = l ∧
        l.alloc_.do_allocate L.size L.align = (.error .bad_alloc, l.alloc_)) := by
  cases hres : l.alloc_.do_allocate L.size L.align with
  | mk r m' =>
    cases r with
    | error e =>
      right
      have := FixedListMemoryResource.do_allocate_error (by rw [hres] : (l.alloc_.do_allocate
        L.size L.align).1 = .error e)
      rw [hres] at this
      simp only [Prod.mk.injEq, Except.error.injEq] at this
      obtain ⟨rfl, rfl⟩ := this
      refine ⟨by simp [pmr_list.emplace_front, hres], by simp [pmr_list.emplace_front, hres],
        rfl⟩
    | ok n =>
      left
      obtain ⟨hn0, hfresh, hv', hall⟩ := h.valid.do_allocate_ok hres
      have hnns : n ∉ ns := fun hm => hfresh (h.owned n hm)
      have howned : ∀ a ∈ n :: ns, a ∈ m'.allocated_.map Block.ptr := by
        intro a ha
        rw [hall, List.map_append]
        rcases List.mem_cons.mp ha with ha | ha
        · subst ha
          simp
        · exact List.mem_append_left _ (h.owned a ha)
      have hnd : (n :: ns).Nodup := List.nodup_cons.mpr ⟨hnns, h.isList.nodup⟩
      have hlen := hv'.length_lt hnd howned
      rw [List.length_cons] at hlen
      obtain ⟨h1, h2, h3, h4, h5⟩ := h.isList.link_front L v hres hn0 hnns hlen
      refine ⟨n, hnns, h1, ⟨h2, by rw [h3]; exact hv', by rw [h3]; exact howned⟩, h4, h5, ?_⟩
      rw [h3]

theorem Inv.erase_inv {l : pmr_list α} {pre post : List Nat} {a : Nat}
    (h : l.Inv (pre ++ a :: post)) (L : NodeLayout) : (l.erase L a).2.Inv (pre ++ post) := by
  obtain ⟨h1, _, _, h4, _⟩ := h.isList.unlink L
  refine ⟨h1, by rw [h4]; exact h.valid.do_deallocate _ _ _, ?_⟩
  intro x hx
  rw [h4]
  have hnd := h.isList.nodup
  have hxa : x ≠ a := by
    rintro rfl
    rw [List.nodup_append] at hnd
    rcases List.mem_append.mp hx with hx | hx
    · exact hnd.2.2 hx (List.mem_cons_self _ _)
    · exact (List.nodup_cons.mp hnd.2.1).1 hx
  refine FixedListMemoryResource.do_deallocate_mem_of_ne _ _ hxa (h.owned x ?_)
  rcases List.mem_append.mp hx with hx | hx
  · exact List.mem_append_left _ hx
  · exact List.mem_append_right _ (List.mem_cons_of_mem _ hx)

theorem erase_end (L : NodeLayout) (l : pmr_list α) : l.erase L 0 = (0, l) := by
  simp [pmr_list.erase, pmr_list.end_]

/-- A non-empty chain ends in its tail node. -/
theorem IsList.split_last {l : pmr_list α} {ns : List Nat} (hl : l.IsList ns)
    (hne : ns ≠ []) : ∃ pre, ns = pre ++ [l.tail_] := by
  rcases List.eq_nil_or_concat ns with h | ⟨pre, a, h⟩
  · exact absurd h hne
  · refine ⟨pre, ?_⟩
    have h' : ns = pre ++ [a] := by simpa using h
    rw [hl.tail_eq, h', lastD_append]
    rfl

/-- A non-empty chain starts with its head node. -/
theorem IsList.split_first {l : pmr_list α} {ns : List Nat} (hl : l.IsList ns)
    (hne : ns ≠ []) : ∃ post, ns = l.head_ :: post := by
  cases ns with
  | nil => exact absurd rfl hne
  | cons a rest => exact ⟨rest, by rw [hl.head_eq]; rfl⟩

theorem Inv.pop_back {l : pmr_list α} {ns : List Nat} (h : l.Inv ns) (L : NodeLayout) :
    (l.pop_back L).Inv ns.dropLast := by
  by_cases hne : ns = []
  · subst hne
    rw [h.isList.pop_back_nil]
    exact h
  · obtain ⟨pre, hpre⟩ := h.isList.split_last hne
    rw [h.isList.pop_back_eq hne]
    have h' : l.Inv (pre ++ l.tail_ :: []) := hpre ▸ h
    have := h'.erase_inv L
    rw [hpre, List.dropLast_concat]
    simpa using this

theorem Inv.pop_front {l : pmr_list α} {ns : List Nat} (h : l.Inv ns) (L : NodeLayout) :
    (l.pop_front L).Inv ns.tail := by
  by_cases hne : ns = []
  · subst hne
    rw [h.isList.pop_front_nil]
    exact h
  · obtain ⟨post, hpost⟩ := h.isList.split_first hne
    rw [h.isList.pop_front_eq hne]
    have h' : l.Inv ([] ++ l.head_ :: post) := hpost ▸ h
    have := h'.erase_inv L
    rw [hpost, List.tail_cons]
    simpa using this

theorem clearLoop_valid (L : NodeLayout) (h : Nat → Node α) {fuel cur : Nat}
    {m m' : FixedListMemoryResource} (hc : clearLoop L h fuel cur m = some m')
    (hv : m.Valid) : m'.Valid := by
  induction fuel generalizing cur m with
  | zero =>
    by_cases h0 : cur = 0
    · simp [clearLoop, h0] at hc; exact hc ▸ hv
    · simp [clearLoop, h0] at hc
  | succ f ih =>
    by_cases h0 : cur = 0
    · simp [clearLoop, h0] at hc; exact hc ▸ hv
    · simp only [clearLoop, h0, if_false] at hc
      exact ih hc (hv.do_deallocate _ _ _)

theorem Inv.clear {l l' : pmr_list α} {ns : List Nat} (h : l.Inv ns) {L : NodeLayout}
    {fuel : Nat} (hc : l.clear L fuel = some l') : l'.Inv [] := by
  unfold pmr_list.clear at hc
  cases hr : clearLoop L l.heap fuel l.head_ l.alloc_ with
  | none => rw [hr] at hc; cases hc
  | some m =>
    rw [hr] at hc
    cases hc
    exact ⟨⟨trivial, List.nodup_nil, by simp, rfl, rfl, rfl, by simp⟩,
      clearLoop_valid L l.heap hr h.valid, by intro a ha; cases ha⟩

/-- When the element's constructor throws, `emplace_back` has changed nothing but the
resource, which is left as `do_allocate` left it. -/
theorem emplace_back_throw_state (L : NodeLayout) (l : pmr_list α) (e : Exn) :
    (l.emplace_back L (.error e)).2 =
      { l with alloc_ := (l.alloc_.do_allocate L.size L.align).2 } := by
  unfold pmr_list.emplace_back
  cases h : l.alloc_.do_allocate L.size L.align with
  | mk r m' => cases r <;> rfl

/-- When the element's constructor throws, `emplace_front` has changed nothing but the
resource, which is left as `do_allocate` left it. -/
theorem emplace_front_throw_state (L : NodeLayout) (l : pmr_list α) (e : Exn) :
    (l.emplace_front L (.error e)).2 =
      { l with alloc_ := (l.alloc_.do_allocate L.size L.align).2 } := by
  unfold pmr_list.emplace_front
  cases h : l.alloc_.do_allocate L.size L.align with
  | mk r m' => cases r <;> rfl

/-- The chain invariant survives a request made of the resource on the list's behalf, also
when the block obtained is never linked. -/
theorem Inv.after_request {l : pmr_list α} {ns : List Nat} (h : l.Inv ns) (L : NodeLayout) :
    ({ l with alloc_ := (l.alloc_.do_allocate L.size L.align).2 } : pmr_list α).Inv ns := by
  refine ⟨⟨h.isList.seg, h.isList.nodup, h.isList.nonnull, h.isList.head_eq,
    h.isList.tail_eq, h.isList.sz_eq, h.isList.sz_lt⟩, h.valid.do_allocate _ _, ?_⟩
  intro a ha
  have hmem := h.owned a ha
  show a ∈ (l.alloc_.do_allocate L.size L.align).2.allocated_.map Block.ptr
  rcases FixedListMemoryResource.do_allocate_cases l.alloc_ L.size L.align with
    ⟨pre, hit, post, _, _, _, heq⟩ | ⟨_, _, heq⟩ | ⟨_, _, heq⟩
  · rw [heq, List.map_append]; exact List.mem_append_left _ hmem
  · rw [heq, List.map_append]; exact List.mem_append_left _ hmem
  · rw [heq]; exact hmem

/-- Every public mutating member keeps the invariant. -/
theorem Inv.step {l l' : pmr_list α} {ns : List Nat} {L : NodeLayout} (h : l.Inv ns)
    (hs : Step L l l') : ∃ ns', l'.Inv ns' := by
  cases hs with
  | push_back c =>
    cases c with
    | error e =>
      exact ⟨ns, by rw [pmr_list.push_back, emplace_back_throw_state]; exact h.after_request L⟩
    | ok v =>
      rcases h.emplace_back_cases L v with ⟨n, _, _, hi, _⟩ | ⟨_, he, _⟩
      · exact ⟨_, hi⟩
      · exact ⟨ns, by rw [pmr_list.push_back, he]; exact h⟩
  | push_front c =>
    cases c with
    | error e =>
      exact ⟨ns, by rw [pmr_list.push_front, emplace_front_throw_state]; exact h.after_request L⟩
    | ok v =>
      rcases h.emplace_front_cases L v with ⟨n, _, _, hi, _⟩ | ⟨_, he, _⟩
      · exact ⟨_, hi⟩
      · exact ⟨ns, by rw [pmr_list.push_front, he]; exact h⟩
  | pop_back => exact ⟨_, h.pop_back L⟩
  | pop_front => exact ⟨_, h.pop_front L⟩
  | erase it hit =>
    rcases hit with rfl | ⟨fuel, ns', hn, hmem⟩
    · exact ⟨ns, by rw [pmr_list.end_, erase_end]; exact h⟩
    · rw [h.isList.nodes_eq hn] at hmem
      obtain ⟨pre, post, rfl⟩ := List.append_of_mem hmem
      exact ⟨_, h.erase_inv L⟩
  | clear _ fuel hc => exact ⟨[], h.clear hc⟩

theorem Reachable.inv {L : NodeLayout} {l : pmr_list α} (h : Reachable L l) :
    ∃ ns, l.Inv ns := by
  induction h with
  | construct mr heap hmr => exact ⟨[], Inv.construct hmr.valid heap⟩
  | step _ hs ih =>
    obtain ⟨ns, hi⟩ := ih
    exact hi.step hs

theorem Reachable.isWellFormed {L : NodeLayout} {l : pmr_list α} (h : Reachable L l) :
    l.WellFormed := by
  obtain ⟨ns, hi⟩ := h.inv
  exact hi.isList.toWellFormed

theorem Reachable.isBacked {L : NodeLayout} {l : pmr_list α} (h : Reachable L l) :
    l.Backed := by
  obtain ⟨ns, hi⟩ := h.inv
  exact hi.toBacked

end pmr_list

/-! ## The list: insertion sequences, positions, ledger effect of a removal -/

namespace pmr_list

variable {α : Type}

theorem Inv.push {l : pmr_list α} {ns : List Nat} (h : l.Inv ns) (L : NodeLayout)
    (op : Push α) (hok : (push L l op).1 = .ok ()) :
    ∃ ns', (push L l op).2.Inv ns' ∧
      ns'.map (fun a => ((push L l op).2.heap a).value) =
        Push.denote (ns.map fun a => (l.heap a).value) op := by
  cases op with
  | back v =>
    change (l.emplace_back L (.ok v)).1 = .ok () at hok
    show ∃ ns', (l.emplace_back L (.ok v)).2.Inv ns' ∧
      ns'.map (fun a => ((l.emplace_back L (.ok v)).2.heap a).value) =
        (ns.map fun a => (l.heap a).value) ++ [v]
    rcases h.emplace_back_cases L v with ⟨n, hn, _, hinv, hval, hoth, _⟩ | ⟨herr, _, _⟩
    · refine ⟨ns ++ [n], hinv, ?_⟩
      rw [List.map_append, List.map_singleton, hval]
      congr 1
      refine List.map_congr_left (fun a ha => hoth a ?_)
      rintro rfl
      exact hn ha
    · rw [herr] at hok; cases hok
  | front v =>
    change (l.emplace_front L (.ok v)).1 = .ok () at hok
    show ∃ ns', (l.emplace_front L (.ok v)).2.Inv ns' ∧
      ns'.map (fun a => ((l.emplace_front L (.ok v)).2.heap a).value) =
        v :: (ns.map fun a => (l.heap a).value)
    rcases h.emplace_front_cases L v with ⟨n, hn, _, hinv, hval, hoth, _⟩ | ⟨herr, _, _⟩
    · refine ⟨n :: ns, hinv, ?_⟩
      rw [List.map_cons, hval]
      congr 1
      refine List.map_congr_left (fun a ha => hoth a ?_)
      rintro rfl
      exact hn ha
    · rw [herr] at hok; cases hok

theorem pushAll_cons_ok (L : NodeLayout) (l : pmr_list α) (op : Push α) (ops : List (Push α))
    (hok : (push L l op).1 = .ok ()) :
    pushAll L (op :: ops) l = pushAll L ops (push L l op).2 := by
  have : push L l op = (.ok (), (push L l op).2) := Prod.ext hok rfl
  rw [pushAll, this]

theorem pushAll_cons_error (L : NodeLayout) (l : pmr_list α) (op : Push α)
    (ops : List (Push α)) (e : Exn) (herr : (push L l op).1 = .error e) :
    (pushAll L (op :: ops) l).1 = .error e := by
  have : push L l op = (.error e, (push L l op).2) := Prod.ext herr rfl
  rw [pushAll, this]

theorem Inv.pushAll_denote {l : pmr_list α} {ns : List Nat} (h : l.Inv ns) (L : NodeLayout)
    (ops : List (Push α)) (hok : (pushAll L ops l).1 = .ok ()) :
    ∃ ns', (pushAll L ops l).2.Inv ns' ∧
      ns'.map (fun a => ((pushAll L ops l).2.heap a).value) =
        ops.foldl Push.denote (ns.map fun a => (l.heap a).value) := by
  induction ops generalizing l ns with
  | nil => exact ⟨ns, h, rfl⟩
  | cons op ops ih =>
    cases hp : (pmr_list.push L l op).1 with
    | error e =>
      rw [pushAll_cons_error L l op ops e hp] at hok
      cases hok
    | ok u =>
      cases u
      rw [pushAll_cons_ok L l op ops hp] at hok ⊢
      obtain ⟨ns1, hinv1, hval1⟩ := h.push L op hp
      obtain ⟨ns2, hinv2, hval2⟩ := ih hinv1 hok
      exact ⟨ns2, hinv2, by rw [hval2, hval1]; rfl⟩

theorem length_foldl_denote (ops : List (Push α)) (xs : List α) :
    (ops.foldl Push.denote xs).length = xs.length + ops.length := by
  induction ops generalizing xs with
  | nil => rfl
  | cons op ops ih =>
    rw [List.foldl_cons, ih]
    cases op <;> simp [Push.denote] <;> omega

/-- Splitting a list at a position it has. -/
theorem split_at_index {β : Type} {ns : List β} {i : Nat} {a : β} (h : ns[i]? = some a) :
    ∃ pre post, ns = pre ++ a :: post ∧ pre.length = i ∧ ns[i + 1]? = post.head? := by
  induction ns generalizing i with
  | nil => simp at h
  | cons b rest ih =>
    cases i with
    | zero =>
      simp only [List.getElem?_cons_zero, Option.some.injEq] at h
      subst h
      refine ⟨[], rest, rfl, rfl, ?_⟩
      cases rest <;> simp
    | succ j =>
      rw [List.getElem?_cons_succ] at h
      obtain ⟨pre, post, h1, h2, h3⟩ := ih h
      refine ⟨b :: pre, post, by rw [h1]; rfl, by simp [h2], ?_⟩
      rw [List.getElem?_cons_succ]
      exact h3

theorem eraseIdx_split {β : Type} (pre post : List β) (a : β) :
    (pre ++ a :: post).eraseIdx pre.length = pre ++ post := by
  induction pre with
  | nil => rfl
  | cons b rest ih => simp [List.eraseIdx_cons_succ, ih]

theorem head?_getD_eq_firstD (post : List Nat) (d : Nat) : post.head?.getD d = firstD post d := by
  cases post <;> rfl

/-- Releasing a node of the list moves exactly its block from the allocated ledger to the
end of the freed ledger. -/
theorem Inv.deallocate_node {l : pmr_list α} {ns : List Nat} (h : l.Inv ns) {a : Nat}
    (ha : a ∈ ns) (bytes alignment : Nat) :
    ∃ pre hit post, l.alloc_.allocated_ = pre ++ hit :: post ∧ hit.ptr = a ∧
      (∀ b ∈ pre ++ post, b.ptr ≠ a) ∧
      l.alloc_.do_deallocate a bytes alignment =
        { l.alloc_ with allocated_ := pre ++ post, freed_ := l.alloc_.freed_ ++ [hit] } := by
  have ha0 : a ≠ 0 := fun e => h.isList.nonnull (e ▸ ha)
  rcases FixedListMemoryResource.do_deallocate_cases l.alloc_ a bytes alignment with
    ⟨hno | hno, _⟩ | ⟨pre, hit, post, _, hsplit, hpre, hhit, heq⟩
  · exact absurd hno ha0
  · exact absurd (h.owned a ha) hno
  · refine ⟨pre, hit, post, hsplit, hhit, ?_, by rw [heq]⟩
    intro b hb
    rcases List.mem_append.mp hb with hb | hb
    · exact hpre b hb
    · intro hba
      have hnd := h.valid.nodup
      rw [hsplit, List.map_append, List.nodup_append] at hnd
      have hnd1 := hnd.1
      rw [List.map_append, List.nodup_append, List.map_cons, List.nodup_cons] at hnd1
      exact hnd1.2.1.1 (List.mem_map.mpr ⟨b, hb, hba.trans hhit.symm⟩)

end pmr_list

/-! ## Claims about the list -/

namespace pmr_list

variable {α : Type}

theorem Reachable.after_pushAll {L : NodeLayout} {l : pmr_list α} (h : Reachable L l)
    (ops : List (Push α)) : Reachable L (pmr_list.pushAll L ops l).2 := by
  induction ops generalizing l with
  | nil => exact h
  | cons op ops ih =>
    have hstep : Reachable L (pmr_list.push L l op).2 := by
      cases op with
      | back v => exact Reachable.step h (Step.push_back l (.ok v))
      | front v => exact Reachable.step h (Step.push_front l (.ok v))
    cases hp : (pmr_list.push L l op).1 with
    | error e =>
      have : pmr_list.push L l op = (.error e, (pmr_list.push L l op).2) := Prod.ext hp rfl
      rw [pmr_list.pushAll, this]
      exact hstep
    | ok u =>
      cases u
      rw [pushAll_cons_ok L l op ops hp]
      exact ih hstep

theorem arena_reachable : arena.Reachable :=
  FixedListMemoryResource.Reachable.construct 4096 1024 (by decide) (by decide)

theorem abc_reachable : Reachable intLayout abc := by
  unfold abc
  exact Reachable.after_pushAll (Reachable.construct arena blank arena_reachable) _

/-- What `erase` at a node of the chain leaves for a traversal to see. -/
theorem IsList.erase_traverse {l : pmr_list α} {pre post : List Nat} {a : Nat}
    (hl : l.IsList (pre ++ a :: post)) (L : NodeLayout) {fuel : Nat}
    (hf : (pre ++ post).length ≤ fuel) :
    (l.erase L a).2.nodes fuel = some (pre ++ post) ∧
    (l.erase L a).2.traverse fuel = some ((pre ++ post).map fun x => (l.heap x).value) := by
  obtain ⟨h1, _, h3, _, _⟩ := hl.unlink L
  refine ⟨h1.nodes hf, ?_⟩
  rw [h1.traverse hf]
  congr 1
  exact List.map_congr_left (fun x _ => h3 x)

/-- C1: starting from an empty list over a reachable resource, if none of the insertions
of a sequence of `push_back`/`push_front` calls throws, a forward traversal yields the
sequence obtained by folding the calls over the empty sequence (`push_back v` appends `v`,
`push_front v` prepends it). -/
theorem push_order_preserved (L : NodeLayout) (mr : FixedListMemoryResource)
    (heap : Nat → Node α) (ops : List (Push α)) (fuel : Nat) (hmr : mr.Reachable)
    (hok : (pushAll L ops (construct mr heap)).1 = .ok ()) (hfuel : ops.length ≤ fuel) :
    (pushAll L ops (construct mr heap)).2.traverse fuel = some (ops.foldl Push.denote []) := by
  obtain ⟨ns, hinv, hval⟩ := (Inv.construct hmr.valid heap).pushAll_denote L ops hok
  have hlen : ns.length = ops.length := by
    have := congrArg List.length hval
    rw [List.length_map, length_foldl_denote] at this
    simpa using this
  rw [hinv.isList.traverse (by omega), hval]
  rfl

/-- The test `Ordering.MixedFrontBackOperations`: `push_back 10`, `push_front 5`,
`push_back 20`, `push_front 2` yields `[2, 5, 10, 20]`. -/
theorem push_order_preserved_witness :
    (pushAll intLayout [.back 10, .front 5, .back 20, .front 2]
      (construct arena blank)).1 = .ok () ∧
    (pushAll intLayout [.back 10, .front 5, .back 20, .front 2]
      (construct arena blank)).2.traverse 4 = some [2, 5, 10, 20] :=
  ⟨by decide,
    push_order_preserved intLayout arena blank [.back 10, .front 5, .back 20, .front 2] 4
      arena_reachable (by decide) (by decide)⟩

/-- C2: on a well-formed non-empty list whose traversal is `xs`, `pop_back` leaves a list
whose traversal is `xs` without its last element, decrements `size()` by one, and hands the
tail node (the last node visited) to `do_deallocate`; when the nodes are live blocks of the
resource, exactly the tail node's block moves from the allocated to the freed ledger. -/
theorem pop_back_spec (L : NodeLayout) (l : pmr_list α) (fuel : Nat) (xs : List α)
    (hw : l.WellFormed) (hx : l.traverse fuel = some xs) (hne : xs ≠ []) :
    (∀ fuel', xs.length ≤ fuel' + 1 → (l.pop_back L).traverse fuel' = some xs.dropLast) ∧
    (l.pop_back L).size + 1 = l.size ∧
    (∃ ns, l.nodes fuel = some ns ∧ ns.getLast? = some l.tail_) ∧
    (l.pop_back L).alloc_ = l.alloc_.do_deallocate l.tail_ L.size L.align ∧
    (l.Backed →
      ∃ pre hit post, l.alloc_.allocated_ = pre ++ hit :: post ∧ hit.ptr = l.tail_ ∧
        (∀ b ∈ pre ++ post, b.ptr ≠ l.tail_) ∧
        (l.pop_back L).alloc_ =
          { l.alloc_ with allocated_ := pre ++ post, freed_ := l.alloc_.freed_ ++ [hit] }) := by
  obtain ⟨ns, hl⟩ := hw.isList
  obtain ⟨ns', hn, rfl⟩ := traverse_eq_some hx
  obtain rfl := hl.nodes_eq hn
  have hns : ns' ≠ [] := by rintro rfl; exact hne rfl
  obtain ⟨pre, hpre⟩ := hl.split_last hns
  have hl' : l.IsList (pre ++ l.tail_ :: []) := hpre ▸ hl
  obtain ⟨_, _, _, h4, h5⟩ := hl'.unlink L
  rw [hl.pop_back_eq hns]
  refine ⟨?_, h5, ⟨ns', hn, by rw [hpre]; simp⟩, h4, ?_⟩
  · intro fuel' hf
    have hlen : (pre ++ ([] : List Nat)).length ≤ fuel' := by
      rw [hpre] at hf
      simp at hf ⊢
      omega
    rw [(hl'.erase_traverse L hlen).2, hpre]
    simp [List.dropLast_concat]
  · intro hb
    obtain ⟨hv, ho⟩ := hl.backed_iff.mp hb
    have hinv : l.Inv ns' := ⟨hl, hv, ho⟩
    obtain ⟨p, hit, q, e1, e2, e3, e4⟩ :=
      hinv.deallocate_node (by rw [hpre]; simp : l.tail_ ∈ ns') L.size L.align
    exact ⟨p, hit, q, e1, e2, e3, by rw [h4, e4]⟩

/-- C3: on a well-formed list whose traversal is `x :: xs`, `pop_front` leaves a list whose
traversal is `xs`, decrements `size()` by one, nulls both `head_` and `tail_` when `xs` is
empty, and hands the head node (the first node visited) to `do_deallocate`; when the nodes
are live blocks of the resource, exactly the head node's block moves from the allocated to
the freed ledger. -/
theorem pop_front_spec (L : NodeLayout) (l : pmr_list α) (fuel : Nat) (x : α) (xs : List α)
    (hw : l.WellFormed) (hx : l.traverse fuel = some (x :: xs)) :
    (∀ fuel', xs.length ≤ fuel' → (l.pop_front L).traverse fuel' = some xs) ∧
    (l.pop_front L).size + 1 = l.size ∧
    (xs = [] → (l.pop_front L).head_ = 0 ∧ (l.pop_front L).tail_ = 0) ∧
    (∃ ns, l.nodes fuel = some ns ∧ ns.head? = some l.head_) ∧
    (l.pop_front L).alloc_ = l.alloc_.do_deallocate l.head_ L.size L.align ∧
    (l.Backed →
      ∃ pre hit post, l.alloc_.allocated_ = pre ++ hit :: post ∧ hit.ptr = l.head_ ∧
        (∀ b ∈ pre ++ post, b.ptr ≠ l.head_) ∧
        (l.pop_front L).alloc_ =
          { l.alloc_ with allocated_ := pre ++ post, freed_ := l.alloc_.freed_ ++ [hit] }) := by
  obtain ⟨ns, hl⟩ := hw.isList
  obtain ⟨ns', hn, hmap⟩ := traverse_eq_some hx
  obtain rfl := hl.nodes_eq hn
  have hns : ns' ≠ [] := by rintro rfl; cases hmap
  obtain ⟨post, hpost⟩ := hl.split_first hns
  have hl' : l.IsList ([] ++ l.head_ :: post) := hpost ▸ hl
  obtain ⟨h1, _, _, h4, h5⟩ := hl'.unlink L
  have hxs : xs = post.map fun a => (l.heap a).value := by
    rw [hpost, List.map_cons] at hmap
    exact (List.cons.inj hmap).2
  rw [hl.pop_front_eq hns]
  refine ⟨?_, h5, ?_, ⟨ns', hn, by rw [hpost]; rfl⟩, h4, ?_⟩
  · intro fuel' hf
    have hlen : (([] : List Nat) ++ post).length ≤ fuel' := by
      rw [hxs] at hf
      simpa using hf
    rw [(hl'.erase_traverse L hlen).2, hxs]
    rfl
  · intro hnil
    have hp : post = [] := by
      rw [hnil] at hxs
      exact List.map_eq_nil_iff.mp hxs.symm
    subst hp
    exact ⟨h1.head_eq, h1.tail_eq⟩
  · intro hb
    obtain ⟨hv, ho⟩ := hl.backed_iff.mp hb
    have hinv : l.Inv ns' := ⟨hl, hv, ho⟩
    obtain ⟨p, hit, q, e1, e2, e3, e4⟩ :=
      hinv.deallocate_node (by rw [hpost]; simp : l.head_ ∈ ns') L.size L.align
    exact ⟨p, hit, q, e1, e2, e3, by rw [h4, e4]⟩

/-- C4: on a well-formed list whose traversal visits the nodes `ns` and yields `xs`,
`erase` with an iterator to the node at index `i` leaves a list whose traversal is `xs`
with the `i`-th element removed (the nodes `ns` with the `i`-th removed), decrements
`size()` by one and returns an iterator to the node that was at index `i + 1`, the end
iterator when there is none. -/
theorem erase_spec (L : NodeLayout) (l : pmr_list α) (fuel : Nat) (ns : List Nat)
    (xs : List α) (i it : Nat) (hw : l.WellFormed) (hn : l.nodes fuel = some ns)
    (hx : l.traverse fuel = some xs) (hi : ns[i]? = some it) :
    (∀ fuel', xs.length ≤ fuel' + 1 →
      (l.erase L it).2.traverse fuel' = some (xs.eraseIdx i) ∧
      (l.erase L it).2.nodes fuel' = some (ns.eraseIdx i)) ∧
    (l.erase L it).2.size + 1 = l.size ∧
    (l.erase L it).1 = (ns[i + 1]?).getD l.end_ := by
  obtain ⟨ns0, hl⟩ := hw.isList
  obtain rfl := hl.nodes_eq hn
  obtain ⟨ns', hn', rfl⟩ := traverse_eq_some hx
  obtain rfl : ns' = ns := Option.some.inj (hn'.symm.trans hn)
  obtain ⟨pre, post, hsplit, hlen, hnext⟩ := split_at_index hi
  subst hsplit
  obtain ⟨_, h2, _, _, h5⟩ := hl.unlink L
  refine ⟨?_, h5, ?_⟩
  · intro fuel' hf
    have hle : (pre ++ post).length ≤ fuel' := by
      simp at hf ⊢
      omega
    obtain ⟨e1, e2⟩ := hl.erase_traverse L hle
    constructor
    · have := eraseIdx_split (pre.map fun x => (l.heap x).value)
        (post.map fun x => (l.heap x).value) (l.heap it).value
      rw [List.length_map] at this
      rw [e2, ← hlen]
      simp only [List.map_append, List.map_cons]
      rw [this]
    · rw [e1, ← hlen, eraseIdx_split]
  · rw [h2, hnext, pmr_list.end_, head?_getD_eq_firstD]

theorem eight_reachable : Reachable intLayout eight := by
  unfold eight ten
  exact Reachable.step (Reachable.step
    (Reachable.after_pushAll (Reachable.construct arena blank arena_reachable) _)
    (Step.pop_back _)) (Step.pop_back _)

theorem single_reachable : Reachable intLayout single := by
  unfold single
  exact Reachable.step (Reachable.construct arena blank arena_reachable) (Step.push_front _ (.ok 7))

/-- The spec's scenario: after `push_back` of 1..10 and two `pop_back` calls the list is
`[1, ..., 8]`; the third `pop_back` leaves `[1, ..., 7]` and releases the block at the
tail's address. -/
theorem pop_back_spec_witness :
    eight.WellFormed ∧ eight.Backed ∧
    eight.traverse 8 = some [1, 2, 3, 4, 5, 6, 7, 8] ∧
    (eight.pop_back intLayout).traverse 7 = some [1, 2, 3, 4, 5, 6, 7] ∧
    (eight.pop_back intLayout).size + 1 = eight.size ∧
    (∃ pre hit post, eight.alloc_.allocated_ = pre ++ hit :: post ∧ hit.ptr = eight.tail_ ∧
        (∀ b ∈ pre ++ post, b.ptr ≠ eight.tail_) ∧
        (eight.pop_back intLayout).alloc_ =
          { eight.alloc_ with allocated_ := pre ++ post,
                              freed_ := eight.alloc_.freed_ ++ [hit] }) :=
  ⟨eight_reachable.isWellFormed, eight_reachable.isBacked, by decide,
    (pop_back_spec intLayout eight 8 [1, 2, 3, 4, 5, 6, 7, 8] eight_reachable.isWellFormed
      (by decide) (by decide)).1 7 (by decide),
    (pop_back_spec intLayout eight 8 [1, 2, 3, 4, 5, 6, 7, 8] eight_reachable.isWellFormed
      (by decide) (by decide)).2.1,
    (pop_back_spec intLayout eight 8 [1, 2, 3, 4, 5, 6, 7, 8] eight_reachable.isWellFormed
      (by decide) (by decide)).2.2.2.2 eight_reachable.isBacked⟩

/-- From `[1, 2, 3]` a `pop_front` leaves `[2, 3]`; from `[7]` it leaves the empty list with
`head_` and `tail_` null. -/
theorem pop_front_spec_witness :
    abc.WellFormed ∧ abc.traverse 3 = some [1, 2, 3] ∧
    (abc.pop_front intLayout).traverse 2 = some [2, 3] ∧
    (abc.pop_front intLayout).size + 1 = abc.size ∧
    single.WellFormed ∧ single.Backed ∧ single.traverse 1 = some [7] ∧
    (single.pop_front intLayout).traverse 0 = some [] ∧
    ((single.pop_front intLayout).head_ = 0 ∧ (single.pop_front intLayout).tail_ = 0) ∧
    (∃ pre hit post, single.alloc_.allocated_ = pre ++ hit :: post ∧
        hit.ptr = single.head_ ∧ (∀ b ∈ pre ++ post, b.ptr ≠ single.head_) ∧
        (single.pop_front intLayout).alloc_ =
          { single.alloc_ with allocated_ := pre ++ post,
                               freed_ := single.alloc_.freed_ ++ [hit] }) :=
  ⟨abc_reachable.isWellFormed, by decide,
    (pop_front_spec intLayout abc 3 1 [2, 3] abc_reachable.isWellFormed (by decide)).1 2
      (by decide),
    (pop_front_spec intLayout abc 3 1 [2, 3] abc_reachable.isWellFormed (by decide)).2.1,
    single_reachable.isWellFormed, single_reachable.isBacked, by decide,
    (pop_front_spec intLayout single 1 7 [] single_reachable.isWellFormed (by decide)).1 0
      (by decide),
    (pop_front_spec intLayout single 1 7 [] single_reachable.isWellFormed (by decide)).2.2.1 rfl,
    (pop_front_spec intLayout single 1 7 [] single_reachable.isWellFormed
      (by decide)).2.2.2.2.2 single_reachable.isBacked⟩

/-- The spec's scenario: erasing the second of `[1, 2, 3]` (the node at address 4120) leaves
`[1, 3]` and returns an iterator to the node of `3` (address 4144). -/
theorem erase_spec_witness :
    abc.WellFormed ∧ abc.nodes 3 = some [4096, 4120, 4144] ∧
    abc.traverse 3 = some [1, 2, 3] ∧ [4096, 4120, 4144][1]? = some 4120 ∧
    (abc.erase intLayout 4120).2.traverse 2 = some [1, 3] ∧
    (abc.erase intLayout 4120).2.nodes 2 = some [4096, 4144] ∧
    (abc.erase intLayout 4120).2.size + 1 = abc.size ∧
    (abc.erase intLayout 4120).1 = 4144 :=
  ⟨abc_reachable.isWellFormed, by decide, by decide, by decide,
    ((erase_spec intLayout abc 3 [4096, 4120, 4144] [1, 2, 3] 1 4120 abc_reachable.isWellFormed
      (by decide) (by decide) (by decide)).1 2 (by decide)).1,
    ((erase_spec intLayout abc 3 [4096, 4120, 4144] [1, 2, 3] 1 4120 abc_reachable.isWellFormed
      (by decide) (by decide) (by decide)).1 2 (by decide)).2,
    (erase_spec intLayout abc 3 [4096, 4120, 4144] [1, 2, 3] 1 4120 abc_reachable.isWellFormed
      (by decide) (by decide) (by decide)).2.1,
    (erase_spec intLayout abc 3 [4096, 4120, 4144] [1, 2, 3] 1 4120 abc_reachable.isWellFormed
      (by decide) (by decide) (by decide)).2.2⟩

/-- C5: in every list state reachable from the empty list by `push_back`, `push_front`,
`pop_back`, `pop_front`, `erase` (valid or end iterator) and `clear`, a full forward
traversal terminates, `size()` is the number of elements it visits, and `empty()` holds iff
that number is zero. -/
theorem size_counts_traversal (L : NodeLayout) (l : pmr_list α) (h : Reachable L l) :
    (∃ xs, l.traverse l.size = some xs) ∧
    (∀ fuel xs, l.traverse fuel = some xs →
      l.size = xs.length ∧ (l.empty = true ↔ xs.length = 0)) := by
  obtain ⟨ns, hinv⟩ := h.inv
  have hl := hinv.isList
  refine ⟨⟨_, hl.traverse (Nat.le_of_eq hl.sz_eq.symm)⟩, ?_⟩
  intro fuel xs hx
  obtain ⟨ns', hn, rfl⟩ := traverse_eq_some hx
  obtain rfl := hl.nodes_eq hn
  have hsz : l.size = ns'.length := hl.sz_eq
  refine ⟨by rw [List.length_map]; exact hsz, ?_⟩
  rw [List.length_map, ← hsz]
  simp [pmr_list.empty, pmr_list.size]

/-- After `push_back` of 1..10 and two `pop_back` calls `size()` is 8 and the traversal
visits 8 elements. -/
theorem size_counts_traversal_witness :
    Reachable intLayout eight ∧ eight.traverse 8 = some [1, 2, 3, 4, 5, 6, 7, 8] ∧
    eight.size = 8 ∧ (eight.empty = true ↔ (8 : Nat) = 0) :=
  ⟨eight_reachable, by decide,
    ((size_counts_traversal intLayout eight eight_reachable).2 8 [1, 2, 3, 4, 5, 6, 7, 8]
      (by decide)).1,
    ((size_counts_traversal intLayout eight eight_reachable).2 8 [1, 2, 3, 4, 5, 6, 7, 8]
      (by decide)).2⟩

/-- C6: the data-model invariant (`head_` null iff `tail_` null iff `sz_` zero; `next` from
`head_` visits `sz_` nodes ending at `tail_`; `prev` from `tail_` visits them in reverse
ending at `head_`; neighbouring links agree) holds of the freshly constructed list and,
for a list whose nodes are live blocks of its resource, is kept by `push_back`,
`push_front`, `pop_back`, `pop_front`, `erase` (valid or end iterator) and `clear`; hence
it holds in every reachable state. -/
theorem wellFormed_preserved (L : NodeLayout) :
    (∀ (mr : FixedListMemoryResource) (heap : Nat → Node α),
      (construct mr heap).WellFormed) ∧
    (∀ l l' : pmr_list α, l.WellFormed → l.Backed → Step L l l' →
      l'.WellFormed ∧ l'.Backed) ∧
    (∀ l : pmr_list α, Reachable L l → l.WellFormed) := by
  refine ⟨fun mr heap => ?_, fun l l' hw hb hs => ?_, fun l h => h.isWellFormed⟩
  · have : (construct mr heap).IsList [] :=
      ⟨trivial, List.nodup_nil, by simp, rfl, rfl, rfl, by simp⟩
    exact this.toWellFormed
  · obtain ⟨ns, hinv⟩ := Inv.of_wellFormed hw hb
    obtain ⟨ns', hinv'⟩ := hinv.step hs
    exact ⟨hinv'.isList.toWellFormed, hinv'.toBacked⟩

/-- The list `[1, 2, 3]` is well formed, and so is what `erase` of its middle node
leaves. -/
theorem wellFormed_preserved_witness :
    abc.WellFormed ∧ abc.Backed ∧
    Step intLayout abc (abc.erase intLayout 4120).2 ∧
    (abc.erase intLayout 4120).2.WellFormed ∧ (abc.erase intLayout 4120).2.Backed :=
  ⟨abc_reachable.isWellFormed, abc_reachable.isBacked,
    Step.erase abc 4120 (Or.inr ⟨3, [4096, 4120, 4144], by decide, by decide⟩),
    (wellFormed_preserved intLayout).2.1 abc _ abc_reachable.isWellFormed abc_reachable.isBacked
      (Step.erase abc 4120 (Or.inr ⟨3, [4096, 4120, 4144], by decide, by decide⟩))⟩

end pmr_list

/-! ## The memory resource: blocks never overlap, the cursor never moves back -/

theorem Apart.symm {b c : Block} (h : Apart b c) : Apart c b := Or.symm h

namespace FixedListMemoryResource

theorem pairwise_apart_do_allocate {m : FixedListMemoryResource} (hv : m.Valid)
    (hp : (m.allocated_ ++ m.freed_).Pairwise Apart) (bytes alignment : Nat) :
    ((m.do_allocate bytes alignment).2.allocated_ ++
      (m.do_allocate bytes alignment).2.freed_).Pairwise Apart := by
  rcases do_allocate_cases m bytes alignment with
    ⟨pre, hit, post, hsplit, _, hhit, heq⟩ | ⟨_, hfit, heq⟩ | ⟨_, _, heq⟩
  · rw [heq]
    have hle := ((fits_iff _ _ _).mp hhit).2
    rw [hsplit] at hp
    have p1 : (m.allocated_ ++ (pre ++ hit :: post)).Perm
        (hit :: (m.allocated_ ++ (pre ++ post))) := by
      rw [← List.append_assoc, ← List.append_assoc]
      exact List.perm_middle
    have p2 : ((m.allocated_ ++ [Block.mk hit.ptr (coerce bytes)]) ++ (pre ++ post)).Perm
        (Block.mk hit.ptr (coerce bytes) :: (m.allocated_ ++ (pre ++ post))) := by
      rw [List.append_assoc, List.singleton_append]
      exact List.perm_middle
    have h1 := (List.Perm.pairwise_iff Apart.symm p1).mp hp
    refine (List.Perm.pairwise_iff Apart.symm p2).mpr ?_
    rw [List.pairwise_cons] at h1 ⊢
    refine ⟨fun c hc => ?_, h1.2⟩
    rcases h1.1 c hc with h | h
    · left; show hit.ptr + coerce bytes ≤ c.ptr; omega
    · right; exact h
  · rw [heq]
    have p2 : ((m.allocated_ ++
        [Block.mk (m.cursor_ + padding alignment m.cursor_) (coerce bytes)]) ++
        m.freed_).Perm (Block.mk (m.cursor_ + padding alignment m.cursor_) (coerce bytes) ::
          (m.allocated_ ++ m.freed_)) := by
      rw [List.append_assoc, List.singleton_append]
      exact List.perm_middle
    refine (List.Perm.pairwise_iff Apart.symm p2).mpr ?_
    rw [List.pairwise_cons]
    refine ⟨fun c hc => ?_, hp⟩
    have := hv.blocks c hc
    right
    show c.ptr + c.size ≤ m.cursor_ + padding alignment m.cursor_
    omega
  · rw [heq]; exact hp

theorem pairwise_apart_do_deallocate {m : FixedListMemoryResource}
    (hp : (m.allocated_ ++ m.freed_).Pairwise Apart) (p bytes alignment : Nat) :
    ((m.do_deallocate p bytes alignment).allocated_ ++
      (m.do_deallocate p bytes alignment).freed_).Pairwise Apart := by
  rcases do_deallocate_cases m p bytes alignment with ⟨_, heq⟩ |
    ⟨pre, hit, post, _, hsplit, _, _, heq⟩
  · rw [heq]; exact hp
  · rw [heq]
    rw [hsplit] at hp
    refine (List.Perm.pairwise_iff Apart.symm ?_).mp hp
    show ((pre ++ hit :: post) ++ m.freed_).Perm ((pre ++ post) ++ (m.freed_ ++ [hit]))
    rw [List.append_assoc, List.append_assoc, ← List.append_assoc post]
    refine List.Perm.append_left pre ?_
    rw [List.cons_append]
    exact (List.perm_append_singleton hit (post ++ m.freed_)).symm

theorem do_allocate_frame (m : FixedListMemoryResource) (bytes alignment : Nat) :
    (m.do_allocate bytes alignment).2.buffer_ = m.buffer_ ∧
    (m.do_allocate bytes alignment).2.capacity_ = m.capacity_ ∧
    (m.do_allocate bytes alignment).2.limit_ = m.limit_ ∧
    m.cursor_ ≤ (m.do_allocate bytes alignment).2.cursor_ := by
  rcases do_allocate_cases m bytes alignment with
    ⟨pre, hit, post, _, _, _, heq⟩ | ⟨_, _, heq⟩ | ⟨_, _, heq⟩
  · rw [heq]; exact ⟨rfl, rfl, rfl, Nat.le_refl _⟩
  · rw [heq]; exact ⟨rfl, rfl, rfl, by simp only; omega⟩
  · rw [heq]; exact ⟨rfl, rfl, rfl, Nat.le_refl _⟩

theorem do_deallocate_frame (m : FixedListMemoryResource) (p bytes alignment : Nat) :
    (m.do_deallocate p bytes alignment).buffer_ = m.buffer_ ∧
    (m.do_deallocate p bytes alignment).capacity_ = m.capacity_ ∧
    (m.do_deallocate p bytes alignment).limit_ = m.limit_ ∧
    (m.do_deallocate p bytes alignment).cursor_ = m.cursor_ := by
  rcases do_deallocate_cases m p bytes alignment with ⟨_, heq⟩ |
    ⟨pre, hit, post, _, _, _, _, heq⟩
  · rw [heq]; exact ⟨rfl, rfl, rfl, rfl⟩
  · rw [heq]; exact ⟨rfl, rfl, rfl, rfl⟩

/-- Along any sequence of calls the buffer stays where it is and the cursor only grows. -/
theorem Trace.frame_mono {m m' : FixedListMemoryResource} {H : List Nat} (ht : Trace m H m') :
    m'.buffer_ = m.buffer_ ∧ m'.capacity_ = m.capacity_ ∧ m'.limit_ = m.limit_ ∧
      m.cursor_ ≤ m'.cursor_ := by
  induction ht with
  | refl => exact ⟨rfl, rfl, rfl, Nat.le_refl _⟩
  | allocate_ok bytes alignment p _ _ hal ih =>
    rename_i m1 m2 H1 ha1 ht1
    have := do_allocate_frame m1 bytes alignment
    rw [hal] at this
    exact ⟨this.1.trans ih.1, this.2.1.trans ih.2.1, this.2.2.1.trans ih.2.2.1,
      Nat.le_trans ih.2.2.2 this.2.2.2⟩
  | allocate_error bytes alignment e _ _ hal ih =>
    rename_i m1 m2 H1 ha1 ht1
    have := do_allocate_frame m1 bytes alignment
    rw [hal] at this
    exact ⟨this.1.trans ih.1, this.2.1.trans ih.2.1, this.2.2.1.trans ih.2.2.1,
      Nat.le_trans ih.2.2.2 this.2.2.2⟩
  | deallocate p bytes alignment _ ih =>
    rename_i m1 H1 ht1
    have := do_deallocate_frame m1 p bytes alignment
    exact ⟨this.1.trans ih.1, this.2.1.trans ih.2.1, this.2.2.1.trans ih.2.2.1,
      Nat.le_trans ih.2.2.2 (Nat.le_of_eq this.2.2.2.symm)⟩

/-- Along any sequence of calls the representation invariant and the separation of the
recorded blocks are kept. -/
theorem Trace.keeps {m m' : FixedListMemoryResource} {H : List Nat} (ht : Trace m H m')
    (hv : m.Valid) (hp : (m.allocated_ ++ m.freed_).Pairwise Apart) :
    m'.Valid ∧ (m'.allocated_ ++ m'.freed_).Pairwise Apart := by
  induction ht with
  | refl => exact ⟨hv, hp⟩
  | allocate_ok bytes alignment p _ _ hal ih =>
    have h1 := ih.1.do_allocate bytes alignment
    have h2 := pairwise_apart_do_allocate ih.1 ih.2 bytes alignment
    rw [hal] at h1 h2
    exact ⟨h1, h2⟩
  | allocate_error bytes alignment e _ _ hal ih =>
    have h1 := ih.1.do_allocate bytes alignment
    have h2 := pairwise_apart_do_allocate ih.1 ih.2 bytes alignment
    rw [hal] at h1 h2
    exact ⟨h1, h2⟩
  | deallocate p bytes alignment _ ih =>
    exact ⟨ih.1.do_deallocate p bytes alignment,
      pairwise_apart_do_deallocate ih.2 p bytes alignment⟩

theorem Trace.reachable {base total_bytes : Nat} (hbase : 0 < base)
    (hfit : base + total_bytes < 2 ^ 64) {m : FixedListMemoryResource} {H : List Nat}
    (ht : Trace (construct base total_bytes) H m) : m.Reachable := by
  generalize hm0 : construct base total_bytes = m0 at ht
  induction ht with
  | refl => subst hm0; exact Reachable.construct base total_bytes hbase hfit
  | allocate_ok bytes alignment p ha _ hal ih =>
    have := Reachable.allocate bytes alignment ha ih
    rw [hal] at this
    exact this
  | allocate_error bytes alignment e ha _ hal ih =>
    have := Reachable.allocate bytes alignment ha ih
    rw [hal] at this
    exact this
  | deallocate p bytes alignment _ ih =>
    exact Reachable.deallocate p bytes alignment ih

/-- C11: in every state `m` reached from a freshly constructed resource of capacity `C` by
`do_allocate` (power-of-two alignments) and `do_deallocate` calls, (1) every allocated block
lies inside the buffer, (2) no two allocated blocks overlap, (3) no address is recorded
twice in a ledger or in both ledgers, and (4) the cursor lies inside the buffer and is not
larger than in any state `m'` reached later. -/
theorem allocator_invariant (base C : Nat) (m m' : FixedListMemoryResource)
    (H H' : List Nat) (hbase : 0 < base) (hfit : base + C < 2 ^ 64)
    (ht : Trace (construct base C) H m) (ht' : Trace m H' m') :
    (∀ b ∈ m.allocated_, base ≤ b.ptr ∧ b.ptr + b.size ≤ base + C) ∧
    m.allocated_.Pairwise Apart ∧
    ((m.allocated_.map Block.ptr).Nodup ∧ (m.freed_.map Block.ptr).Nodup ∧
      ∀ p ∈ m.allocated_.map Block.ptr, p ∉ m.freed_.map Block.ptr) ∧
    (base ≤ m.cursor_ ∧ m.cursor_ ≤ base + C ∧ m.cursor_ ≤ m'.cursor_) := by
  have hv0 := Valid.of_construct hbase hfit
  obtain ⟨hv, hp⟩ := ht.keeps hv0 (by simp [construct])
  obtain ⟨hb, hc, hl, _⟩ := ht.frame_mono
  have hb' : m.buffer_ = base := hb
  have hl' : m.limit_ = base + C := hl
  have h1 := hv.buffer_le
  have h2 := hv.cursor_le
  refine ⟨fun b hb => ?_, (List.pairwise_append.mp hp).1, ?_, ?_⟩
  · have := hv.blocks b (List.mem_append_left _ hb)
    omega
  · have hnd := hv.nodup
    rw [List.map_append, List.nodup_append] at hnd
    exact ⟨hnd.1, hnd.2.1, fun p hp hp' => hnd.2.2 hp hp'⟩
  · exact ⟨by omega, by omega, ht'.frame_mono.2.2.2⟩

/-- Two requests on the fresh arena: the state after the first, and the state after the
second as a later state. -/
theorem allocator_invariant_witness :
    Trace (construct 4096 1024) [4096] oneBlock ∧ Trace oneBlock [4120] twoBlocks ∧
    (∀ b ∈ oneBlock.allocated_, 4096 ≤ b.ptr ∧ b.ptr + b.size ≤ 4096 + 1024) ∧
    oneBlock.allocated_.Pairwise Apart ∧
    ((oneBlock.allocated_.map Block.ptr).Nodup ∧ (oneBlock.freed_.map Block.ptr).Nodup ∧
      ∀ p ∈ oneBlock.allocated_.map Block.ptr, p ∉ oneBlock.freed_.map Block.ptr) ∧
    (4096 ≤ oneBlock.cursor_ ∧ oneBlock.cursor_ ≤ 4096 + 1024 ∧
      oneBlock.cursor_ ≤ twoBlocks.cursor_) :=
  ⟨Trace.allocate_ok 24 8 4096 ⟨3, rfl⟩ (Trace.refl _) (by decide),
    Trace.allocate_ok 24 8 4120 ⟨3, rfl⟩ (Trace.refl _) (by decide),
    allocator_invariant 4096 1024 oneBlock twoBlocks [4096] [4120] (by decide) (by decide)
      (Trace.allocate_ok 24 8 4096 ⟨3, rfl⟩ (Trace.refl _) (by decide))
      (Trace.allocate_ok 24 8 4120 ⟨3, rfl⟩ (Trace.refl _) (by decide))⟩

end FixedListMemoryResource

/-! ## The memory resource: released blocks are handed out again -/

namespace FixedListMemoryResource

/-- In a valid resource, `do_deallocate` at the address of a recorded entry moves exactly
that entry to the end of the freed ledger. -/
theorem Valid.do_deallocate_entry {m : FixedListMemoryResource} (hv : m.Valid) {p s : Nat}
    (hmem : (⟨p, s⟩ : Block) ∈ m.allocated_) (bytes alignment : Nat) :
    ∃ pre post, m.allocated_ = pre ++ ⟨p, s⟩ :: post ∧
      (∀ b ∈ pre ++ post, b.ptr ≠ p) ∧
      m.do_deallocate p bytes alignment =
        { m with allocated_ := pre ++ post, freed_ := m.freed_ ++ [⟨p, s⟩] } := by
  have hb := hv.blocks ⟨p, s⟩ (List.mem_append_left _ hmem)
  have hpos := hv.buffer_pos
  have hp0 : p ≠ 0 := by
    have : m.buffer_ ≤ p := hb.2.1
    omega
  have hnd := hv.nodup
  rw [List.map_append, List.nodup_append] at hnd
  have hndA := hnd.1
  rcases do_deallocate_cases m p bytes alignment with ⟨hno | hno, _⟩ |
    ⟨pre, hit, post, _, hsplit, hpre, hhit, heq⟩
  · exact absurd hno hp0
  · exact absurd (List.mem_map.mpr ⟨⟨p, s⟩, hmem, rfl⟩) hno
  · rw [hsplit, List.map_append, List.map_cons] at hndA
    have hnd2 := (List.Perm.nodup_iff List.perm_middle).mp hndA
    rw [List.nodup_cons, ← List.map_append] at hnd2
    have hothers : ∀ b ∈ pre ++ post, b.ptr ≠ p := by
      intro b hb hbp
      exact hnd2.1 (List.mem_map.mpr ⟨b, hb, hbp.trans hhit.symm⟩)
    have hhit' : hit = ⟨p, s⟩ := by
      rw [hsplit] at hmem
      rcases List.mem_append.mp hmem with h | h
      · exact absurd rfl (hothers _ (List.mem_append_left _ h))
      · rcases List.mem_cons.mp h with h | h
        · exact h.symm
        · exact absurd rfl (hothers _ (List.mem_append_right _ h))
    subst hhit'
    exact ⟨pre, post, hsplit, hothers, heq⟩

theorem allocateN_succ_ok {m m' m'' : FixedListMemoryResource} {bytes alignment n p : Nat}
    {ps : List Nat} (h1 : m.do_allocate bytes alignment = (.ok p, m'))
    (h2 : m'.allocateN bytes alignment n = (.ok ps, m'')) :
    m.allocateN bytes alignment (n + 1) = (.ok (p :: ps), m'') := by
  simp only [allocateN, h1, h2]

/-- The shape of a successful run of `n` equal requests. -/
theorem allocateN_ok_inv {m m1 : FixedListMemoryResource} {bytes alignment n : Nat}
    {ps : List Nat} (h : m.allocateN bytes alignment (n + 1) = (.ok ps, m1)) :
    ∃ p m' rest, m.do_allocate bytes alignment = (.ok p, m') ∧
      m'.allocateN bytes alignment n = (.ok rest, m1) ∧ ps = p :: rest := by
  cases h1 : m.do_allocate bytes alignment with
  | mk r m' =>
    cases r with
    | error e => simp [allocateN, h1] at h
    | ok p =>
      cases h2 : m'.allocateN bytes alignment n with
      | mk r2 m'' =>
        cases r2 with
        | error e => simp [allocateN, h1, h2] at h
        | ok rest =>
          simp only [allocateN, h1, h2, Prod.mk.injEq, Except.ok.injEq] at h
          obtain ⟨rfl, rfl⟩ := h
          exact ⟨p, m', rest, rfl, h2, rfl⟩

/-- A successful `do_allocate` with a positive alignment returns an aligned address. -/
theorem do_allocate_aligned {m m' : FixedListMemoryResource} {bytes alignment p : Nat}
    (ha : 0 < alignment) (hal : m.do_allocate bytes alignment = (.ok p, m')) :
    p % alignment = 0 := by
  rcases do_allocate_cases m bytes alignment with
    ⟨pre, hit, post, _, _, hhit, heq⟩ | ⟨_, _, heq⟩ | ⟨_, _, heq⟩
  · rw [heq] at hal
    simp only [Prod.mk.injEq, Except.ok.injEq] at hal
    rw [← hal.1]
    exact ((fits_iff _ _ _).mp hhit).1
  · rw [heq] at hal
    simp only [Prod.mk.injEq, Except.ok.injEq] at hal
    rw [← hal.1]
    exact Nat.mod_eq_zero_of_dvd (padding_dvd ha _)
  · rw [heq] at hal
    simp only [Prod.mk.injEq] at hal
    exact absurd hal.1 (by simp)

/-- Histories of calls compose. -/
theorem Trace.append {w x y : FixedListMemoryResource} {H0 H : List Nat}
    (hw : Trace w H0 x) (hxy : Trace x H y) : Trace w (H0 ++ H) y := by
  induction hxy with
  | refl => simpa using hw
  | allocate_ok b a q haq _ hal ih =>
    rw [← List.append_assoc]
    exact Trace.allocate_ok b a q haq ih hal
  | allocate_error b a e haq _ hal ih => exact Trace.allocate_error b a e haq ih hal
  | deallocate q b a _ ih => exact Trace.deallocate q b a ih

/-- After `n` successful equal requests the allocated ledger has grown by one entry of the
requested size per returned address, each address aligned, and the run is a history of
calls. -/
theorem allocateN_ok_spec {m m1 : FixedListMemoryResource} {bytes alignment n : Nat}
    {ps : List Nat} (hv : m.Valid) (ha : IsPow2 alignment)
    (h : m.allocateN bytes alignment n = (.ok ps, m1)) :
    m1.Valid ∧ ps.length = n ∧
      m1.allocated_ = m.allocated_ ++ ps.map (fun p => ⟨p, coerce bytes⟩) ∧
      (∀ p ∈ ps, p % alignment = 0) ∧ Trace m ps m1 := by
  induction n generalizing m ps with
  | zero =>
    simp only [allocateN, Prod.mk.injEq, Except.ok.injEq] at h
    obtain ⟨rfl, rfl⟩ := h
    exact ⟨hv, rfl, by simp, by simp, Trace.refl m⟩
  | succ k ih =>
    obtain ⟨p, m', rest, h1, h2, rfl⟩ := allocateN_ok_inv h
    obtain ⟨_, _, hv', hall⟩ := hv.do_allocate_ok h1
    obtain ⟨e1, e2, e3, e4, e5⟩ := ih hv' h2
    refine ⟨e1, by simp [e2], by rw [e3, hall]; simp, ?_, ?_⟩
    · intro q hq
      rcases List.mem_cons.mp hq with rfl | hq
      · exact do_allocate_aligned ha.pos h1
      · exact e4 q hq
    · have t1 : Trace m ([] ++ [p]) m' :=
        Trace.allocate_ok bytes alignment p ha (Trace.refl m) h1
      exact t1.append e5

theorem deallocateAll_cons (m : FixedListMemoryResource) (p : Nat) (ps : List Nat)
    (bytes alignment : Nat) :
    m.deallocateAll (p :: ps) bytes alignment =
      (m.do_deallocate p bytes alignment).deallocateAll ps bytes alignment := rfl

/-- Releasing distinct recorded addresses one after the other moves their entries, in that
order, to the end of the freed ledger. -/
theorem Valid.deallocateAll_spec {m : FixedListMemoryResource} (hv : m.Valid) {s : Nat}
    {qs : List Nat} (hnd : qs.Nodup) (hmem : ∀ q ∈ qs, (⟨q, s⟩ : Block) ∈ m.allocated_)
    (bytes alignment : Nat) :
    (m.deallocateAll qs bytes alignment).Valid ∧
      (m.deallocateAll qs bytes alignment).freed_ = m.freed_ ++ qs.map (fun q => ⟨q, s⟩) ∧
      (m.deallocateAll qs bytes alignment).cursor_ = m.cursor_ ∧
      (m.deallocateAll qs bytes alignment).buffer_ = m.buffer_ ∧
      (∀ b, b ∈ (m.deallocateAll qs bytes alignment).allocated_ ↔
        b ∈ m.allocated_ ∧ b.ptr ∉ qs) ∧
      Trace m [] (m.deallocateAll qs bytes alignment) := by
  induction qs generalizing m with
  | nil => exact ⟨hv, by simp [deallocateAll], rfl, rfl, by simp [deallocateAll], Trace.refl m⟩
  | cons q rest ih =>
    rw [List.nodup_cons] at hnd
    obtain ⟨pre, post, hsplit, hothers, heq⟩ :=
      hv.do_deallocate_entry (hmem q (List.mem_cons_self _ _)) bytes alignment
    have hv' := hv.do_deallocate q bytes alignment
    have hmem' : ∀ x ∈ rest, (⟨x, s⟩ : Block) ∈ (m.do_deallocate q bytes alignment).allocated_ := by
      intro x hx
      have := hmem x (List.mem_cons_of_mem _ hx)
      rw [heq]
      rw [hsplit] at this
      rcases List.mem_append.mp this with h | h
      · exact List.mem_append_left _ h
      · rcases List.mem_cons.mp h with h | h
        · exfalso
          have : x = q := congrArg Block.ptr h
          exact hnd.1 (this ▸ hx)
        · exact List.mem_append_right _ h
    obtain ⟨e1, e2, e3, e4, e5, e6⟩ := ih hv' hnd.2 hmem'
    rw [deallocateAll_cons]
    refine ⟨e1, ?_, ?_, ?_, ?_, ?_⟩
    · rw [e2, heq]; simp
    · rw [e3, heq]
    · rw [e4, heq]
    · intro b
      rw [e5, heq, hsplit]
      simp only [List.mem_append, List.mem_cons]
      constructor
      · rintro ⟨h | h, hb⟩
        · exact ⟨Or.inl h, fun hq => by
            rcases hq with rfl | hq
            · exact hothers b (List.mem_append_left _ h) rfl
            · exact hb hq⟩
        · exact ⟨Or.inr (Or.inr h), fun hq => by
            rcases hq with rfl | hq
            · exact hothers b (List.mem_append_right _ h) rfl
            · exact hb hq⟩
      · rintro ⟨h | h | h, hb⟩
        · exact ⟨Or.inl h, fun hq => hb (Or.inr hq)⟩
        · exact absurd (Or.inl (by rw [h])) hb
        · exact ⟨Or.inr h, fun hq => hb (Or.inr hq)⟩
    · have t1 : Trace m [] (m.do_deallocate q bytes alignment) :=
        Trace.deallocate q bytes alignment (Trace.refl m)
      simpa using t1.append e6

/-- When at least `n` freed entries qualify for a request, `n` such requests in a row are
all served from the freed ledger: the cursor stays and every returned address was recorded
there. -/
theorem allocateN_reuse (m : FixedListMemoryResource) (bytes alignment n : Nat)
    (hn : n ≤ (m.freed_.countP (fits (coerce bytes) alignment))) :
    ∃ qs m3, m.allocateN bytes alignment n = (.ok qs, m3) ∧ qs.length = n ∧
      m3.cursor_ = m.cursor_ ∧ m3.buffer_ = m.buffer_ ∧
      ∀ q ∈ qs, q ∈ m.freed_.map Block.ptr := by
  induction n generalizing m with
  | zero => exact ⟨[], m, rfl, rfl, rfl, rfl, by simp⟩
  | succ k ih =>
    have hex : ∃ b ∈ m.freed_, fits (coerce bytes) alignment b = true := by
      have hpos : 0 < m.freed_.countP (fits (coerce bytes) alignment) := by omega
      obtain ⟨b, hb, hf⟩ := List.countP_pos_iff.mp hpos
      exact ⟨b, hb, hf⟩
    obtain ⟨pre, hit, post, h1, h2, h3⟩ := exists_first_split _ _ hex
    have heq := do_allocate_reuse h1 h2 h3
    have hcount : k ≤ (pre ++ post).countP (fits (coerce bytes) alignment) := by
      rw [h1] at hn
      simp only [List.countP_append, List.countP_cons, h3, if_true] at hn ⊢
      omega
    obtain ⟨qs, m3, e1, e2, e3, e4, e5⟩ :=
      ih { m with allocated_ := m.allocated_ ++ [⟨hit.ptr, coerce bytes⟩],
                  freed_ := pre ++ post } hcount
    refine ⟨hit.ptr :: qs, m3, allocateN_succ_ok heq e1, by simp [e2], e3, e4, ?_⟩
    intro q hq
    rw [h1]
    rcases List.mem_cons.mp hq with rfl | hq
    · simp
    · have := e5 q hq
      simp only [List.map_append, List.mem_append, List.map_cons, List.mem_cons] at this ⊢
      rcases this with h | h
      · exact Or.inl h
      · exact Or.inr (Or.inr h)

/-- Every address recorded in a ledger was returned by an earlier `do_allocate`. -/
theorem Trace.handed {m0 m : FixedListMemoryResource} {H : List Nat} (ht : Trace m0 H m)
    {H0 : List Nat} (h0 : ∀ b ∈ m0.allocated_ ++ m0.freed_, b.ptr ∈ H0) :
    ∀ b ∈ m.allocated_ ++ m.freed_, b.ptr ∈ H0 ++ H := by
  induction ht with
  | refl => simpa using h0
  | allocate_ok bytes alignment p _ _ hal ih =>
    rename_i m1 m2 H1 ha1 ht1
    intro b hb
    rw [← List.append_assoc]
    rcases do_allocate_cases m1 bytes alignment with
      ⟨pre, hit, post, hsplit, _, _, heq⟩ | ⟨_, _, heq⟩ | ⟨_, _, heq⟩
    · rw [heq] at hal
      simp only [Prod.mk.injEq, Except.ok.injEq] at hal
      obtain ⟨rfl, rfl⟩ := hal
      simp only [List.mem_append, List.mem_singleton] at hb
      rcases hb with (hb | rfl) | hb | hb
      · exact List.mem_append_left _ (ih b (by simp [hb]))
      · simp
      · exact List.mem_append_left _ (ih b (by simp [hsplit, hb]))
      · exact List.mem_append_left _ (ih b (by simp [hsplit, hb]))
    · rw [heq] at hal
      simp only [Prod.mk.injEq, Except.ok.injEq] at hal
      obtain ⟨rfl, rfl⟩ := hal
      simp only [List.mem_append, List.mem_singleton] at hb
      rcases hb with (hb | rfl) | hb
      · exact List.mem_append_left _ (ih b (by simp [hb]))
      · simp
      · exact List.mem_append_left _ (ih b (by simp [hb]))
    · rw [heq] at hal
      simp only [Prod.mk.injEq] at hal
      exact absurd hal.1 (by simp)
  | allocate_error bytes alignment e _ _ hal ih =>
    rename_i m1 m2 H1 ha1 ht1
    have := do_allocate_error (by rw [hal] : (m1.do_allocate bytes alignment).1 = .error e)
    rw [hal] at this
    simp only [Prod.mk.injEq] at this
    obtain ⟨_, rfl⟩ := this
    exact ih
  | deallocate p bytes alignment _ ih =>
    rename_i m1 H1 ht1
    intro b hb
    rcases do_deallocate_cases m1 p bytes alignment with ⟨_, heq⟩ |
      ⟨pre, hit, post, _, hsplit, _, _, heq⟩
    · rw [heq] at hb; exact ih b hb
    · rw [heq] at hb
      simp only [List.mem_append, List.mem_singleton] at hb
      rcases hb with (hb | hb) | hb | rfl
      · exact ih b (by simp [hsplit, hb])
      · exact ih b (by simp [hsplit, hb])
      · exact ih b (by simp [hb])
      · exact ih b (by simp [hsplit])

end FixedListMemoryResource

/-! ## The list on an arena of its own: popped nodes are reused -/

namespace FixedListMemoryResource

theorem Uniform.after_allocate {bytes alignment : Nat} {m : FixedListMemoryResource}
    (hu : Uniform bytes alignment m) (ha : 0 < alignment) :
    Uniform bytes alignment (m.do_allocate bytes alignment).2 := by
  have hself : ∀ p, p % alignment = 0 →
      fits (coerce bytes) alignment ⟨p, coerce bytes⟩ = true := by
    intro p hp
    exact (fits_iff _ _ _).mpr ⟨hp, Nat.le_refl _⟩
  rcases do_allocate_cases m bytes alignment with
    ⟨pre, hit, post, hsplit, _, hhit, heq⟩ | ⟨_, hfit, heq⟩ | ⟨_, _, heq⟩
  · rw [heq]
    intro b hb
    simp only [List.mem_append, List.mem_singleton] at hb
    rcases hb with (hb | rfl) | hb | hb
    · exact hu b (by simp [hb])
    · exact hself _ ((fits_iff _ _ _).mp hhit).1
    · exact hu b (by simp [hsplit, hb])
    · exact hu b (by simp [hsplit, hb])
  · rw [heq]
    intro b hb
    simp only [List.mem_append, List.mem_singleton] at hb
    rcases hb with (hb | rfl) | hb
    · exact hu b (by simp [hb])
    · exact hself _ (Nat.mod_eq_zero_of_dvd (padding_dvd ha _))
    · exact hu b (by simp [hb])
  · rw [heq]; exact hu

theorem Uniform.after_deallocate {bytes alignment : Nat} {m : FixedListMemoryResource}
    (hu : Uniform bytes alignment m) (p b' a' : Nat) :
    Uniform bytes alignment (m.do_deallocate p b' a') := by
  rcases do_deallocate_cases m p b' a' with ⟨_, heq⟩ |
    ⟨pre, hit, post, _, hsplit, _, _, heq⟩
  · rw [heq]; exact hu
  · rw [heq]
    intro b hb
    simp only [List.mem_append, List.mem_singleton] at hb
    rcases hb with (hb | hb) | hb | rfl
    · exact hu b (by simp [hsplit, hb])
    · exact hu b (by simp [hsplit, hb])
    · exact hu b (by simp [hb])
    · exact hu b (by simp [hsplit])

/-- With only qualifying blocks on record, a request is served by the first freed entry. -/
theorem Uniform.reuse_head {bytes alignment : Nat} {m : FixedListMemoryResource}
    (hu : Uniform bytes alignment m) {hd : Block} {tl : List Block}
    (hf : m.freed_ = hd :: tl) :
    m.do_allocate bytes alignment =
      (.ok hd.ptr, { m with allocated_ := m.allocated_ ++ [⟨hd.ptr, coerce bytes⟩],
                            freed_ := tl }) := by
  have h := @do_allocate_reuse m bytes alignment [] tl hd (by simpa using hf) (by simp)
    (hu hd (by simp [hf]))
  simpa using h

end FixedListMemoryResource

namespace pmr_list

variable {α : Type}

theorem emplace_back_alloc (L : NodeLayout) (l : pmr_list α) (v : α) :
    (l.emplace_back L (.ok v)).2.alloc_ = (l.alloc_.do_allocate L.size L.align).2 := by
  unfold pmr_list.emplace_back
  cases h : l.alloc_.do_allocate L.size L.align with
  | mk r m' => cases r <;> rfl

theorem emplace_front_alloc (L : NodeLayout) (l : pmr_list α) (v : α) :
    (l.emplace_front L (.ok v)).2.alloc_ = (l.alloc_.do_allocate L.size L.align).2 := by
  unfold pmr_list.emplace_front
  cases h : l.alloc_.do_allocate L.size L.align with
  | mk r m' => cases r <;> rfl

theorem push_alloc (L : NodeLayout) (l : pmr_list α) (op : Push α) :
    (push L l op).2.alloc_ = (l.alloc_.do_allocate L.size L.align).2 := by
  cases op with
  | back v => exact emplace_back_alloc L l v
  | front v => exact emplace_front_alloc L l v

/-- An insertion succeeds exactly when the resource serves the node's request. -/
theorem Inv.push_ok_of_alloc {l : pmr_list α} {ns : List Nat} (h : l.Inv ns)
    (L : NodeLayout) (op : Push α) {p : Nat} {m' : FixedListMemoryResource}
    (hal : l.alloc_.do_allocate L.size L.align = (.ok p, m')) :
    (pmr_list.push L l op).1 = .ok () := by
  cases op with
  | back v =>
    rcases h.emplace_back_cases L v with ⟨_, _, hok, _⟩ | ⟨_, _, herr⟩
    · exact hok
    · rw [hal] at herr; cases herr
  | front v =>
    rcases h.emplace_front_cases L v with ⟨_, _, hok, _⟩ | ⟨_, _, herr⟩
    · exact hok
    · rw [hal] at herr; cases herr

/-- While the freed ledger holds at least as many (qualifying) blocks as there are
insertions to run, every insertion succeeds by reuse and the cursor does not move. -/
theorem Inv.pushAll_reuse {l : pmr_list α} {ns : List Nat} (h : l.Inv ns) (L : NodeLayout)
    (ha : 0 < L.align) (hu : l.alloc_.Uniform L.size L.align) (ops : List (Push α))
    (hlen : ops.length ≤ l.alloc_.freed_.length) :
    (pmr_list.pushAll L ops l).1 = .ok () ∧
      (pmr_list.pushAll L ops l).2.alloc_.cursor_ = l.alloc_.cursor_ := by
  induction ops generalizing l ns with
  | nil => exact ⟨rfl, rfl⟩
  | cons op ops ih =>
    cases hf : l.alloc_.freed_ with
    | nil => rw [hf] at hlen; simp at hlen
    | cons hd tl =>
      have hal := hu.reuse_head hf
      have hok := h.push_ok_of_alloc L op hal
      obtain ⟨ns1, hinv1, _⟩ := h.push L op hok
      have halloc := push_alloc L l op
      rw [hal] at halloc
      have hu1 : (pmr_list.push L l op).2.alloc_.Uniform L.size L.align := by
        have := hu.after_allocate ha
        rw [hal] at this
        rw [halloc]
        exact this
      have hlen1 : ops.length ≤ (pmr_list.push L l op).2.alloc_.freed_.length := by
        rw [halloc]
        rw [hf] at hlen
        simp only [List.length_cons] at hlen ⊢
        omega
      obtain ⟨e1, e2⟩ := ih hinv1 hu1 hlen1
      rw [pushAll_cons_ok L l op ops hok]
      exact ⟨e1, by rw [e2, halloc]⟩

theorem pushAll_uniform (L : NodeLayout) (ha : 0 < L.align) (ops : List (Push α))
    (l : pmr_list α) (hu : l.alloc_.Uniform L.size L.align) :
    (pmr_list.pushAll L ops l).2.alloc_.Uniform L.size L.align := by
  induction ops generalizing l with
  | nil => exact hu
  | cons op ops ih =>
    have hu1 : (pmr_list.push L l op).2.alloc_.Uniform L.size L.align := by
      rw [push_alloc]; exact hu.after_allocate ha
    cases hp : (pmr_list.push L l op).1 with
    | error e =>
      have : pmr_list.push L l op = (.error e, (pmr_list.push L l op).2) := Prod.ext hp rfl
      rw [pmr_list.pushAll, this]
      exact hu1
    | ok u =>
      cases u
      rw [pushAll_cons_ok L l op ops hp]
      exact ih _ hu1

theorem popAll_cons (L : NodeLayout) (c : Pop) (cs : List Pop) (l : pmr_list α) :
    popAll L (c :: cs) l = popAll L cs (pop L l c) := rfl

/-- One removal at an end of a non-empty list: the chain loses that end node and the node's
block goes to the end of the freed ledger. -/
theorem Inv.pop_step {l : pmr_list α} {ns : List Nat} (h : l.Inv ns) (hne : ns ≠ [])
    (L : NodeLayout) (c : Pop) :
    ∃ ns' a, (pop L l c).Inv ns' ∧ ns'.length + 1 = ns.length ∧ a ∈ ns ∧
      (pop L l c).alloc_ = l.alloc_.do_deallocate a L.size L.align ∧
      (pop L l c).alloc_.freed_.length = l.alloc_.freed_.length + 1 ∧
      (pop L l c).alloc_.cursor_ = l.alloc_.cursor_ := by
  have hl := h.isList
  cases c with
  | back =>
    obtain ⟨pre, hpre⟩ := hl.split_last hne
    have hmem : l.tail_ ∈ ns := by rw [hpre]; simp
    have hl' : l.IsList (pre ++ l.tail_ :: []) := hpre ▸ hl
    obtain ⟨_, _, _, h4, _⟩ := hl'.unlink L
    have halloc : (pop L l .back).alloc_ = l.alloc_.do_deallocate l.tail_ L.size L.align := by
      show (l.pop_back L).alloc_ = _
      rw [hl.pop_back_eq hne, h4]
    obtain ⟨p, hit, q, _, _, _, e4⟩ := h.deallocate_node hmem L.size L.align
    refine ⟨ns.dropLast, l.tail_, h.pop_back L, ?_, hmem, halloc, ?_, ?_⟩
    · rw [hpre]; simp
    · rw [halloc, e4]; simp
    · rw [halloc, e4]
  | front =>
    obtain ⟨post, hpost⟩ := hl.split_first hne
    have hmem : l.head_ ∈ ns := by rw [hpost]; simp
    have hl' : l.IsList ([] ++ l.head_ :: post) := hpost ▸ hl
    obtain ⟨_, _, _, h4, _⟩ := hl'.unlink L
    have halloc : (pop L l .front).alloc_ = l.alloc_.do_deallocate l.head_ L.size L.align := by
      show (l.pop_front L).alloc_ = _
      rw [hl.pop_front_eq hne, h4]
    obtain ⟨p, hit, q, _, _, _, e4⟩ := h.deallocate_node hmem L.size L.align
    refine ⟨ns.tail, l.head_, h.pop_front L, ?_, hmem, halloc, ?_, ?_⟩
    · rw [hpost]; simp
    · rw [halloc, e4]; simp
    · rw [halloc, e4]

/-- Popping as many times as the list has nodes empties it and puts every node's block on
the freed ledger. -/
theorem Inv.popAll_drain {l : pmr_list α} {ns : List Nat} (h : l.Inv ns) (L : NodeLayout)
    (pops : List Pop) (hlen : pops.length = ns.length)
    (hu : l.alloc_.Uniform L.size L.align) :
    (popAll L pops l).Inv [] ∧
      (popAll L pops l).alloc_.freed_.length = l.alloc_.freed_.length + ns.length ∧
      (popAll L pops l).alloc_.cursor_ = l.alloc_.cursor_ ∧
      (popAll L pops l).alloc_.Uniform L.size L.align := by
  induction pops generalizing l ns with
  | nil =>
    have : ns = [] := List.length_eq_zero.mp hlen.symm
    subst this
    exact ⟨h, rfl, rfl, hu⟩
  | cons c cs ih =>
    have hne : ns ≠ [] := by
      rintro rfl
      simp at hlen
    obtain ⟨ns', a, hinv', hl', _, halloc, hfreed, hcur⟩ := h.pop_step hne L c
    have hu' : (pop L l c).alloc_.Uniform L.size L.align := by
      rw [halloc]; exact hu.after_deallocate _ _ _
    have hlen' : cs.length = ns'.length := by
      simp only [List.length_cons] at hlen
      omega
    obtain ⟨e1, e2, e3, e4⟩ := ih hinv' hlen' hu'
    rw [popAll_cons]
    refine ⟨e1, ?_, ?_, e4⟩
    · rw [e2, hfreed]; omega
    · rw [e3, hcur]

end pmr_list

/-! ## Claims about the list on its memory resource -/

section Reuse

variable {α : Type}

open FixedListMemoryResource in
/-- C12: (resource) in a state reached from a fresh resource, if `n` requests of one shape
(power-of-two alignment) succeed in a row and the `n` returned addresses are then released
in any order, `n` further requests of that shape all succeed, each returns an address that
an earlier call had handed out, and `used()` is what it was before these `n` requests.
(List) On a fresh arena, after insertions that all succeed and as many pops at either end,
at most as many new insertions all succeed, a traversal yields exactly the new elements in
the order the insertions imply, and the cursor is where it was after the first
insertions. -/
theorem memory_reuse (base C : Nat) (hbase : 0 < base) (hfit : base + C < 2 ^ 64) :
    (∀ (m0 m1 : FixedListMemoryResource) (H ps ps' : List Nat) (s a n b' a' : Nat),
      Trace (construct base C) H m0 → IsPow2 a →
      m0.allocateN s a n = (.ok ps, m1) → ps'.Perm ps →
      ∃ qs m3, (m1.deallocateAll ps' b' a').allocateN s a n = (.ok qs, m3) ∧
        qs.length = n ∧ (∀ q ∈ qs, q ∈ H ++ ps) ∧
        m3.used = (m1.deallocateAll ps' b' a').used) ∧
    (∀ (L : NodeLayout) (heap : Nat → Node α) (ins again : List (pmr_list.Push α))
        (pops : List pmr_list.Pop),
      IsPow2 L.align →
      (pmr_list.pushAll L ins (pmr_list.construct (construct base C) heap)).1 = .ok () →
      pops.length = ins.length → again.length ≤ ins.length →
      (pmr_list.pushAll L again (pmr_list.popAll L pops
        (pmr_list.pushAll L ins (pmr_list.construct (construct base C) heap)).2)).1 = .ok () ∧
      (∀ fuel, again.length ≤ fuel →
        (pmr_list.pushAll L again (pmr_list.popAll L pops
          (pmr_list.pushAll L ins (pmr_list.construct (construct base C) heap)).2)).2.traverse
            fuel = some (again.foldl pmr_list.Push.denote [])) ∧
      (pmr_list.pushAll L again (pmr_list.popAll L pops
        (pmr_list.pushAll L ins (pmr_list.construct (construct base C) heap)).2)).2.alloc_.cursor_
        = (pmr_list.pushAll L ins
            (pmr_list.construct (construct base C) heap)).2.alloc_.cursor_) := by
  have hv0 := Valid.of_construct hbase hfit
  constructor
  · intro m0 m1 H ps ps' s a n b' a' ht ha hfill hperm
    have hv : m0.Valid := (ht.keeps hv0 (by simp [construct])).1
    obtain ⟨hv1, hlen, hall, hal, ht1⟩ := allocateN_ok_spec hv ha hfill
    have hnd : ps.Nodup := by
      have := hv1.nodup
      rw [hall, List.map_append, List.map_append, List.nodup_append] at this
      have h2 := (List.nodup_append.mp this.1).2.1
      have hmap : ∀ xs : List Nat,
          List.map Block.ptr (List.map (fun p => (⟨p, coerce s⟩ : Block)) xs) = xs := by
        intro xs
        induction xs with
        | nil => rfl
        | cons x xs ih => simp only [List.map_cons, ih]
      rw [hmap] at h2
      exact h2
    have hnd' : ps'.Nodup := hperm.nodup_iff.mpr hnd
    have hmem : ∀ q ∈ ps', (⟨q, coerce s⟩ : Block) ∈ m1.allocated_ := by
      intro q hq
      rw [hall]
      exact List.mem_append_right _ (List.mem_map.mpr ⟨q, hperm.subset hq, rfl⟩)
    obtain ⟨_, hfreed, hcur, hbuf, _, ht2⟩ := hv1.deallocateAll_spec hnd' hmem b' a'
    have hcount : n ≤ (m1.deallocateAll ps' b' a').freed_.countP (fits (coerce s) a) := by
      rw [hfreed, List.countP_append]
      have : (ps'.map fun q => (⟨q, coerce s⟩ : Block)).countP (fits (coerce s) a) =
          ps'.length := by
        rw [List.countP_eq_length.mpr, List.length_map]
        intro b hb
        obtain ⟨q, hq, rfl⟩ := List.mem_map.mp hb
        exact (fits_iff _ _ _).mpr ⟨hal q (hperm.subset hq), Nat.le_refl _⟩
      rw [this, hperm.length_eq, hlen]
      omega
    obtain ⟨qs, m3, e1, e2, e3, e4, e5⟩ := allocateN_reuse _ s a n hcount
    refine ⟨qs, m3, e1, e2, ?_, by unfold used; rw [e3, e4]⟩
    intro q hq
    obtain ⟨b, hb, rfl⟩ := List.mem_map.mp (e5 q hq)
    have htr := (ht.append ht1).append ht2
    have h0 : ∀ c ∈ (construct base C).allocated_ ++ (construct base C).freed_,
        c.ptr ∈ ([] : List Nat) := by simp [construct]
    have := htr.handed h0 b (List.mem_append_right _ hb)
    simpa using this
  · intro L heap ins again pops hL hok hpops hagain
    have hinv0 := pmr_list.Inv.construct hv0 heap
    have hu0 : (pmr_list.construct (construct base C) heap).alloc_.Uniform L.size L.align := by
      intro b hb
      simp [pmr_list.construct, construct] at hb
    obtain ⟨ns1, hinv1, hval1⟩ := hinv0.pushAll_denote L ins hok
    have hlen1 : ns1.length = ins.length := by
      have := congrArg List.length hval1
      rw [List.length_map, pmr_list.length_foldl_denote] at this
      simpa using this
    have hu1 := pmr_list.pushAll_uniform L hL.pos ins _ hu0
    obtain ⟨hinv2, hfreed2, hcur2, hu2⟩ :=
      hinv1.popAll_drain L pops (hpops.trans hlen1.symm) hu1
    have hroom : again.length ≤ (pmr_list.popAll L pops (pmr_list.pushAll L ins
        (pmr_list.construct (construct base C) heap)).2).alloc_.freed_.length := by
      rw [hfreed2]; omega
    obtain ⟨hok3, hcur3⟩ := hinv2.pushAll_reuse L hL.pos hu2 again hroom
    obtain ⟨ns3, hinv3, hval3⟩ := hinv2.pushAll_denote L again hok3
    have hlen3 : ns3.length = again.length := by
      have := congrArg List.length hval3
      rw [List.length_map, pmr_list.length_foldl_denote] at this
      simpa using this
    refine ⟨hok3, ?_, by rw [hcur3, hcur2]⟩
    intro fuel hfuel
    rw [hinv3.isList.traverse (by omega), hval3]
    rfl

open FixedListMemoryResource in
/-- Three 24-byte requests on the fresh arena, released in another order, then three more:
served from the same three addresses, `used()` unchanged. And a list that inserts 1, 2, 3,
pops all three and inserts 7, 8 traverses `[7, 8]` with the cursor where it was. -/
theorem memory_reuse_witness :
    arena.allocateN 24 8 3 = (.ok [4096, 4120, 4144], threeBlocks) ∧
    [4144, 4096, 4120].Perm [4096, 4120, 4144] ∧
    (∃ qs m3, (threeBlocks.deallocateAll [4144, 4096, 4120] 24 8).allocateN 24 8 3 =
        (.ok qs, m3) ∧ qs.length = 3 ∧ (∀ q ∈ qs, q ∈ [] ++ [4096, 4120, 4144]) ∧
        m3.used = (threeBlocks.deallocateAll [4144, 4096, 4120] 24 8).used) ∧
    (pmr_list.pushAll intLayout [.back 1, .back 2, .back 3]
      (pmr_list.construct arena blank)).1 = .ok () ∧
    (pmr_list.pushAll intLayout [.back 7, .back 8] (pmr_list.popAll intLayout
      [.back, .front, .back] abc)).2.traverse 2 = some [7, 8] ∧
    (pmr_list.pushAll intLayout [.back 7, .back 8] (pmr_list.popAll intLayout
      [.back, .front, .back] abc)).2.alloc_.cursor_ = abc.alloc_.cursor_ :=
  ⟨by decide, by decide,
    (@memory_reuse Int 4096 1024 (by decide) (by decide)).1 arena threeBlocks []
      [4096, 4120, 4144] [4144, 4096, 4120] 24 8 3 24 8 (Trace.refl _) ⟨3, rfl⟩
      (by decide) (by decide),
    by decide,
    ((@memory_reuse Int 4096 1024 (by decide) (by decide)).2 intLayout blank
      [.back 1, .back 2, .back 3] [.back 7, .back 8] [.back, .front, .back] ⟨3, rfl⟩
      (by decide) (by decide) (by decide)).2.1 2 (by decide),
    ((@memory_reuse Int 4096 1024 (by decide) (by decide)).2 intLayout blank
      [.back 1, .back 2, .back 3] [.back 7, .back 8] [.back, .front, .back] ⟨3, rfl⟩
      (by decide) (by decide) (by decide)).2.2⟩

end Reuse

/-! ## Claims about failing and degenerate calls -/

namespace pmr_list

variable {α : Type}

/-- C13: when the resource's `do_allocate` throws during `push_back` / `emplace_back` or
`push_front` / `emplace_front` (whatever the element's constructor would have done), the
call ends with that same exception and the state is exactly what it was: `head_`, `tail_`,
`sz_`, every node, and the resource. -/
theorem push_failure_changes_nothing (L : NodeLayout) (l : pmr_list α) (c : Except Exn α)
    (e : Exn) (hal : (l.alloc_.do_allocate L.size L.align).1 = .error e) :
    ((l.push_back L c).1 = .error e ∧ (l.push_back L c).2 = l) ∧
    ((l.emplace_back L c).1 = .error e ∧ (l.emplace_back L c).2 = l) ∧
    ((l.push_front L c).1 = .error e ∧ (l.push_front L c).2 = l) ∧
    ((l.emplace_front L c).1 = .error e ∧ (l.emplace_front L c).2 = l) := by
  have h := FixedListMemoryResource.do_allocate_error hal
  have he : e = .bad_alloc := by
    rw [h] at hal
    exact (Except.error.inj hal).symm
  subst he
  have hb : (l.emplace_back L c).1 = .error .bad_alloc ∧ (l.emplace_back L c).2 = l := by
    constructor <;> simp [pmr_list.emplace_back, h]
  have hf : (l.emplace_front L c).1 = .error .bad_alloc ∧ (l.emplace_front L c).2 = l := by
    constructor <;> simp [pmr_list.emplace_front, h]
  exact ⟨hb, hb, hf, hf⟩

/-- On the 40-byte arena holding one node, a second insertion throws `bad_alloc` and leaves
the list as it was. -/
theorem push_failure_changes_nothing_witness :
    (full.alloc_.do_allocate intLayout.size intLayout.align).1 = .error .bad_alloc ∧
    (full.push_back intLayout (.ok 2)).1 = .error .bad_alloc ∧
    (full.push_back intLayout (.ok 2)).2 = full ∧
    (full.push_front intLayout (.ok 2)).1 = .error .bad_alloc ∧
    (full.push_front intLayout (.ok 2)).2 = full :=
  ⟨by decide,
    (push_failure_changes_nothing intLayout full (.ok 2) .bad_alloc (by decide)).1.1,
    (push_failure_changes_nothing intLayout full (.ok 2) .bad_alloc (by decide)).1.2,
    (push_failure_changes_nothing intLayout full (.ok 2) .bad_alloc (by decide)).2.2.1.1,
    (push_failure_changes_nothing intLayout full (.ok 2) .bad_alloc (by decide)).2.2.1.2⟩

/-- C14: `pop_back` and `pop_front` on an empty well-formed list, and `erase` with the end
iterator on any list, return the state unchanged (members, node memory and resource), and
`erase(end())` returns the end iterator. -/
theorem empty_operations_noop (L : NodeLayout) (l : pmr_list α) (hw : l.WellFormed) :
    (l.empty = true → l.pop_back L = l ∧ l.pop_front L = l) ∧
    l.erase L l.end_ = (l.end_, l) := by
  refine ⟨fun he => ?_, erase_end L l⟩
  obtain ⟨_, hht, hts, _⟩ := hw
  have hsz : l.sz_ = 0 := by simpa [pmr_list.empty] using he
  have ht : l.tail_ = 0 := hts.mpr hsz
  have hh : l.head_ = 0 := hht.mpr ht
  exact ⟨by simp [pmr_list.pop_back, ht], by simp [pmr_list.pop_front, hh]⟩

/-- The empty list on the fresh arena: both pops and `erase(end())` change nothing. -/
theorem empty_operations_noop_witness :
    none0.WellFormed ∧ none0.empty = true ∧
    (none0.pop_back intLayout = none0 ∧ none0.pop_front intLayout = none0) ∧
    none0.erase intLayout none0.end_ = (none0.end_, none0) :=
  ⟨(Reachable.construct arena blank arena_reachable : Reachable intLayout none0).isWellFormed,
    by decide,
    (empty_operations_noop intLayout none0
      (Reachable.construct arena blank arena_reachable :
        Reachable intLayout none0).isWellFormed).1 (by decide),
    (empty_operations_noop intLayout none0
      (Reachable.construct arena blank arena_reachable :
        Reachable intLayout none0).isWellFormed).2⟩

/-- One removal at an end keeps the chain a chain and shortens it by one node, if it has
any. -/
theorem IsList.pop_isList {l : pmr_list α} {ns : List Nat} (hl : l.IsList ns)
    (L : NodeLayout) (c : Pop) :
    ∃ ns', (pop L l c).IsList ns' ∧ ns'.length = ns.length - 1 := by
  by_cases hne : ns = []
  · subst hne
    cases c with
    | front => exact ⟨[], by show (l.pop_front L).IsList []; rw [hl.pop_front_nil]; exact hl, rfl⟩
    | back => exact ⟨[], by show (l.pop_back L).IsList []; rw [hl.pop_back_nil]; exact hl, rfl⟩
  · cases c with
    | back =>
      obtain ⟨pre, hpre⟩ := hl.split_last hne
      have hl' : l.IsList (pre ++ l.tail_ :: []) := hpre ▸ hl
      obtain ⟨h1, _⟩ := hl'.unlink L
      refine ⟨pre ++ [], ?_, by rw [hpre]; simp⟩
      show (l.pop_back L).IsList _
      rw [hl.pop_back_eq hne]
      exact h1
    | front =>
      obtain ⟨post, hpost⟩ := hl.split_first hne
      have hl' : l.IsList ([] ++ l.head_ :: post) := hpost ▸ hl
      obtain ⟨h1, _⟩ := hl'.unlink L
      refine ⟨[] ++ post, ?_, by rw [hpost]; simp⟩
      show (l.pop_front L).IsList _
      rw [hl.pop_front_eq hne]
      exact h1

theorem IsList.popAll_isList {l : pmr_list α} {ns : List Nat} (hl : l.IsList ns)
    (L : NodeLayout) (cs : List Pop) :
    ∃ ns', (popAll L cs l).IsList ns' ∧ ns'.length = ns.length - cs.length := by
  induction cs generalizing l ns with
  | nil => exact ⟨ns, hl, rfl⟩
  | cons c cs ih =>
    obtain ⟨ns1, h1, hlen1⟩ := hl.pop_isList L c
    obtain ⟨ns2, h2, hlen2⟩ := ih h1
    refine ⟨ns2, by rw [popAll_cons]; exact h2, ?_⟩
    rw [hlen2, hlen1, List.length_cons]
    omega

/-- C16: on a well-formed list of `n` nodes, in any sequence of exactly `n` pops, each at
the front or at the back, the list is non-empty before each pop, and after the last one
`empty()` holds, `head_` and `tail_` are null and a traversal yields nothing. -/
theorem drain_empties (L : NodeLayout) (l : pmr_list α) (pops : List Pop)
    (hw : l.WellFormed) (hlen : pops.length = l.size) :
    (∀ k, k < pops.length → (popAll L (pops.take k) l).empty = false) ∧
    (popAll L pops l).empty = true ∧
    (popAll L pops l).head_ = 0 ∧ (popAll L pops l).tail_ = 0 ∧
    (∀ fuel, (popAll L pops l).traverse fuel = some []) := by
  obtain ⟨ns, hl⟩ := hw.isList
  have hsz : l.size = ns.length := hl.sz_eq
  constructor
  · intro k hk
    obtain ⟨ns', h', hlen'⟩ := hl.popAll_isList L (pops.take k)
    have : (popAll L (pops.take k) l).sz_ ≠ 0 := by
      rw [h'.sz_eq, hlen', List.length_take]
      omega
    simpa [pmr_list.empty] using this
  · obtain ⟨ns', h', hlen'⟩ := hl.popAll_isList L pops
    have hnil : ns' = [] := by
      apply List.length_eq_zero.mp
      omega
    subst hnil
    refine ⟨?_, h'.head_eq, h'.tail_eq, fun fuel => ?_⟩
    · have : (popAll L pops l).sz_ = 0 := h'.sz_eq
      simp [pmr_list.empty, this]
    · rw [h'.traverse (Nat.zero_le _)]
      rfl

/-- The list `[1, 2, 3]` drained by `pop_front`, `pop_back`, `pop_front`: non-empty before
each pop, empty after the third. -/
theorem drain_empties_witness :
    abc.WellFormed ∧ [Pop.front, Pop.back, Pop.front].length = abc.size ∧
    (popAll intLayout ([Pop.front, Pop.back, Pop.front].take 2) abc).empty = false ∧
    (popAll intLayout [.front, .back, .front] abc).empty = true ∧
    (popAll intLayout [.front, .back, .front] abc).head_ = 0 ∧
    (popAll intLayout [.front, .back, .front] abc).tail_ = 0 ∧
    (popAll intLayout [.front, .back, .front] abc).traverse 5 = some [] :=
  ⟨abc_reachable.isWellFormed, by decide,
    (drain_empties intLayout abc [.front, .back, .front] abc_reachable.isWellFormed
      (by decide)).1 2 (by decide),
    (drain_empties intLayout abc [.front, .back, .front] abc_reachable.isWellFormed
      (by decide)).2.1,
    (drain_empties intLayout abc [.front, .back, .front] abc_reachable.isWellFormed
      (by decide)).2.2.1,
    (drain_empties intLayout abc [.front, .back, .front] abc_reachable.isWellFormed
      (by decide)).2.2.2.1,
    (drain_empties intLayout abc [.front, .back, .front] abc_reachable.isWellFormed
      (by decide)).2.2.2.2 5⟩

end pmr_list

/-! ## Claims about `clear` and about single calls of the resource -/

namespace FixedListMemoryResource

/-- Releasing distinct addresses that are all on record removes exactly them from the
allocated ledger and appends them, in call order, to the freed ledger. -/
theorem Valid.deallocateAll_ptrs {m : FixedListMemoryResource} (hv : m.Valid)
    {qs : List Nat} (hnd : qs.Nodup) (hmem : ∀ q ∈ qs, q ∈ m.allocated_.map Block.ptr)
    (bytes alignment : Nat) :
    (m.deallocateAll qs bytes alignment).Valid ∧
      (∀ x, x ∈ (m.deallocateAll qs bytes alignment).allocated_.map Block.ptr ↔
        x ∈ m.allocated_.map Block.ptr ∧ x ∉ qs) ∧
      (m.deallocateAll qs bytes alignment).freed_.map Block.ptr =
        m.freed_.map Block.ptr ++ qs ∧
      (m.deallocateAll qs bytes alignment).allocated_.length + qs.length =
        m.allocated_.length := by
  induction qs generalizing m with
  | nil => exact ⟨hv, by simp [deallocateAll], by simp [deallocateAll], rfl⟩
  | cons q rest ih =>
    rw [List.nodup_cons] at hnd
    obtain ⟨b, hb, hbq⟩ := List.mem_map.mp (hmem q (List.mem_cons_self _ _))
    have hb' : (⟨q, b.size⟩ : Block) ∈ m.allocated_ := by
      rw [← hbq]; exact hb
    obtain ⟨pre, post, hsplit, hothers, heq⟩ := hv.do_deallocate_entry hb' bytes alignment
    have hv' := hv.do_deallocate q bytes alignment
    have hstep : ∀ x, x ∈ (m.do_deallocate q bytes alignment).allocated_.map Block.ptr ↔
        x ∈ m.allocated_.map Block.ptr ∧ x ≠ q := by
      intro x
      rw [heq, hsplit]
      simp only [List.map_append, List.map_cons, List.mem_append, List.mem_cons,
        List.mem_map]
      constructor
      · rintro (⟨c, hc, rfl⟩ | ⟨c, hc, rfl⟩)
        · exact ⟨Or.inl ⟨c, hc, rfl⟩, hothers c (List.mem_append_left _ hc)⟩
        · exact ⟨Or.inr (Or.inr ⟨c, hc, rfl⟩), hothers c (List.mem_append_right _ hc)⟩
      · rintro ⟨h | h | h, hne⟩
        · exact Or.inl h
        · exact absurd h hne
        · exact Or.inr h
    have hmem' : ∀ x ∈ rest, x ∈ (m.do_deallocate q bytes alignment).allocated_.map Block.ptr := by
      intro x hx
      refine (hstep x).mpr ⟨hmem x (List.mem_cons_of_mem _ hx), ?_⟩
      rintro rfl
      exact hnd.1 hx
    obtain ⟨e1, e2, e3, e4⟩ := ih hv' hnd.2 hmem'
    rw [deallocateAll_cons]
    refine ⟨e1, ?_, ?_, ?_⟩
    · intro x
      rw [e2, hstep]
      simp only [List.mem_cons, not_or]
      tauto
    · rw [e3, heq]; simp
    · rw [List.length_cons, ← Nat.add_assoc, e4, heq, hsplit]
      simp
      omega

/-- C18: in a resource satisfying its representation invariant, `do_deallocate` at the
address `p` of a recorded entry `(p, s)`, whatever the size argument, removes exactly that
entry from the allocated ledger, appends `(p, s)` with the recorded size to the end of the
freed ledger and leaves the cursor and all other entries unchanged. -/
theorem do_deallocate_moves_entry (m : FixedListMemoryResource) (p s bytes alignment : Nat)
    (hv : m.Valid) (hmem : (⟨p, s⟩ : Block) ∈ m.allocated_) :
    ∃ pre post, m.allocated_ = pre ++ ⟨p, s⟩ :: post ∧
      (∀ b ∈ pre ++ post, b.ptr ≠ p) ∧
      m.do_deallocate p bytes alignment =
        { m with allocated_ := pre ++ post, freed_ := m.freed_ ++ [⟨p, s⟩] } :=
  hv.do_deallocate_entry hmem bytes alignment

/-- The second of two 24-byte blocks released with a size argument of 999: the entry
`(4120, 24)` moves to the freed ledger with its recorded size. -/
theorem do_deallocate_moves_entry_witness :
    twoBlocks.Valid ∧ (⟨4120, 24⟩ : Block) ∈ twoBlocks.allocated_ ∧
    twoBlocks.do_deallocate 4120 999 8 =
      { twoBlocks with allocated_ := [⟨4096, 24⟩], freed_ := [⟨4120, 24⟩] } ∧
    ∃ pre post, twoBlocks.allocated_ = pre ++ ⟨4120, 24⟩ :: post ∧
      (∀ b ∈ pre ++ post, b.ptr ≠ 4120) ∧
      twoBlocks.do_deallocate 4120 999 8 =
        { twoBlocks with allocated_ := pre ++ post,
                         freed_ := twoBlocks.freed_ ++ [⟨4120, 24⟩] } :=
  ⟨((Valid.of_construct (by decide) (by decide) : arena.Valid).do_allocate 24 8).do_allocate
      24 8,
    by decide, by decide,
    do_deallocate_moves_entry twoBlocks 4120 24 999 8
      (((Valid.of_construct (by decide) (by decide) : arena.Valid).do_allocate 24 8).do_allocate
        24 8) (by decide)⟩

/-- C19: a request of zero bytes is served exactly as a request of one byte: same outcome
and same resulting state; when it succeeds the block is recorded with size 1; on the bump
path the cursor ends one byte past the returned address; and in a reachable state the
addresses of the allocated ledger stay pairwise distinct. -/
theorem zero_size_is_one_byte (m : FixedListMemoryResource) (alignment : Nat) :
    m.do_allocate 0 alignment = m.do_allocate 1 alignment ∧
    (∀ p, (m.do_allocate 0 alignment).1 = .ok p →
      (m.do_allocate 0 alignment).2.allocated_ = m.allocated_ ++ [⟨p, 1⟩]) ∧
    ((∀ b ∈ m.freed_, ¬ (b.ptr % alignment = 0 ∧ 1 ≤ b.size)) →
      ∀ p, (m.do_allocate 0 alignment).1 = .ok p →
        m.cursor_ ≤ p ∧ (m.do_allocate 0 alignment).2.cursor_ = p + 1) ∧
    (m.Reachable → ((m.do_allocate 0 alignment).2.allocated_.map Block.ptr).Nodup) := by
  refine ⟨rfl, ?_, ?_, ?_⟩
  · intro p hp
    rcases do_allocate_cases m 0 alignment with
      ⟨pre, hit, post, _, _, _, heq⟩ | ⟨_, _, heq⟩ | ⟨_, _, heq⟩
    all_goals
      rw [heq] at hp ⊢
      first
        | (simp only [Except.ok.injEq] at hp; subst hp; rfl)
        | cases hp
  · intro hnone p hp
    rcases do_allocate_cases m 0 alignment with
      ⟨pre, hit, post, hsplit, _, hhit, heq⟩ | ⟨_, _, heq⟩ | ⟨_, _, heq⟩
    · exact absurd ((fits_iff _ _ _).mp hhit) (hnone hit (by simp [hsplit]))
    · rw [heq] at hp ⊢
      simp only [Except.ok.injEq] at hp
      subst hp
      exact ⟨Nat.le_add_right _ _, rfl⟩
    · rw [heq] at hp; cases hp
  · intro hr
    have hnd := (hr.valid.do_allocate 0 alignment).nodup
    rw [List.map_append, List.nodup_append] at hnd
    exact hnd.1

/-- A zero-byte request on the fresh arena: served at 4096, recorded with size 1, cursor
moved to 4097. -/
theorem zero_size_is_one_byte_witness :
    arena.do_allocate 0 8 = arena.do_allocate 1 8 ∧
    (arena.do_allocate 0 8).1 = .ok 4096 ∧
    (arena.do_allocate 0 8).2.allocated_ = arena.allocated_ ++ [⟨4096, 1⟩] ∧
    (∀ b ∈ arena.freed_, ¬ (b.ptr % 8 = 0 ∧ 1 ≤ b.size)) ∧
    (arena.cursor_ ≤ 4096 ∧ (arena.do_allocate 0 8).2.cursor_ = 4096 + 1) ∧
    arena.Reachable ∧ ((arena.do_allocate 0 8).2.allocated_.map Block.ptr).Nodup :=
  ⟨(zero_size_is_one_byte arena 8).1, by decide,
    (zero_size_is_one_byte arena 8).2.1 4096 (by decide), by decide,
    (zero_size_is_one_byte arena 8).2.2.1 (by decide) 4096 (by decide),
    pmr_list.arena_reachable,
    (zero_size_is_one_byte arena 8).2.2.2 pmr_list.arena_reachable⟩

end FixedListMemoryResource

namespace pmr_list

variable {α : Type}

/-- The loop of `clear()` calls `do_deallocate` once for each node a traversal from `cur`
visits, in that order, and finishes exactly when the traversal does. -/
theorem clearLoop_eq (L : NodeLayout) (h : Nat → Node α) (fuel cur : Nat)
    (m : FixedListMemoryResource) :
    clearLoop L h fuel cur m =
      (match iterate h fuel cur with
       | none => none
       | some ns => some (m.deallocateAll ns L.size L.align)) := by
  induction fuel generalizing cur m with
  | zero =>
    by_cases hc : cur = 0
    · simp [clearLoop, iterate, hc, FixedListMemoryResource.deallocateAll]
    · simp [clearLoop, iterate, hc]
  | succ f ih =>
    by_cases hc : cur = 0
    · simp [clearLoop, iterate, hc, FixedListMemoryResource.deallocateAll]
    · simp only [clearLoop, iterate, hc, if_false, ih]
      cases iterate h f (h cur).next with
      | none => rfl
      | some rest => rfl

/-- C15: on a well-formed list whose `n` nodes are live blocks of its resource, `clear()`
terminates (any bound of at least `n` iterations suffices), leaves `head_` and `tail_` null
and `size()` zero, so that a traversal yields nothing; the resource afterwards is the
resource before with `do_deallocate` called once per node in head-to-tail order, `n` entries
have left the allocated ledger, and every former node address is absent from the allocated
ledger and present in the freed ledger. On an empty list `clear()` changes nothing. -/
theorem clear_spec (L : NodeLayout) (l : pmr_list α) (fuel : Nat) (ns : List Nat)
    (hw : l.WellFormed) (hb : l.Backed) (hn : l.nodes fuel = some ns) :
    ∃ l', (∀ fuel', ns.length ≤ fuel' → l.clear L fuel' = some l') ∧
      l'.head_ = 0 ∧ l'.tail_ = 0 ∧ l'.size = 0 ∧
      (∀ fuel', l'.traverse fuel' = some []) ∧
      l'.alloc_ = l.alloc_.deallocateAll ns L.size L.align ∧
      l'.alloc_.allocated_.length + ns.length = l.alloc_.allocated_.length ∧
      (∀ a ∈ ns, a ∉ l'.alloc_.allocated_.map Block.ptr ∧
        a ∈ l'.alloc_.freed_.map Block.ptr) ∧
      (ns = [] → l' = l) := by
  obtain ⟨ns0, hl⟩ := hw.isList
  obtain rfl := hl.nodes_eq hn
  obtain ⟨hv, ho⟩ := hl.backed_iff.mp hb
  obtain ⟨_, e2, e3, e4⟩ := hv.deallocateAll_ptrs hl.nodup ho L.size L.align
  refine ⟨{ alloc_ := l.alloc_.deallocateAll ns L.size L.align, heap := l.heap,
            head_ := 0, tail_ := 0, sz_ := 0 }, ?_, rfl, rfl, rfl, ?_, rfl, e4, ?_, ?_⟩
  · intro fuel' hf
    have hit : iterate l.heap fuel' l.head_ = some ns := hl.nodes hf
    simp only [pmr_list.clear, clearLoop_eq, hit]
  · intro fuel'
    simp [pmr_list.traverse, pmr_list.nodes, pmr_list.begin, iterate_null]
  · intro a ha
    refine ⟨fun hmem => ((e2 a).mp hmem).2 ha, ?_⟩
    show a ∈ (l.alloc_.deallocateAll ns L.size L.align).freed_.map Block.ptr
    rw [e3]
    exact List.mem_append_right _ ha
  · rintro rfl
    have h1 : l.head_ = 0 := hl.head_eq
    have h2 : l.tail_ = 0 := hl.tail_eq
    have h3 : l.sz_ = 0 := hl.sz_eq
    cases l
    simp only at h1 h2 h3
    subst h1 h2 h3
    rfl

/-- The list `[1, 2, 3]`: `clear()` releases the nodes at 4096, 4120, 4144 in this order
and leaves the empty list. -/
theorem clear_spec_witness :
    abc.WellFormed ∧ abc.Backed ∧ abc.nodes 3 = some [4096, 4120, 4144] ∧
    ∃ l', (∀ fuel', [4096, 4120, 4144].length ≤ fuel' → abc.clear intLayout fuel' = some l') ∧
      l'.head_ = 0 ∧ l'.tail_ = 0 ∧ l'.size = 0 ∧
      (∀ fuel', l'.traverse fuel' = some []) ∧
      l'.alloc_ = abc.alloc_.deallocateAll [4096, 4120, 4144] intLayout.size intLayout.align ∧
      l'.alloc_.allocated_.length + [4096, 4120, 4144].length = abc.alloc_.allocated_.length ∧
      (∀ a ∈ [4096, 4120, 4144], a ∉ l'.alloc_.allocated_.map Block.ptr ∧
        a ∈ l'.alloc_.freed_.map Block.ptr) ∧
      ([4096, 4120, 4144] = [] → l' = abc) :=
  ⟨abc_reachable.isWellFormed, abc_reachable.isBacked, by decide,
    clear_spec intLayout abc 3 [4096, 4120, 4144] abc_reachable.isWellFormed
      abc_reachable.isBacked (by decide)⟩

end pmr_list

namespace FixedListMemoryResource

/-- C17 (what the code does instead): the reuse path of `do_allocate` records the requested
size, not the size of the freed entry. A 64-byte block carved at 4096, released, reused for
an 8-byte request and released again is recorded as 8 bytes; a later 64-byte request cannot
reuse it and is carved afresh at 4160. -/
theorem reuse_shrinks_recorded_size :
    carved.freed_ = [⟨4096, 64⟩] ∧
    (carved.do_allocate 8 8).1 = .ok 4096 ∧
    (carved.do_allocate 8 8).2.allocated_ = [⟨4096, 8⟩] ∧
    shrunk.freed_ = [⟨4096, 8⟩] ∧
    (shrunk.do_allocate 64 8).1 = .ok 4160 ∧
    (shrunk.do_allocate 64 8).2.cursor_ = 4224 := by
  decide

end FixedListMemoryResource

/-! ## The list as the only client of its resource -/

namespace pmr_list

variable {α : Type}

theorem Exact.fresh {base C : Nat} (hbase : 0 < base) (hfit : base + C < 2 ^ 64)
    (heap : Nat → Node α) :
    (construct (FixedListMemoryResource.construct base C) heap).Exact [] :=
  ⟨Inv.construct (FixedListMemoryResource.Valid.of_construct hbase hfit) heap,
    by simp [construct, FixedListMemoryResource.construct]⟩

theorem Exact.erase_exact {l : pmr_list α} {pre post : List Nat} {a : Nat}
    (h : l.Exact (pre ++ a :: post)) (L : NodeLayout) :
    (l.erase L a).2.Exact (pre ++ post) := by
  refine ⟨h.inv.erase_inv L, ?_⟩
  obtain ⟨_, _, _, h4, _⟩ := h.inv.isList.unlink L
  obtain ⟨p, hit, q, e1, e2, _, e4⟩ :=
    h.inv.deallocate_node (by simp : a ∈ pre ++ a :: post) L.size L.align
  rw [h4, e4]
  have hp := h.perm
  rw [e1, List.map_append, List.map_cons, e2] at hp
  have hp2 := (List.perm_middle.symm.trans hp).trans List.perm_middle
  rw [List.map_append]
  exact hp2.cons_inv

theorem Exact.push_exact {l : pmr_list α} {ns : List Nat} (h : l.Exact ns) (L : NodeLayout)
    (op : Push α) : ∃ ns', (pmr_list.push L l op).2.Exact ns' := by
  cases op with
  | back v =>
    show ∃ ns', (l.emplace_back L (.ok v)).2.Exact ns'
    rcases h.inv.emplace_back_cases L v with ⟨n, _, _, hinv, _, _, hal⟩ | ⟨_, he, _⟩
    · obtain ⟨_, _, _, hall⟩ := h.inv.valid.do_allocate_ok hal
      refine ⟨ns ++ [n], hinv, ?_⟩
      rw [hall, List.map_append]
      exact List.Perm.append_right _ h.perm
    · exact ⟨ns, by rw [he]; exact h⟩
  | front v =>
    show ∃ ns', (l.emplace_front L (.ok v)).2.Exact ns'
    rcases h.inv.emplace_front_cases L v with ⟨n, _, _, hinv, _, _, hal⟩ | ⟨_, he, _⟩
    · obtain ⟨_, _, _, hall⟩ := h.inv.valid.do_allocate_ok hal
      refine ⟨n :: ns, hinv, ?_⟩
      rw [hall, List.map_append]
      exact (List.perm_append_singleton n _).trans (List.Perm.cons n h.perm)
    · exact ⟨ns, by rw [he]; exact h⟩

theorem Exact.clear_exact {l l' : pmr_list α} {ns : List Nat} (h : l.Exact ns)
    {L : NodeLayout} {fuel : Nat} (hc : l.clear L fuel = some l') : l'.Exact [] := by
  refine ⟨h.inv.clear hc, ?_⟩
  unfold pmr_list.clear at hc
  rw [clearLoop_eq] at hc
  cases hit : iterate l.heap fuel l.head_ with
  | none => rw [hit] at hc; cases hc
  | some ns' =>
    rw [hit] at hc
    simp only [Option.some.injEq] at hc
    subst hc
    obtain rfl := h.inv.isList.nodes_eq hit
    obtain ⟨_, e2, _, _⟩ := h.inv.valid.deallocateAll_ptrs h.inv.isList.nodup h.inv.owned
      L.size L.align
    have hnil : (l.alloc_.deallocateAll ns' L.size L.align).allocated_.map Block.ptr = [] := by
      apply List.eq_nil_iff_forall_not_mem.mpr
      intro x hx
      have := (e2 x).mp hx
      exact this.2 (h.perm.subset this.1)
    show ((l.alloc_.deallocateAll ns' L.size L.align).allocated_.map Block.ptr).Perm []
    rw [hnil]

theorem Exact.pop_back_exact {l : pmr_list α} {ns : List Nat} (h : l.Exact ns)
    (L : NodeLayout) : ∃ ns', (l.pop_back L).Exact ns' := by
  by_cases hne : ns = []
  · subst hne
    exact ⟨[], by rw [h.inv.isList.pop_back_nil]; exact h⟩
  · obtain ⟨pre, hpre⟩ := h.inv.isList.split_last hne
    rw [h.inv.isList.pop_back_eq hne]
    have h' : l.Exact (pre ++ l.tail_ :: []) := hpre ▸ h
    exact ⟨_, h'.erase_exact L⟩

theorem Exact.pop_front_exact {l : pmr_list α} {ns : List Nat} (h : l.Exact ns)
    (L : NodeLayout) : ∃ ns', (l.pop_front L).Exact ns' := by
  by_cases hne : ns = []
  · subst hne
    exact ⟨[], by rw [h.inv.isList.pop_front_nil]; exact h⟩
  · obtain ⟨post, hpost⟩ := h.inv.isList.split_first hne
    rw [h.inv.isList.pop_front_eq hne]
    have h' : l.Exact ([] ++ l.head_ :: post) := hpost ▸ h
    exact ⟨_, h'.erase_exact L⟩

theorem Exact.erase_any {l : pmr_list α} {ns : List Nat} (h : l.Exact ns) (L : NodeLayout)
    (it : Nat) (hit : it = l.end_ ∨ ∃ fuel ns, l.nodes fuel = some ns ∧ it ∈ ns) :
    ∃ ns', (l.erase L it).2.Exact ns' := by
  rcases hit with rfl | ⟨fuel, ns', hn, hmem⟩
  · exact ⟨ns, by rw [pmr_list.end_, erase_end]; exact h⟩
  · rw [h.inv.isList.nodes_eq hn] at hmem
    obtain ⟨pre, post, rfl⟩ := List.append_of_mem hmem
    exact ⟨_, h.erase_exact L⟩

theorem Steps.exact {L : NodeLayout} {l0 l : pmr_list α} {ns0 : List Nat}
    (h0 : l0.Exact ns0) (hs : Steps L l0 l) : ∃ ns, l.Exact ns := by
  induction hs with
  | refl => exact ⟨ns0, h0⟩
  | push_back v _ ih =>
    obtain ⟨ns, h⟩ := ih
    exact h.push_exact L (.back v)
  | push_front v _ ih =>
    obtain ⟨ns, h⟩ := ih
    exact h.push_exact L (.front v)
  | pop_back _ ih =>
    obtain ⟨ns, h⟩ := ih
    exact h.pop_back_exact L
  | pop_front _ ih =>
    obtain ⟨ns, h⟩ := ih
    exact h.pop_front_exact L
  | erase it hit _ ih =>
    obtain ⟨ns, h⟩ := ih
    exact h.erase_any L it hit
  | clear fuel hc _ ih =>
    obtain ⟨ns, h⟩ := ih
    exact ⟨[], h.clear_exact hc⟩

theorem Steps.after_pushes {L : NodeLayout} {l0 l : pmr_list α} (h : Steps L l0 l)
    (ops : List (Push α)) : Steps L l0 (pmr_list.pushAll L ops l).2 := by
  induction ops generalizing l with
  | nil => exact h
  | cons op ops ih =>
    have hstep : Steps L l0 (pmr_list.push L l op).2 := by
      cases op with
      | back v => exact Steps.push_back v h
      | front v => exact Steps.push_front v h
    cases hp : (pmr_list.push L l op).1 with
    | error e =>
      have : pmr_list.push L l op = (.error e, (pmr_list.push L l op).2) := Prod.ext hp rfl
      rw [pmr_list.pushAll, this]
      exact hstep
    | ok u =>
      cases u
      rw [pushAll_cons_ok L l op ops hp]
      exact ih hstep

/-- As long as no element constructor throws, a list that is the only client of a freshly
constructed resource neither leaks nor releases twice: in every state reached by
`push_back`, `push_front`, `pop_back`, `pop_front`, `erase` (valid or end iterator) and
`clear`, the addresses in the allocated ledger are exactly the addresses of the chain's
nodes (so the ledger has `size()` entries), and every `do_deallocate` the list can issue
next targets an address that is in the allocated ledger at that moment: the tail
(`pop_back`), the head (`pop_front`), any node (`erase`), and, for `clear`, each node after
the nodes before it have been released. -/
theorem ledger_exact_of_steps (L : NodeLayout) (base C : Nat) (heap : Nat → Node α)
    (l : pmr_list α) (hbase : 0 < base) (hfit : base + C < 2 ^ 64)
    (hs : Steps L (construct (FixedListMemoryResource.construct base C) heap) l) :
    ∃ ns, (∀ fuel, ns.length ≤ fuel → l.nodes fuel = some ns) ∧
      (l.alloc_.allocated_.map Block.ptr).Perm ns ∧
      l.alloc_.allocated_.length = l.size ∧
      (l.tail_ ≠ 0 → l.tail_ ∈ l.alloc_.allocated_.map Block.ptr) ∧
      (l.head_ ≠ 0 → l.head_ ∈ l.alloc_.allocated_.map Block.ptr) ∧
      (∀ it ∈ ns, it ∈ l.alloc_.allocated_.map Block.ptr) ∧
      (∀ pre a post, ns = pre ++ a :: post →
        a ∈ (l.alloc_.deallocateAll pre L.size L.align).allocated_.map Block.ptr) := by
  obtain ⟨ns, hex⟩ := Steps.exact (Exact.fresh hbase hfit heap) hs
  have hl := hex.inv.isList
  refine ⟨ns, fun fuel hf => hl.nodes hf, hex.perm, ?_, ?_, ?_, hex.inv.owned, ?_⟩
  · have := hex.perm.length_eq
    rw [List.length_map] at this
    rw [this]
    exact hl.sz_eq.symm
  · intro ht
    have hne : ns ≠ [] := fun e => ht (by rw [hl.tail_eq, e]; rfl)
    rw [hl.tail_eq]
    exact hex.inv.owned _ (lastD_mem hne 0)
  · intro hh
    have hne : ns ≠ [] := fun e => hh (by rw [hl.head_eq, e]; rfl)
    rw [hl.head_eq]
    exact hex.inv.owned _ (firstD_mem hne 0)
  · rintro pre a post rfl
    have hnd := hl.nodup
    rw [List.nodup_append] at hnd
    obtain ⟨_, e2, _, _⟩ := hex.inv.valid.deallocateAll_ptrs hnd.1
      (fun q hq => hex.inv.owned q (List.mem_append_left _ hq)) L.size L.align
    refine (e2 a).mpr ⟨hex.inv.owned a (by simp), fun hmem => ?_⟩
    exact hnd.2.2 hmem (List.mem_cons_self _ _)

/-- The list `[1, 2, 3]` on the fresh arena: the allocated ledger records exactly the three
node addresses. -/
theorem ledger_exact_of_steps_sample :
    Steps intLayout (construct (FixedListMemoryResource.construct 4096 1024) blank) abc ∧
    abc.alloc_.allocated_.map Block.ptr = [4096, 4120, 4144] ∧
    ∃ ns, (∀ fuel, ns.length ≤ fuel → abc.nodes fuel = some ns) ∧
      (abc.alloc_.allocated_.map Block.ptr).Perm ns ∧
      abc.alloc_.allocated_.length = abc.size ∧
      (abc.tail_ ≠ 0 → abc.tail_ ∈ abc.alloc_.allocated_.map Block.ptr) ∧
      (abc.head_ ≠ 0 → abc.head_ ∈ abc.alloc_.allocated_.map Block.ptr) ∧
      (∀ it ∈ ns, it ∈ abc.alloc_.allocated_.map Block.ptr) ∧
      (∀ pre a post, ns = pre ++ a :: post →
        a ∈ (abc.alloc_.deallocateAll pre intLayout.size intLayout.align).allocated_.map
          Block.ptr) :=
  ⟨Steps.after_pushes (Steps.refl _) _, by decide,
    ledger_exact_of_steps intLayout 4096 1024 blank abc (by decide) (by decide)
      (Steps.after_pushes (Steps.refl _) _)⟩

/-- The state with the stranded block is one that public calls reach: a single
`emplace_back` on the freshly constructed list. -/
theorem leaked_reachable : Reachable intLayout leaked :=
  Reachable.step (Reachable.construct arena blank arena_reachable)
    (Step.push_back _ (.error .element))

/-- Whenever the resource serves the node's request and the element's constructor then
throws, `emplace_back` and `emplace_front` end with the constructor's exception, leave
`head_`, `tail_`, `sz_` and every node as they were, and leave the block that was handed
out on the allocated ledger, where no node of the chain accounts for it. -/
theorem Inv.throw_leaks {l : pmr_list α} {ns : List Nat} (h : l.Inv ns) (L : NodeLayout)
    (e : Exn) {n : Nat} {m' : FixedListMemoryResource}
    (hal : l.alloc_.do_allocate L.size L.align = (.ok n, m')) :
    (l.emplace_back L (.error e) = (.error e, { l with alloc_ := m' }) ∧
      l.emplace_front L (.error e) = (.error e, { l with alloc_ := m' })) ∧
    n ∈ m'.allocated_.map Block.ptr ∧ n ∉ ns ∧
    m'.allocated_.length = l.alloc_.allocated_.length + 1 := by
  obtain ⟨_, hfresh, _, hall⟩ := h.valid.do_allocate_ok hal
  refine ⟨⟨by simp only [pmr_list.emplace_back, hal],
    by simp only [pmr_list.emplace_front, hal]⟩, ?_, fun hm => hfresh (h.owned n hm), ?_⟩
  · rw [hall]; simp
  · rw [hall]; simp

/-- C20 (what the code does instead): `emplace_back` runs `Traits::construct` after
`alloc_.allocate(1)` and releases nothing when the constructor throws. Take an element type
laid out as an `int` (a node of 24 bytes aligned to 8) whose constructor rejects its
argument, and the empty list on the fresh arena. The allocation succeeds at 4096 (no
allocation fails), the constructor throws, and the call leaves an empty list (`size()` 0,
null `head_` and `tail_`, a traversal that visits no node) whose resource still records the
block `(4096, 24)` as allocated: the ledger has one entry where `size()` is 0, and its
addresses are not those of the chain. No later `pop_back`, `pop_front`, `erase` or `clear`
releases the block. -/
theorem constructor_throw_leaks :
    (arena.do_allocate intLayout.size intLayout.align).1 = .ok 4096 ∧
    ((construct arena blank).emplace_back intLayout (.error .element)).1 = .error .element ∧
    leaked.size = 0 ∧ leaked.head_ = 0 ∧ leaked.tail_ = 0 ∧
    leaked.nodes 0 = some [] ∧
    leaked.alloc_.allocated_ = [⟨4096, 24⟩] ∧
    leaked.alloc_.allocated_.length ≠ leaked.size ∧
    ¬ (leaked.alloc_.allocated_.map Block.ptr).Perm [] ∧
    (leaked.pop_back intLayout).alloc_.allocated_ = [⟨4096, 24⟩] ∧
    (leaked.pop_front intLayout).alloc_.allocated_ = [⟨4096, 24⟩] ∧
    (leaked.erase intLayout leaked.end_).2.alloc_.allocated_ = [⟨4096, 24⟩] ∧
    (leaked.clear intLayout 1).map (fun l => l.alloc_.allocated_) = some [⟨4096, 24⟩] := by
  decide

end pmr_list

end Laba5
